import Mathlib

/-!
LockFreeLinkedList: a sorted singly linked list with marked successor links.

A shallow embedding of `src/lockfree_linkedlist.h`, run by one thread at a time.

* Memory is a list of cells; the cell with index `i` is the object at address
  `2 * (i + 1)`, so every object address is even, non-null and, when it is a
  pointer at all, below `2 ^ 64`.
* `Node::next` is the raw 64-bit word of the `std::atomic<Node*>`; its least
  significant bit is the deletion mark.
* `size_` is a `size_t`: `fetch_add` / `fetch_sub` wrap modulo `2 ^ 64`.
* `compare_exchange_weak` may fail spuriously; the field `spurious` lists, for
  the weak exchanges still to come, whether each one fails spuriously.
* Every loop of the source takes a fuel argument that bounds its iterations.
* Binding a reference `const T&` to `*p` reads nothing, also when `p` is
  `nullptr`; the null dereference is the read of the referent, where the
  comparator is called. `Emplace()` with an empty argument pack builds its node
  with `Node()`, whose `data` is `nullptr`.
* Hazard pointers (`reclaimer.h`) never touch a link or the counter; of the
  reclaimer only the queue of retired nodes is kept.
-/

namespace LockFree

/-- Ways in which a call can fail to return a value. -/
inductive Fault where
  | nullDeref
  | badAlloc
  | outOfFuel
  deriving DecidableEq

/-- The inner class `Node`: `T* data` (`none` is `nullptr`) and the raw word of `next`. -/
structure Node (T : Type) where
  data : Option T
  next : Nat
  deriving DecidableEq

/-- The members of the class, the memory they point into, the reclaimer's
queue and the schedule of spurious failures of `compare_exchange_weak`. -/
structure LockFreeLinkedList (T : Type) where
  mem : List (Option (Node T))
  head_ : Nat
  size_ : Nat
  retired : List Nat
  spurious : List Bool

/-- The number of values of a machine word (`unsigned long`, `size_t`, a pointer). -/
def WORD : Nat := 2 ^ 64

/-! ## The marked-pointer codec -/

/-- `(reinterpret_cast<unsigned long>(next) & 0x1) == 0x1` -/
def is_marked_reference (next : Nat) : Bool :=
  (next &&& 1) == 1

/-- `reinterpret_cast<unsigned long>(next) | 0x1` -/
def get_marked_reference (next : Nat) : Nat :=
  next ||| 1

/-- `reinterpret_cast<unsigned long>(next) & ~0x1`; the `int` constant `~0x1`
converts to the word `2 ^ 64 - 2`. -/
def get_unmarked_reference (next : Nat) : Nat :=
  next &&& (WORD - 2)

/-! ## The comparator -/

/-- `!(cmp()(data1, data2))` -/
def GreaterOrEquals {T : Type} (cmp : T → T → Bool) (data1 data2 : T) : Bool :=
  !(cmp data1 data2)

/-- `!cmp()(data1, data2) && !cmp()(data2, data1)` -/
def Equals {T : Type} (cmp : T → T → Bool) (data1 data2 : T) : Bool :=
  !cmp data1 data2 && !cmp data2 data1

/-! ## Memory -/

/-- Dereference of a `Node*`: the pointer has to be an even, non-null word
that is the address of a cell still allocated. -/
def load {T : Type} (mem : List (Option (Node T))) (p : Nat) : Option (Node T) :=
  if p % 2 = 0 ∧ 2 ≤ p ∧ p < WORD then (mem[p / 2 - 1]?).join else none

/-- Write of a whole node through a `Node*`. -/
def store {T : Type} (mem : List (Option (Node T))) (p : Nat) (n : Node T) :
    List (Option (Node T)) :=
  mem.set (p / 2 - 1) (some n)

/-- The operator `delete` on a `Node*`: the cell is gone. -/
def free {T : Type} (mem : List (Option (Node T))) (p : Nat) : List (Option (Node T)) :=
  mem.set (p / 2 - 1) none

/-- The operator `new Node(...)`: a fresh cell at the next address, or no
address at all when the 64-bit address space is used up. -/
def alloc {T : Type} (mem : List (Option (Node T))) (n : Node T) :
    Option (List (Option (Node T)) × Nat) :=
  if 2 * (mem.length + 1) < WORD then some (mem ++ [some n], 2 * (mem.length + 1)) else none

/-- `p->next.compare_exchange_strong(expected, desired)`: the new memory,
whether the exchange happened, and the updated `expected`. -/
def compare_exchange_strong {T : Type} (mem : List (Option (Node T))) (p expected desired : Nat) :
    Option (List (Option (Node T)) × Bool × Nat) :=
  match load mem p with
  | none => none
  | some n =>
    if n.next = expected then some (store mem p { n with next := desired }, true, expected)
    else some (mem, false, n.next)

/-- `p->next.compare_exchange_weak(expected, desired)`: as the strong one,
except that an exchange that could happen fails when the schedule says so. -/
def compare_exchange_weak {T : Type} (st : LockFreeLinkedList T) (p expected desired : Nat) :
    Option (LockFreeLinkedList T × Bool × Nat) :=
  match load st.mem p with
  | none => none
  | some n =>
    if n.next = expected then
      match st.spurious with
      | true :: rest => some ({ st with spurious := rest }, false, expected)
      | false :: rest =>
        some ({ st with mem := store st.mem p { n with next := desired }, spurious := rest },
          true, expected)
      | [] =>
        some ({ st with mem := store st.mem p { n with next := desired } }, true, expected)
    else some (st, false, n.next)

/-- `size_.fetch_add(1)` -/
def fetch_add (size : Nat) : Nat := (size + 1) % WORD

/-- `size_.fetch_sub(1)` -/
def fetch_sub (size : Nat) : Nat := (size + WORD - 1) % WORD

/-- Modelled from the spec: `reclaimer.h` is not part of the sources. The
spec's `RetireLater(node, destructor-function)` "enqueues a node for deferred
destruction"; the queue is the field `retired`. -/
def ReclaimLater {T : Type} (st : LockFreeLinkedList T) (p : Nat) : LockFreeLinkedList T :=
  { st with retired := p :: st.retired }

/-- Modelled from the spec: `reclaimer.h` is not part of the sources. The
spec's `TryReclaim()` "attempts to destroy any retired node not currently
protected"; when a retired node is destroyed is the reclaimer's choice, and
here every retired node stays in the queue. -/
def ReclaimNoHazardPointer {T : Type} (st : LockFreeLinkedList T) : LockFreeLinkedList T :=
  st

/-! ## The operations -/

/-- The constructor: `head_(new Node()), size_(0)`. -/
def init (T : Type) (spurious : List Bool) : LockFreeLinkedList T :=
  { mem := [some { data := none, next := 0 }], head_ := 2, size_ := 0, retired := [],
    spurious := spurious }

/-- `size()` -/
def size {T : Type} (st : LockFreeLinkedList T) : Nat := st.size_

/-- What one pass through the body of `while (true)` in `Search` ends in. -/
inductive Step (T : Type) where
  | try_again
  | ret (st : LockFreeLinkedList T) (prev cur : Nat) (found : Bool)
  | next (st : LockFreeLinkedList T) (prev cur : Nat)

/-- The body of the loop of `Search`, lines 299 to 342. -/
def SearchStep {T : Type} (cmp : T → T → Bool) (data : T) (st : LockFreeLinkedList T)
    (prev cur : Nat) : Except Fault (Step T) :=
  match load st.mem prev with
  | none => .error .nullDeref
  | some pn =>
    if pn.next ≠ cur then .ok .try_again
    else if cur = 0 then .ok (.ret st prev cur false)
    else
      match load st.mem cur with
      | none => .error .nullDeref
      | some cn =>
        let next := cn.next
        if is_marked_reference next then
          match compare_exchange_strong st.mem prev cur (get_unmarked_reference next) with
          | none => .error .nullDeref
          | some (_, false, _) => .ok .try_again
          | some (mem1, true, _) =>
            let st1 := ReclaimNoHazardPointer (ReclaimLater { st with mem := mem1 } cur)
            .ok (.next { st1 with size_ := fetch_sub st1.size_ } prev
              (get_unmarked_reference next))
        else
          match cn.data with
          | none => .error .nullDeref
          | some cur_data =>
            match load st.mem prev with
            | none => .error .nullDeref
            | some pn2 =>
              if pn2.next ≠ cur then .ok .try_again
              else if GreaterOrEquals cmp cur_data data then
                .ok (.ret st prev cur (Equals cmp cur_data data))
              else .ok (.next st cur next)

/-- The loop of `Search`; `try_again` starts over at the head. -/
def SearchLoop {T : Type} (cmp : T → T → Bool) (data : T) :
    Nat → LockFreeLinkedList T → Nat → Nat →
      Except Fault (LockFreeLinkedList T × Nat × Nat × Bool)
  | 0, _, _, _ => .error .outOfFuel
  | fuel + 1, st, prev, cur =>
    match SearchStep cmp data st prev cur with
    | .error e => .error e
    | .ok (.ret st1 prev1 cur1 found) => .ok (st1, prev1, cur1, found)
    | .ok (.next st1 prev1 cur1) => SearchLoop cmp data fuel st1 prev1 cur1
    | .ok .try_again =>
      match load st.mem st.head_ with
      | none => .error .nullDeref
      | some hn => SearchLoop cmp data fuel st st.head_ hn.next

/-- `Search(data, &prev, &cur, prev_hp, cur_hp)`: the new state, `*prev_ptr`,
`*cur_ptr` and the returned boolean. -/
def Search {T : Type} (cmp : T → T → Bool) (fuel : Nat) (st : LockFreeLinkedList T) (data : T) :
    Except Fault (LockFreeLinkedList T × Nat × Nat × Bool) :=
  match load st.mem st.head_ with
  | none => .error .nullDeref
  | some hn => SearchLoop cmp data fuel st st.head_ hn.next

/-- `Find(data)` -/
def Find {T : Type} (cmp : T → T → Bool) (fuel : Nat) (st : LockFreeLinkedList T) (data : T) :
    Except Fault (LockFreeLinkedList T × Bool) :=
  match Search cmp fuel st data with
  | .error e => .error e
  | .ok (st1, _, _, found) => .ok (st1, found)

/-- The `do ... while` loop of `Emplace`, lines 242 to 250, and what follows it,
for a node built from arguments, whose `data` is not null; `EmplaceLoopRef` is
the loop for any node. -/
def EmplaceLoop {T : Type} (cmp : T → T → Bool) :
    Nat → LockFreeLinkedList T → Nat → Except Fault (LockFreeLinkedList T × Bool)
  | 0, _, _ => .error .outOfFuel
  | fuel + 1, st, new_node =>
    match load st.mem new_node with
    | none => .error .nullDeref
    | some nn =>
      match nn.data with
      | none => .error .nullDeref
      | some new_data =>
        match Search cmp fuel st new_data with
        | .error e => .error e
        | .ok (st1, prev, cur, found) =>
          if found then .ok ({ st1 with mem := free st1.mem new_node }, false)
          else
            match load st1.mem new_node with
            | none => .error .nullDeref
            | some nn1 =>
              let st2 := { st1 with mem := store st1.mem new_node { nn1 with next := cur } }
              match compare_exchange_weak st2 prev cur new_node with
              | none => .error .nullDeref
              | some (st3, true, _) => .ok ({ st3 with size_ := fetch_add st3.size_ }, true)
              | some (st3, false, _) => EmplaceLoop cmp fuel st3 new_node

/-- `Emplace(args...)` for a pack that is not empty, the element already built
from `args`. -/
def Emplace {T : Type} (cmp : T → T → Bool) (fuel : Nat) (st : LockFreeLinkedList T) (data : T) :
    Except Fault (LockFreeLinkedList T × Bool) :=
  match alloc st.mem { data := some data, next := 0 } with
  | none => .error .badAlloc
  | some (mem1, new_node) => EmplaceLoop cmp fuel { st with mem := mem1 } new_node

/-- `Insert(data)`, by copy or by move: `return Emplace(data)`. -/
def Insert {T : Type} (cmp : T → T → Bool) (fuel : Nat) (st : LockFreeLinkedList T) (data : T) :
    Except Fault (LockFreeLinkedList T × Bool) :=
  Emplace cmp fuel st data

/-- The two nested `do ... while` loops of `Delete`, lines 262 to 272: `none`
is the `return false`, otherwise `prev`, `cur` and `next` on leaving the loops. -/
def DeleteLoop {T : Type} (cmp : T → T → Bool) (data : T) :
    Nat → LockFreeLinkedList T → Except Fault (LockFreeLinkedList T × Option (Nat × Nat × Nat))
  | 0, _ => .error .outOfFuel
  | fuel + 1, st =>
    match Search cmp fuel st data with
    | .error e => .error e
    | .ok (st1, prev, cur, found) =>
      if !found then .ok (st1, none)
      else
        match load st1.mem cur with
        | none => .error .nullDeref
        | some cn =>
          let next := cn.next
          if is_marked_reference next then DeleteLoop cmp data fuel st1
          else
            match compare_exchange_weak st1 cur next (get_marked_reference next) with
            | none => .error .nullDeref
            | some (st2, true, _) => .ok (st2, some (prev, cur, next))
            | some (st2, false, _) => DeleteLoop cmp data fuel st2

/-- `Delete(data)` -/
def Delete {T : Type} (cmp : T → T → Bool) (fuel : Nat) (st : LockFreeLinkedList T) (data : T) :
    Except Fault (LockFreeLinkedList T × Bool) :=
  match DeleteLoop cmp data fuel st with
  | .error e => .error e
  | .ok (st1, none) => .ok (st1, false)
  | .ok (st2, some (prev, cur, next)) =>
    match compare_exchange_strong st2.mem prev cur next with
    | none => .error .nullDeref
    | some (mem3, true, _) =>
      let st3 := { st2 with mem := mem3, size_ := fetch_sub st2.size_ }
      .ok (ReclaimNoHazardPointer (ReclaimLater st3 cur), true)
    | some (_, false, _) =>
      match Search cmp fuel st2 data with
      | .error e => .error e
      | .ok (st4, _, _, _) => .ok (st4, true)

/-! ## References that may be bound to `*nullptr`

`Search` and `Delete` take `const T& data`. Above, `data` is the element the
reference is bound to. Two callers bind it to `*p` for a `p` that can be null:
`Emplace()` with the empty argument pack (line 243, `*new_node->data` of a node
built by `Node()`) and `deleteHead` (line 147, `*getHeadData()`). The
definitions below are the same code for such a reference; bound to an element
they are the definitions above (`SearchRef_some`, `DeleteRef_some`,
`EmplacePack_some`). -/

/-- The body of the loop of `Search`, lines 299 to 342, for a parameter `data`
that is a reference bound to `*p`: `none` when `p` is `nullptr`. Binding a
reference reads nothing, neither at the call nor at line 321; `cur_data` and
`data` are read where the comparator is called, at line 329. -/
def SearchStepRef {T : Type} (cmp : T → T → Bool) (data : Option T)
    (st : LockFreeLinkedList T) (prev cur : Nat) : Except Fault (Step T) :=
  match load st.mem prev with
  | none => .error .nullDeref
  | some pn =>
    if pn.next ≠ cur then .ok .try_again
    else if cur = 0 then .ok (.ret st prev cur false)
    else
      match load st.mem cur with
      | none => .error .nullDeref
      | some cn =>
        let next := cn.next
        if is_marked_reference next then
          match compare_exchange_strong st.mem prev cur (get_unmarked_reference next) with
          | none => .error .nullDeref
          | some (_, false, _) => .ok .try_again
          | some (mem1, true, _) =>
            let st1 := ReclaimNoHazardPointer (ReclaimLater { st with mem := mem1 } cur)
            .ok (.next { st1 with size_ := fetch_sub st1.size_ } prev
              (get_unmarked_reference next))
        else
          match load st.mem prev with
          | none => .error .nullDeref
          | some pn2 =>
            if pn2.next ≠ cur then .ok .try_again
            else
              match cn.data, data with
              | some cur_data, some d =>
                if GreaterOrEquals cmp cur_data d then
                  .ok (.ret st prev cur (Equals cmp cur_data d))
                else .ok (.next st cur next)
              | _, _ => .error .nullDeref

/-- The loop of `Search` for a reference that may be null. -/
def SearchLoopRef {T : Type} (cmp : T → T → Bool) (data : Option T) :
    Nat → LockFreeLinkedList T → Nat → Nat →
      Except Fault (LockFreeLinkedList T × Nat × Nat × Bool)
  | 0, _, _, _ => .error .outOfFuel
  | fuel + 1, st, prev, cur =>
    match SearchStepRef cmp data st prev cur with
    | .error e => .error e
    | .ok (.ret st1 prev1 cur1 found) => .ok (st1, prev1, cur1, found)
    | .ok (.next st1 prev1 cur1) => SearchLoopRef cmp data fuel st1 prev1 cur1
    | .ok .try_again =>
      match load st.mem st.head_ with
      | none => .error .nullDeref
      | some hn => SearchLoopRef cmp data fuel st st.head_ hn.next

/-- `Search(data, &prev, &cur, prev_hp, cur_hp)` for a reference that may be null. -/
def SearchRef {T : Type} (cmp : T → T → Bool) (fuel : Nat) (st : LockFreeLinkedList T)
    (data : Option T) : Except Fault (LockFreeLinkedList T × Nat × Nat × Bool) :=
  match load st.mem st.head_ with
  | none => .error .nullDeref
  | some hn => SearchLoopRef cmp data fuel st st.head_ hn.next

/-- The `do ... while` loop of `Emplace`, lines 242 to 250, and what follows
it, for a node whose `data` may be `nullptr`: line 243 loads `new_node->data`
and binds the parameter of `Search` to what it points to. -/
def EmplaceLoopRef {T : Type} (cmp : T → T → Bool) :
    Nat → LockFreeLinkedList T → Nat → Except Fault (LockFreeLinkedList T × Bool)
  | 0, _, _ => .error .outOfFuel
  | fuel + 1, st, new_node =>
    match load st.mem new_node with
    | none => .error .nullDeref
    | some nn =>
      match SearchRef cmp fuel st nn.data with
      | .error e => .error e
      | .ok (st1, prev, cur, found) =>
        if found then .ok ({ st1 with mem := free st1.mem new_node }, false)
        else
          match load st1.mem new_node with
          | none => .error .nullDeref
          | some nn1 =>
            let st2 := { st1 with mem := store st1.mem new_node { nn1 with next := cur } }
            match compare_exchange_weak st2 prev cur new_node with
            | none => .error .nullDeref
            | some (st3, true, _) => .ok ({ st3 with size_ := fetch_add st3.size_ }, true)
            | some (st3, false, _) => EmplaceLoopRef cmp fuel st3 new_node

/-- `Emplace(args...)` for any argument pack: `some data` when the pack is not
empty and `Node(args...)`, line 33, builds the element `data` from it; `none`
for the empty pack, for which `new Node()` is the default constructor of line
30 and the new node holds no element. -/
def EmplacePack {T : Type} (cmp : T → T → Bool) (fuel : Nat) (st : LockFreeLinkedList T)
    (args : Option T) : Except Fault (LockFreeLinkedList T × Bool) :=
  match alloc st.mem { data := args, next := 0 } with
  | none => .error .badAlloc
  | some (mem1, new_node) => EmplaceLoopRef cmp fuel { st with mem := mem1 } new_node

/-- The two nested loops of `Delete`, lines 262 to 272, for a reference that
may be null. -/
def DeleteLoopRef {T : Type} (cmp : T → T → Bool) (data : Option T) :
    Nat → LockFreeLinkedList T → Except Fault (LockFreeLinkedList T × Option (Nat × Nat × Nat))
  | 0, _ => .error .outOfFuel
  | fuel + 1, st =>
    match SearchRef cmp fuel st data with
    | .error e => .error e
    | .ok (st1, prev, cur, found) =>
      if !found then .ok (st1, none)
      else
        match load st1.mem cur with
        | none => .error .nullDeref
        | some cn =>
          let next := cn.next
          if is_marked_reference next then DeleteLoopRef cmp data fuel st1
          else
            match compare_exchange_weak st1 cur next (get_marked_reference next) with
            | none => .error .nullDeref
            | some (st2, true, _) => .ok (st2, some (prev, cur, next))
            | some (st2, false, _) => DeleteLoopRef cmp data fuel st2

/-- `Delete(data)` for a reference that may be null. -/
def DeleteRef {T : Type} (cmp : T → T → Bool) (fuel : Nat) (st : LockFreeLinkedList T)
    (data : Option T) : Except Fault (LockFreeLinkedList T × Bool) :=
  match DeleteLoopRef cmp data fuel st with
  | .error e => .error e
  | .ok (st1, none) => .ok (st1, false)
  | .ok (st2, some (prev, cur, next)) =>
    match compare_exchange_strong st2.mem prev cur next with
    | none => .error .nullDeref
    | some (mem3, true, _) =>
      let st3 := { st2 with mem := mem3, size_ := fetch_sub st2.size_ }
      .ok (ReclaimNoHazardPointer (ReclaimLater st3 cur), true)
    | some (_, false, _) =>
      match SearchRef cmp fuel st2 data with
      | .error e => .error e
      | .ok (st4, _, _, _) => .ok (st4, true)

/-! ## The list a state holds -/

/-- A node linked in the chain, as the list sees it: its address, the element
`*data` and whether its own `next` word carries the deletion mark. -/
structure Cell (T : Type) where
  addr : Nat
  elem : T
  marked : Bool
  deriving DecidableEq

/-- The nodes reached from the pointer `p` by following the unmarked part of
each `next` word up to `nullptr` are exactly the cells of the list, in order. -/
def IsChain {T : Type} (mem : List (Option (Node T))) : Nat → List (Cell T) → Prop
  | p, [] => p = 0
  | p, c :: rest =>
    p = c.addr ∧ ∃ nx, load mem p = some ⟨some c.elem, nx⟩ ∧ nx < WORD ∧
      is_marked_reference nx = c.marked ∧ IsChain mem (get_unmarked_reference nx) rest

/-- The chain that starts at `head_->next` is the list of cells `l`; the head
is a sentinel without an element. -/
def Linked {T : Type} (st : LockFreeLinkedList T) (l : List (Cell T)) : Prop :=
  ∃ hn, load st.mem st.head_ = some ⟨none, hn⟩ ∧ IsChain st.mem hn l

/-- The chain that starts at `head_->next` is the one node `d`, which is not
marked and holds no element: the node of an `Emplace()` with an empty argument
pack. -/
def LinkedNull {T : Type} (st : LockFreeLinkedList T) (d : Nat) : Prop :=
  load st.mem st.head_ = some ⟨none, d⟩ ∧ load st.mem d = some ⟨none, 0⟩

/-- The addresses of the cells. -/
def addrs {T : Type} (l : List (Cell T)) : List Nat := l.map Cell.addr

/-- The elements of the cells. -/
def elems {T : Type} (l : List (Cell T)) : List T := l.map Cell.elem

/-- A node that `Search` for `data` does not stop at: it is logically deleted,
or its element is less than `data`. -/
def skips {T : Type} (cmp : T → T → Bool) (data : T) (c : Cell T) : Bool :=
  c.marked || cmp c.elem data

/-- The nodes in front of the one `Search` stops at. -/
def passed {T : Type} (cmp : T → T → Bool) (data : T) (l : List (Cell T)) : List (Cell T) :=
  l.takeWhile (skips cmp data)

/-- The chain from the node `Search` stops at: the first unmarked node whose
element is not less than `data`, and everything behind it. -/
def stopAt {T : Type} (cmp : T → T → Bool) (data : T) (l : List (Cell T)) : List (Cell T) :=
  l.dropWhile (skips cmp data)

/-- The cells without the deletion mark. -/
def live {T : Type} (l : List (Cell T)) : List (Cell T) := l.filter (fun c => !c.marked)

/-- The cells with the deletion mark. -/
def dead {T : Type} (l : List (Cell T)) : List (Cell T) := l.filter (fun c => c.marked)

/-- The pointer to the first cell, `nullptr` for the empty chain. -/
def firstAddr {T : Type} : List (Cell T) → Nat
  | [] => 0
  | c :: _ => c.addr

/-- The address of the last cell, `d` for the empty chain. -/
def lastAddr {T : Type} (d : Nat) : List (Cell T) → Nat
  | [] => d
  | c :: l => lastAddr c.addr l

/-- Whether the first cell holds an element equal to `data`. -/
def foundAt {T : Type} (cmp : T → T → Bool) (data : T) : List (Cell T) → Bool
  | [] => false
  | c :: _ => Equals cmp c.elem data

/-! ## Comparators and what holds of a chain -/

/-- The comparator is a strict weak order, as `std::less` and every strict
total order are: irreflexive, transitive, and an element between two ordered
ones is ordered with one of them. -/
structure StrictWeakOrder {T : Type} (cmp : T → T → Bool) : Prop where
  irrefl : ∀ a, cmp a a = false
  trans : ∀ a b c, cmp a b = true → cmp b c = true → cmp a c = true
  split : ∀ a b c, cmp a c = true → cmp a b = true ∨ cmp b c = true

/-- The comparator is a strict total order: irreflexive, transitive, and two
elements neither of which is less than the other are the same. -/
structure StrictTotalOrder {T : Type} (cmp : T → T → Bool) : Prop where
  irrefl : ∀ a, cmp a a = false
  trans : ∀ a b c, cmp a b = true → cmp b c = true → cmp a c = true
  total : ∀ a b, cmp a b = false → cmp b a = false → a = b

/-- The chain is strictly increasing under the comparator, marked nodes included. -/
def Sorted {T : Type} (cmp : T → T → Bool) (l : List (Cell T)) : Prop :=
  l.Pairwise (fun a b => cmp a.elem b.elem = true)

/-- No node of the chain is logically deleted. -/
def AllLive {T : Type} (l : List (Cell T)) : Prop := ∀ c ∈ l, c.marked = false

/-- No two nodes of the chain hold elements that compare equal. -/
def NoDuplicates {T : Type} (cmp : T → T → Bool) (l : List (Cell T)) : Prop :=
  l.Pairwise (fun a b => Equals cmp a.elem b.elem = false ∧ Equals cmp b.elem a.elem = false)

/-! ## Two lists used to instantiate the theorems -/

/-- The comparator `std::less` on natural numbers. -/
def natLess (a b : Nat) : Bool := decide (a < b)

/-- A list holding 3, 5 and 7: the head at address 2, then the nodes at the
addresses 6, 4 and 8. -/
def sample : LockFreeLinkedList Nat :=
  { mem := [some ⟨none, 6⟩, some ⟨some 5, 8⟩, some ⟨some 3, 4⟩, some ⟨some 7, 0⟩],
    head_ := 2, size_ := 3, retired := [], spurious := [true, false] }

/-- The cells of `sample`. -/
def sampleCells : List (Cell Nat) := [⟨6, 3, false⟩, ⟨4, 5, false⟩, ⟨8, 7, false⟩]

/-- The list `sample` after another thread has marked the node holding 5 and
has not unlinked it yet. -/
def sampleMarked : LockFreeLinkedList Nat :=
  { mem := [some ⟨none, 6⟩, some ⟨some 5, 9⟩, some ⟨some 3, 4⟩, some ⟨some 7, 0⟩],
    head_ := 2, size_ := 3, retired := [], spurious := [] }

/-- The cells of `sampleMarked`. -/
def sampleMarkedCells : List (Cell Nat) := [⟨6, 3, false⟩, ⟨4, 5, true⟩, ⟨8, 7, false⟩]

/-! ## Sequences of calls -/

/-- A call of one of the public operations. `Emplace data` is `Emplace(args...)`
with arguments from which the constructor of `T` builds `data`; `EmplaceNoArgs`
is `Emplace()` with the empty argument pack. -/
inductive Op (T : Type) where
  | Insert (data : T)
  | Emplace (data : T)
  | EmplaceNoArgs
  | Delete (data : T)
  | Find (data : T)
  deriving DecidableEq

/-- Whether the node the call works with holds an element: every call does,
except `Emplace()` with the empty argument pack. -/
def Op.carriesElement {T : Type} : Op T → Bool
  | .EmplaceNoArgs => false
  | _ => true

/-- Whether the call is an `Insert`. -/
def Op.isInsert {T : Type} : Op T → Bool
  | .Insert _ => true
  | _ => false

/-- Whether the call is an `Emplace`. -/
def Op.isEmplace {T : Type} : Op T → Bool
  | .Emplace _ => true
  | .EmplaceNoArgs => true
  | _ => false

/-- Whether the call is a `Delete`. -/
def Op.isDelete {T : Type} : Op T → Bool
  | .Delete _ => true
  | _ => false

/-- One call, run to its return. -/
def call {T : Type} (cmp : T → T → Bool) (fuel : Nat) (st : LockFreeLinkedList T) :
    Op T → Except Fault (LockFreeLinkedList T × Bool)
  | .Insert data => Insert cmp fuel st data
  | .Emplace data => Emplace cmp fuel st data
  | .EmplaceNoArgs => EmplacePack cmp fuel st none
  | .Delete data => Delete cmp fuel st data
  | .Find data => Find cmp fuel st data

/-- Calls executed one after another, each returning before the next starts:
the final state and the returned booleans in order. -/
def run {T : Type} (cmp : T → T → Bool) (fuel : Nat) :
    LockFreeLinkedList T → List (Op T) → Except Fault (LockFreeLinkedList T × List Bool)
  | st, [] => .ok (st, [])
  | st, op :: ops =>
    match call cmp fuel st op with
    | .error e => .error e
    | .ok (st1, b) =>
      match run cmp fuel st1 ops with
      | .error e => .error e
      | .ok (st2, bs) => .ok (st2, b :: bs)

/-- The number of calls of the kind `p` that returned `true`. -/
def countTrue {T : Type} (p : Op T → Bool) : List (Op T) → List Bool → Nat
  | op :: ops, b :: bs => (if p op && b then 1 else 0) + countTrue p ops bs
  | _, _ => 0

/-! ## `Delete` entered behind its `Search` -/

/-- The loops of `Delete` entered at line 267: the `Search` of the current pass
has returned `true` with `prev` and `cur`, and what that pass still does is
load `cur->next`, test the mark and try the marking exchange; every further
pass is a pass of `DeleteLoop`. -/
def DeleteLoopFrom267 {T : Type} (cmp : T → T → Bool) (data : T) (fuel : Nat)
    (st : LockFreeLinkedList T) (prev cur : Nat) :
    Except Fault (LockFreeLinkedList T × Option (Nat × Nat × Nat)) :=
  match load st.mem cur with
  | none => .error .nullDeref
  | some cn =>
    let next := cn.next
    if is_marked_reference next then DeleteLoop cmp data fuel st
    else
      match compare_exchange_weak st cur next (get_marked_reference next) with
      | none => .error .nullDeref
      | some (st2, true, _) => .ok (st2, some (prev, cur, next))
      | some (st2, false, _) => DeleteLoop cmp data fuel st2

/-- `Delete` behind its loops, lines 274 to 286, given what the loops ended in. -/
def DeleteAfterLoops {T : Type} (cmp : T → T → Bool) (fuel : Nat) (data : T) :
    Except Fault (LockFreeLinkedList T × Option (Nat × Nat × Nat)) →
      Except Fault (LockFreeLinkedList T × Bool)
  | .error e => .error e
  | .ok (st1, none) => .ok (st1, false)
  | .ok (st2, some (prev, cur, next)) =>
    match compare_exchange_strong st2.mem prev cur next with
    | none => .error .nullDeref
    | some (mem3, true, _) =>
      let st3 := { st2 with mem := mem3, size_ := fetch_sub st2.size_ }
      .ok (ReclaimNoHazardPointer (ReclaimLater st3 cur), true)
    | some (_, false, _) =>
      match Search cmp fuel st2 data with
      | .error e => .error e
      | .ok (st4, _, _, _) => .ok (st4, true)

/-- `Delete` continued from line 267, where its `Search` has just returned
`true` with `prev` and `cur`, in a state another thread may have changed since. -/
def DeleteFrom267 {T : Type} (cmp : T → T → Bool) (fuel : Nat) (st : LockFreeLinkedList T)
    (data : T) (prev cur : Nat) : Except Fault (LockFreeLinkedList T × Bool) :=
  DeleteAfterLoops cmp fuel data (DeleteLoopFrom267 cmp data fuel st prev cur)

/-- The list `sample` as `Delete(5)` finds it at line 267 when, after its
`Search` has returned, another thread has marked the node holding 5. -/
def sampleRaced : LockFreeLinkedList Nat :=
  { sample with mem := store sample.mem 4 ⟨some 5, get_marked_reference 8⟩ }

/-! ## The single-threaded accessors -/

/-- `getHeadData()`: the returned `T*`, `none` for `nullptr`. -/
def getHeadData {T : Type} (st : LockFreeLinkedList T) : Except Fault (Option T) :=
  if st.head_ = 0 then .ok none
  else
    match load st.mem st.head_ with
    | none => .error .nullDeref
    | some hn =>
      if hn.next ≠ 0 then
        match load st.mem hn.next with
        | none => .error .nullDeref
        | some x => .ok x.data
      else .ok none

/-- `deleteHead()`: `const T& href(*getHeadData()); return Delete(href);`.
Line 147 binds the reference and reads nothing, also when `getHeadData()` is
`nullptr`. -/
def deleteHead {T : Type} (cmp : T → T → Bool) (fuel : Nat) (st : LockFreeLinkedList T) :
    Except Fault (LockFreeLinkedList T × Bool) :=
  match getHeadData st with
  | .error e => .error e
  | .ok href => DeleteRef cmp fuel st href

/-- What `show` inserts into the stream. -/
inductive Out (T : Type) where
  | text (s : String)
  | num (n : Nat)
  | elem (x : T)
  | endl
  deriving DecidableEq

/-- `show(ous)`: what has been written to `ous`, and whether the call returned.
The operands of `<<` are evaluated from left to right. -/
def show_ {T : Type} (st : LockFreeLinkedList T) : List (Out T) × Except Fault Unit :=
  let written := [Out.text "size=", Out.num (size st), Out.endl]
  if st.head_ = 0 then (written ++ [Out.text "empty list\n"], .ok ())
  else
    match load st.mem st.head_ with
    | none => (written ++ [Out.text "head data is "], .error .nullDeref)
    | some x =>
      match x.data with
      | none => (written ++ [Out.text "head data is "], .error .nullDeref)
      | some d => (written ++ [Out.text "head data is ", Out.elem d, Out.endl, Out.endl], .ok ())

/-! ## Counting the passes, the restarts and the calls of `Search` -/

/-- The loop of `Search` with two counters: the passes through the body of
`while (true)` and the jumps to `try_again`. -/
def SearchLoopCounted {T : Type} (cmp : T → T → Bool) (data : T) :
    Nat → LockFreeLinkedList T → Nat → Nat →
      Except Fault ((LockFreeLinkedList T × Nat × Nat × Bool) × Nat × Nat)
  | 0, _, _, _ => .error .outOfFuel
  | fuel + 1, st, prev, cur =>
    match SearchStep cmp data st prev cur with
    | .error e => .error e
    | .ok (.ret st1 prev1 cur1 found) => .ok ((st1, prev1, cur1, found), 1, 0)
    | .ok (.next st1 prev1 cur1) =>
      match SearchLoopCounted cmp data fuel st1 prev1 cur1 with
      | .error e => .error e
      | .ok (r, passes, restarts) => .ok (r, passes + 1, restarts)
    | .ok .try_again =>
      match load st.mem st.head_ with
      | none => .error .nullDeref
      | some hn =>
        match SearchLoopCounted cmp data fuel st st.head_ hn.next with
        | .error e => .error e
        | .ok (r, passes, restarts) => .ok (r, passes + 1, restarts + 1)

/-- `Search` with the two counters of its loop. -/
def SearchCounted {T : Type} (cmp : T → T → Bool) (fuel : Nat) (st : LockFreeLinkedList T)
    (data : T) : Except Fault ((LockFreeLinkedList T × Nat × Nat × Bool) × Nat × Nat) :=
  match load st.mem st.head_ with
  | none => .error .nullDeref
  | some hn => SearchLoopCounted cmp data fuel st st.head_ hn.next

/-- `Find` with the number of its calls of `Search`. -/
def FindCounted {T : Type} (cmp : T → T → Bool) (fuel : Nat) (st : LockFreeLinkedList T)
    (data : T) : Except Fault ((LockFreeLinkedList T × Bool) × Nat) :=
  match Search cmp fuel st data with
  | .error e => .error e
  | .ok (st1, _, _, found) => .ok ((st1, found), 1)

/-- The loop of `Emplace` with the number of its calls of `Search`. -/
def EmplaceLoopCounted {T : Type} (cmp : T → T → Bool) :
    Nat → LockFreeLinkedList T → Nat → Except Fault ((LockFreeLinkedList T × Bool) × Nat)
  | 0, _, _ => .error .outOfFuel
  | fuel + 1, st, new_node =>
    match load st.mem new_node with
    | none => .error .nullDeref
    | some nn =>
      match nn.data with
      | none => .error .nullDeref
      | some new_data =>
        match Search cmp fuel st new_data with
        | .error e => .error e
        | .ok (st1, prev, cur, found) =>
          if found then .ok (({ st1 with mem := free st1.mem new_node }, false), 1)
          else
            match load st1.mem new_node with
            | none => .error .nullDeref
            | some nn1 =>
              let st2 := { st1 with mem := store st1.mem new_node { nn1 with next := cur } }
              match compare_exchange_weak st2 prev cur new_node with
              | none => .error .nullDeref
              | some (st3, true, _) => .ok (({ st3 with size_ := fetch_add st3.size_ }, true), 1)
              | some (st3, false, _) =>
                match EmplaceLoopCounted cmp fuel st3 new_node with
                | .error e => .error e
                | .ok (r, searches) => .ok (r, searches + 1)

/-- `Emplace` with the number of its calls of `Search`. -/
def EmplaceCounted {T : Type} (cmp : T → T → Bool) (fuel : Nat) (st : LockFreeLinkedList T)
    (data : T) : Except Fault ((LockFreeLinkedList T × Bool) × Nat) :=
  match alloc st.mem { data := some data, next := 0 } with
  | none => .error .badAlloc
  | some (mem1, new_node) => EmplaceLoopCounted cmp fuel { st with mem := mem1 } new_node

/-- The loops of `Delete` with the number of their calls of `Search`. -/
def DeleteLoopCounted {T : Type} (cmp : T → T → Bool) (data : T) :
    Nat → LockFreeLinkedList T →
      Except Fault ((LockFreeLinkedList T × Option (Nat × Nat × Nat)) × Nat)
  | 0, _ => .error .outOfFuel
  | fuel + 1, st =>
    match Search cmp fuel st data with
    | .error e => .error e
    | .ok (st1, prev, cur, found) =>
      if !found then .ok ((st1, none), 1)
      else
        match load st1.mem cur with
        | none => .error .nullDeref
        | some cn =>
          let next := cn.next
          if is_marked_reference next then
            match DeleteLoopCounted cmp data fuel st1 with
            | .error e => .error e
            | .ok (r, searches) => .ok (r, searches + 1)
          else
            match compare_exchange_weak st1 cur next (get_marked_reference next) with
            | none => .error .nullDeref
            | some (st2, true, _) => .ok ((st2, some (prev, cur, next)), 1)
            | some (st2, false, _) =>
              match DeleteLoopCounted cmp data fuel st2 with
              | .error e => .error e
              | .ok (r, searches) => .ok (r, searches + 1)

/-- Where `Delete` returns: at line 265, behind the unlinking exchange of
lines 274 to 279, or behind the `Search` of line 283. -/
inductive DeleteBranch where
  | not_found
  | direct_unlink
  | fallback_search
  deriving DecidableEq

/-- `Delete` with the number of its calls of `Search` and the branch it returns from. -/
def DeleteCounted {T : Type} (cmp : T → T → Bool) (fuel : Nat) (st : LockFreeLinkedList T)
    (data : T) : Except Fault ((LockFreeLinkedList T × Bool) × Nat × DeleteBranch) :=
  match DeleteLoopCounted cmp data fuel st with
  | .error e => .error e
  | .ok ((st1, none), searches) => .ok ((st1, false), searches, .not_found)
  | .ok ((st2, some (prev, cur, next)), searches) =>
    match compare_exchange_strong st2.mem prev cur next with
    | none => .error .nullDeref
    | some (mem3, true, _) =>
      let st3 := { st2 with mem := mem3, size_ := fetch_sub st2.size_ }
      .ok ((ReclaimNoHazardPointer (ReclaimLater st3 cur), true), searches, .direct_unlink)
    | some (_, false, _) =>
      match Search cmp fuel st2 data with
      | .error e => .error e
      | .ok (st4, _, _, _) => .ok ((st4, true), searches + 1, .fallback_search)

/-! ## Loads and stores -/

variable {T : Type}

theorem load_eq_some_iff {mem : List (Option (Node T))} {p : Nat} {n : Node T} :
    load mem p = some n ↔ (p % 2 = 0 ∧ 2 ≤ p ∧ p < WORD) ∧ mem[p / 2 - 1]? = some (some n) := by
  unfold load
  split
  · rename_i h
    simp only [h, and_self, if_true, true_and]
    rcases mem[p / 2 - 1]? with _ | _ | _ <;> simp [Option.join]
  · rename_i h
    simp [h]

/-- A node written through a valid pointer is the node read back. -/
theorem load_store_same {mem : List (Option (Node T))} {p : Nat} {n0 n : Node T}
    (h : load mem p = some n0) : load (store mem p n) p = some n := by
  rw [load_eq_some_iff] at h ⊢
  refine ⟨h.1, ?_⟩
  have hlt : p / 2 - 1 < mem.length := by
    have := h.2
    rw [List.getElem?_eq_some] at this
    exact this.1
  simp [store, List.getElem?_set, hlt]

/-- A write through a valid pointer leaves every other address as it was. -/
theorem load_store_ne {mem : List (Option (Node T))} {p q : Nat} {n0 n : Node T}
    (h : load mem p = some n0) (hne : q ≠ p) : load (store mem p n) q = load mem q := by
  rw [load_eq_some_iff] at h
  unfold load store
  split
  · rename_i hq
    have : p / 2 - 1 ≠ q / 2 - 1 := by omega
    rw [List.getElem?_set_ne this]
  · rfl

theorem load_free_ne {mem : List (Option (Node T))} {p q : Nat} {n0 : Node T}
    (h : load mem p = some n0) (hne : q ≠ p) : load (free mem p) q = load mem q := by
  rw [load_eq_some_iff] at h
  unfold load free
  split
  · rename_i hq
    have : p / 2 - 1 ≠ q / 2 - 1 := by omega
    rw [List.getElem?_set_ne this]
  · rfl

/-- An allocation leaves every other address as it was. -/
theorem load_alloc_ne {mem mem1 : List (Option (Node T))} {a q : Nat} {n : Node T}
    (h : alloc mem n = some (mem1, a)) (hne : q ≠ a) : load mem1 q = load mem q := by
  unfold alloc at h
  split at h
  · simp only [Option.some.injEq, Prod.mk.injEq] at h
    obtain ⟨rfl, rfl⟩ := h
    unfold load
    split
    · rename_i hq
      have : q / 2 - 1 ≠ mem.length := by omega
      rcases Nat.lt_or_gt_of_ne this with h1 | h1
      · rw [List.getElem?_append_left h1]
      · rw [List.getElem?_eq_none (by simp; omega), List.getElem?_eq_none (by omega)]
    · rfl
  · simp at h

/-- The allocated address was free and now holds the new node. -/
theorem load_alloc_same {mem mem1 : List (Option (Node T))} {a : Nat} {n : Node T}
    (h : alloc mem n = some (mem1, a)) :
    load mem1 a = some n ∧ load mem a = none ∧ mem1.length = mem.length + 1 := by
  unfold alloc at h
  split at h
  · rename_i hw
    simp only [Option.some.injEq, Prod.mk.injEq] at h
    obtain ⟨rfl, rfl⟩ := h
    refine ⟨?_, ?_, by simp⟩
    · rw [load_eq_some_iff]
      refine ⟨⟨by omega, by omega, hw⟩, ?_⟩
      have : 2 * (mem.length + 1) / 2 - 1 = mem.length := by omega
      rw [this]; simp
    · unfold load
      split
      · have : 2 * (mem.length + 1) / 2 - 1 = mem.length := by omega
        rw [this]; simp
      · rfl
  · simp at h

/-! ## The codec in arithmetic -/

theorem is_marked_reference_eq (n : Nat) : is_marked_reference n = decide (n % 2 = 1) := by
  unfold is_marked_reference
  rw [Nat.and_one_is_mod]
  by_cases h : n % 2 = 1 <;> simp [h]

/-- Clearing the mark keeps the low 64 bits and subtracts the lowest one. -/
theorem get_unmarked_reference_eq (n : Nat) :
    get_unmarked_reference n = n % 2 ^ 64 - n % 2 := by
  unfold get_unmarked_reference WORD
  apply Nat.eq_of_testBit_eq
  intro i
  rw [Nat.testBit_and]
  have h2 : (2 ^ 64 - 2 : Nat) = 2 * (2 ^ 63 - 1) := by norm_num
  have h3 : n % 2 ^ 64 - n % 2 = 2 * (n / 2 % 2 ^ 63) := by omega
  rw [h2, h3]
  cases i with
  | zero => simp [Nat.testBit_zero]
  | succ j =>
    rw [Nat.testBit_succ, Nat.testBit_succ, Nat.testBit_succ]
    simp only [Nat.mul_div_cancel_left _ (show 0 < 2 by norm_num)]
    rw [Nat.testBit_mod_two_pow, Nat.testBit_two_pow_sub_one]
    simp [Bool.and_comm]

/-- Setting the mark adds one to an even word and leaves an odd one. -/
theorem get_marked_reference_eq (n : Nat) : get_marked_reference n = n + (1 - n % 2) := by
  unfold get_marked_reference
  apply Nat.eq_of_testBit_eq
  intro i
  rw [Nat.testBit_or]
  cases i with
  | zero =>
    simp only [Nat.testBit_zero]
    rcases Nat.mod_two_eq_zero_or_one n with h | h <;> simp [h]
    omega
  | succ j =>
    rw [Nat.testBit_succ, Nat.testBit_succ, Nat.testBit_succ]
    have : (n + (1 - n % 2)) / 2 = n / 2 := by omega
    rw [this]; simp

theorem unmark_of_unmarked {n : Nat} (hw : n < WORD) (hm : is_marked_reference n = false) :
    get_unmarked_reference n = n := by
  rw [get_unmarked_reference_eq]
  rw [is_marked_reference_eq] at hm
  simp at hm
  unfold WORD at hw
  omega

theorem unmark_lt (n : Nat) : get_unmarked_reference n < WORD := by
  rw [get_unmarked_reference_eq]; unfold WORD
  have := Nat.mod_lt n (show 0 < 2 ^ 64 by norm_num)
  omega

theorem unmark_unmarked (n : Nat) : is_marked_reference (get_unmarked_reference n) = false := by
  rw [get_unmarked_reference_eq, is_marked_reference_eq]
  simp
  omega

theorem load_valid {mem : List (Option (Node T))} {p : Nat} {n : Node T}
    (h : load mem p = some n) : p % 2 = 0 ∧ 2 ≤ p ∧ p < WORD :=
  (load_eq_some_iff.mp h).1

theorem ptr_unmarked {mem : List (Option (Node T))} {p : Nat} {n : Node T}
    (h : load mem p = some n) : is_marked_reference p = false := by
  rw [is_marked_reference_eq]
  have := load_valid h
  simp; omega

/-! ### Chains -/
/-- A chain only depends on the nodes at its own addresses. -/
theorem IsChain.congr_mem {mem mem1 : List (Option (Node T))} :
    ∀ {l : List (Cell T)} {p : Nat}, (∀ a ∈ addrs l, load mem1 a = load mem a) →
      IsChain mem p l → IsChain mem1 p l
  | [], _, _, h => h
  | c :: rest, p, hl, h => by
    obtain ⟨hp, nx, hld, hw, hm, hrest⟩ := h
    refine ⟨hp, nx, ?_, hw, hm, IsChain.congr_mem (fun a ha => hl a ?_) hrest⟩
    · rw [hl p (by simp [addrs, hp])]; exact hld
    · simp only [addrs, List.map_cons, List.mem_cons] at ha ⊢
      exact Or.inr ha

/-- From one pointer there is one chain. -/
theorem IsChain.unique {mem : List (Option (Node T))} :
    ∀ {l1 l2 : List (Cell T)} {p : Nat}, IsChain mem p l1 → IsChain mem p l2 → l1 = l2
  | [], [], _, _, _ => rfl
  | [], c :: _, p, h1, h2 => by
    obtain ⟨_, nx, hld, _⟩ := h2
    have := load_valid hld
    simp only [IsChain] at h1
    omega
  | c :: _, [], p, h1, h2 => by
    obtain ⟨_, nx, hld, _⟩ := h1
    have := load_valid hld
    simp only [IsChain] at h2
    omega
  | c1 :: r1, c2 :: r2, p, h1, h2 => by
    obtain ⟨hp1, nx1, hld1, _, hm1, hr1⟩ := h1
    obtain ⟨hp2, nx2, hld2, _, hm2, hr2⟩ := h2
    rw [hld1] at hld2
    simp only [Option.some.injEq, Node.mk.injEq] at hld2
    obtain ⟨he, hn⟩ := hld2
    subst hn
    have := IsChain.unique hr1 hr2
    subst this
    congr 1
    cases c1; cases c2
    simp_all

theorem IsChain.suffix {mem : List (Option (Node T))} :
    ∀ {l : List (Cell T)} {p : Nat} {a : Nat}, IsChain mem p l → a ∈ addrs l →
      ∃ pre post, l = pre ++ post ∧ post ≠ [] ∧ IsChain mem a post
  | [], _, _, _, ha => by simp [addrs] at ha
  | c :: rest, p, a, h, ha => by
    simp only [addrs, List.map_cons, List.mem_cons] at ha
    rcases ha with ha | ha
    · refine ⟨[], c :: rest, rfl, by simp, ?_⟩
      have hp := h.1
      rw [ha, ← hp]; exact h
    · obtain ⟨_, nx, _, _, _, hr⟩ := h
      obtain ⟨pre, post, hl, hne, hc⟩ := IsChain.suffix hr ha
      exact ⟨c :: pre, post, by simp [hl], hne, hc⟩

/-- A chain is acyclic: its first address does not come back. -/
theorem IsChain.head_not_mem {mem : List (Option (Node T))} {c : Cell T} {rest : List (Cell T)}
    {p : Nat} (h : IsChain mem p (c :: rest)) : c.addr ∉ addrs rest := by
  intro ha
  obtain ⟨hp, nx, _, _, _, hr⟩ := h
  obtain ⟨pre, post, hl, hne, hc⟩ := IsChain.suffix hr ha
  have h' : IsChain mem c.addr (c :: rest) := by
    rw [← hp]; exact ⟨hp, nx, ‹_›, ‹_›, ‹_›, hr⟩
  have := IsChain.unique h' hc
  have hlen := congrArg List.length this
  rw [hl] at hlen
  subst hl
  simp at hlen
  omega

theorem IsChain.tail {mem : List (Option (Node T))} {c : Cell T} {rest : List (Cell T)}
    {p : Nat} (h : IsChain mem p (c :: rest)) :
    ∃ nx, load mem c.addr = some ⟨some c.elem, nx⟩ ∧ nx < WORD ∧
      is_marked_reference nx = c.marked ∧ IsChain mem (get_unmarked_reference nx) rest ∧
      p = c.addr := by
  obtain ⟨hp, nx, h1, h2, h3, h4⟩ := h
  exact ⟨nx, hp ▸ h1, h2, h3, h4, hp⟩

/-! ## The loop of `Search` -/

theorem SearchStep_nil {cmp : T → T → Bool} {data : T} {st : LockFreeLinkedList T}
    {prev : Nat} {pd : Option T} (hprev : load st.mem prev = some ⟨pd, 0⟩) :
    SearchStep cmp data st prev 0 = .ok (.ret st prev 0 false) := by
  simp [SearchStep, hprev]

theorem SearchStep_marked {cmp : T → T → Bool} {data : T} {st : LockFreeLinkedList T}
    {prev cur nx : Nat} {pd cd : Option T} (hprev : load st.mem prev = some ⟨pd, cur⟩)
    (hcur : load st.mem cur = some ⟨cd, nx⟩) (hm : is_marked_reference nx = true) :
    SearchStep cmp data st prev cur =
      .ok (.next { st with mem := store st.mem prev ⟨pd, get_unmarked_reference nx⟩,
                           retired := cur :: st.retired,
                           size_ := fetch_sub st.size_ } prev (get_unmarked_reference nx)) := by
  have hc : cur ≠ 0 := by have := load_valid hcur; omega
  simp [SearchStep, hprev, hcur, hm, hc, compare_exchange_strong, ReclaimLater,
    ReclaimNoHazardPointer]

theorem SearchStep_live {cmp : T → T → Bool} {data : T} {st : LockFreeLinkedList T}
    {prev cur nx : Nat} {pd : Option T} {x : T} (hprev : load st.mem prev = some ⟨pd, cur⟩)
    (hcur : load st.mem cur = some ⟨some x, nx⟩) (hm : is_marked_reference nx = false) :
    SearchStep cmp data st prev cur =
      if cmp x data then .ok (.next st cur nx) else .ok (.ret st prev cur (Equals cmp x data)) := by
  have hc : cur ≠ 0 := by have := load_valid hcur; omega
  simp [SearchStep, hprev, hcur, hm, hc, GreaterOrEquals]
  cases cmp x data <;> simp

theorem IsChain.ptr {mem : List (Option (Node T))} {l : List (Cell T)} {p : Nat}
    (h : IsChain mem p l) : p < WORD ∧ is_marked_reference p = false := by
  cases l with
  | nil =>
    simp only [IsChain] at h
    subst h
    exact ⟨by unfold WORD; norm_num, by decide⟩
  | cons c rest =>
    obtain ⟨_, nx, hld, _⟩ := h
    exact ⟨(load_valid hld).2.2, ptr_unmarked hld⟩

theorem fetch_sub_iterate {k s : Nat} (hk : k ≤ s) (hs : s < WORD) :
    fetch_sub^[k] s = s - k := by
  induction k generalizing s with
  | zero => rfl
  | succ k ih =>
    rw [Function.iterate_succ_apply]
    have h1 : fetch_sub s = s - 1 := by unfold fetch_sub WORD at *; omega
    rw [h1, ih (by omega) (by omega)]
    omega

/-- The loop of `Search`, entered at a node `prev` whose `next` word is `cur`
with the chain `rest` behind it: it returns with enough fuel, never restarts,
unlinks and retires exactly the marked nodes it walks past, and stops in front
of the first unmarked node not less than `data`. -/
theorem SearchLoop_spec (cmp : T → T → Bool) (data : T) :
    ∀ (rest : List (Cell T)) (fuel : Nat) (st : LockFreeLinkedList T) (prev cur : Nat)
      (pd : Option T),
      load st.mem prev = some ⟨pd, cur⟩ → IsChain st.mem cur rest → prev ∉ addrs rest →
      rest.length + 1 ≤ fuel →
      ∃ st1 hn1, SearchLoop cmp data fuel st prev cur =
          .ok (st1, lastAddr prev (live (passed cmp data rest)),
            firstAddr (stopAt cmp data rest), foundAt cmp data (stopAt cmp data rest)) ∧
        st1.head_ = st.head_ ∧ st1.spurious = st.spurious ∧
        st1.size_ = fetch_sub^[(dead (passed cmp data rest)).length] st.size_ ∧
        st1.retired = (addrs (dead (passed cmp data rest))).reverse ++ st.retired ∧
        st1.mem.length = st.mem.length ∧
        load st1.mem prev = some ⟨pd, hn1⟩ ∧
        IsChain st1.mem hn1 (live (passed cmp data rest) ++ stopAt cmp data rest) ∧
        (∀ a, a ≠ prev → a ∉ addrs (live (passed cmp data rest)) →
          load st1.mem a = load st.mem a) ∧
        ((∀ c ∈ passed cmp data rest, c.marked = false) → st1 = st)
  | [], fuel, st, prev, cur, pd, hprev, hch, _, hfuel => by
    obtain ⟨fuel, rfl⟩ : ∃ f, fuel = f + 1 := ⟨fuel - 1, by omega⟩
    simp only [IsChain] at hch
    subst hch
    refine ⟨st, 0, ?_, rfl, rfl, ?_, ?_, rfl, hprev, ?_, fun _ _ _ => rfl, fun _ => rfl⟩
    · simp [SearchLoop, SearchStep_nil hprev, passed, stopAt, live, lastAddr, firstAddr, foundAt]
    · simp [passed, dead]
    · simp [passed, dead, addrs]
    · simp [passed, stopAt, live, IsChain]
  | c :: rest, fuel, st, prev, cur, pd, hprev, hch, hnot, hfuel => by
    obtain ⟨fuel, rfl⟩ : ∃ f, fuel = f + 1 := ⟨fuel - 1, by simp at hfuel; omega⟩
    have hnm := hch.head_not_mem
    obtain ⟨nx, hcur, hw, hm, hrest, hp⟩ := hch.tail
    subst hp
    simp only [addrs, List.map_cons, List.mem_cons, not_or] at hnot
    have hfuel1 : rest.length + 1 ≤ fuel := by simp at hfuel; omega
    by_cases hmk : c.marked = true
    · -- the node is logically deleted: it is unlinked and the walk stays at prev
      rw [hmk] at hm
      have hskip : skips cmp data c = true := by simp [skips, hmk]
      let st2 : LockFreeLinkedList T :=
        { st with mem := store st.mem prev ⟨pd, get_unmarked_reference nx⟩,
                  retired := c.addr :: st.retired, size_ := fetch_sub st.size_ }
      have hprev2 : load st2.mem prev = some ⟨pd, get_unmarked_reference nx⟩ :=
        load_store_same hprev
      have hch2 : IsChain st2.mem (get_unmarked_reference nx) rest := by
        refine IsChain.congr_mem (fun a ha => ?_) hrest
        exact load_store_ne hprev (fun h => hnot.2 (h ▸ ha))
      obtain ⟨st1, hn1, hrun, h1, h2, h3, h4, h5, h6, h7, h8, _⟩ :=
        SearchLoop_spec cmp data rest fuel st2 prev (get_unmarked_reference nx) pd hprev2 hch2
          hnot.2 hfuel1
      refine ⟨st1, hn1, ?_, h1, h2, ?_, ?_, ?_, h6, ?_, ?_, ?_⟩
      · simp only [SearchLoop, SearchStep_marked hprev hcur hm]
        simpa [passed, stopAt, live, hskip, hmk] using hrun
      · have hd : dead (passed cmp data (c :: rest)) = c :: dead (passed cmp data rest) := by
          simp [passed, dead, hskip, hmk]
        rw [hd, List.length_cons, Function.iterate_succ_apply]
        exact h3
      · simpa [passed, dead, hskip, hmk, addrs, st2] using h4
      · simpa [st2, store] using h5
      · simpa [passed, stopAt, live, hskip, hmk] using h7
      · intro a ha1 ha2
        have : load st1.mem a = load st2.mem a := by
          apply h8 a ha1
          simpa [passed, live, hskip, hmk] using ha2
        rw [this]
        exact load_store_ne hprev ha1
      · intro hall
        have := hall c (by simp [passed, hskip])
        simp [hmk] at this
    · have hmk : c.marked = false := by simpa using hmk
      rw [hmk] at hm
      by_cases hlt : cmp c.elem data = true
      · -- the node is smaller than the key: the walk moves on to it
        have hskip : skips cmp data c = true := by simp [skips, hlt]
        have hnx : get_unmarked_reference nx = nx := unmark_of_unmarked hw hm
        rw [hnx] at hrest
        obtain ⟨st1, hn1, hrun, h1, h2, h3, h4, h5, h6, h7, h8, h9⟩ :=
          SearchLoop_spec cmp data rest fuel st c.addr nx (some c.elem) hcur hrest hnm hfuel1
        have hpc : prev ≠ c.addr := hnot.1
        refine ⟨st1, c.addr, ?_, h1, h2, ?_, ?_, h5, ?_, ?_, ?_, ?_⟩
        · simp only [SearchLoop, SearchStep_live hprev hcur hm, hlt, if_true]
          simpa [passed, stopAt, live, hskip, hmk, lastAddr] using hrun
        · simpa [passed, dead, hskip, hmk] using h3
        · simpa [passed, dead, hskip, hmk, addrs] using h4
        · rw [h8 prev hpc ?_, hprev]
          intro ha
          exact hnot.2 (List.mem_map.mpr (by
            obtain ⟨d, hd, he⟩ := List.mem_map.mp ha
            exact ⟨d, (List.takeWhile_sublist _).subset (List.mem_of_mem_filter hd), he⟩))
        · have hl : live (passed cmp data (c :: rest)) ++ stopAt cmp data (c :: rest) =
              c :: (live (passed cmp data rest) ++ stopAt cmp data rest) := by
            simp [passed, stopAt, live, hskip, hmk]
          rw [hl]
          obtain ⟨hw1, hm1⟩ := h7.ptr
          exact ⟨rfl, hn1, h6, hw1, hmk ▸ hm1, by rw [unmark_of_unmarked hw1 hm1]; exact h7⟩
        · intro a ha1 ha2
          apply h8 a
          · intro h; apply ha2; simp [passed, live, hskip, hmk, addrs, h]
          · intro h; apply ha2
            simp only [passed, live, addrs] at h ⊢
            simp [hskip, hmk, h]
        · intro hall
          apply h9
          intro d hd
          apply hall d
          simp [passed, hskip] at hd ⊢
          exact Or.inr hd
      · -- the node is not smaller than the key: the walk stops in front of it
        have hlt : cmp c.elem data = false := by simpa using hlt
        have hskip : skips cmp data c = false := by simp [skips, hlt, hmk]
        refine ⟨st, c.addr, ?_, rfl, rfl, ?_, ?_, rfl, hprev, ?_, fun _ _ _ => rfl, fun _ => rfl⟩
        · simp [SearchLoop, SearchStep_live hprev hcur hm, hlt, passed, stopAt, live, hskip,
            lastAddr, firstAddr, foundAt]
        · simp [passed, dead, hskip]
        · simp [passed, dead, hskip, addrs]
        · have hl : live (passed cmp data (c :: rest)) ++ stopAt cmp data (c :: rest) =
              c :: rest := by
            simp [passed, stopAt, live, hskip]
          rw [hl]
          exact ⟨rfl, nx, hcur, hw, hmk ▸ hm, hrest⟩

/-! ## Relinking a chain -/

theorem IsChain.first {mem : List (Option (Node T))} {l : List (Cell T)} {p : Nat}
    (h : IsChain mem p l) : p = firstAddr l := by
  cases l with
  | nil => simpa [IsChain, firstAddr] using h
  | cons c rest => exact h.1

theorem IsChain.mem_data {mem : List (Option (Node T))} {l : List (Cell T)} {p a : Nat}
    (h : IsChain mem p l) (ha : a ∈ addrs l) : ∃ x nx, load mem a = some ⟨some x, nx⟩ := by
  obtain ⟨pre, post, _, hne, hc⟩ := h.suffix ha
  cases post with
  | nil => exact absurd rfl hne
  | cons c rest =>
    obtain ⟨hp, nx, hld, _⟩ := hc
    exact ⟨c.elem, nx, hld⟩

theorem IsChain.nodup {mem : List (Option (Node T))} :
    ∀ {l : List (Cell T)} {p : Nat}, IsChain mem p l → (addrs l).Nodup
  | [], _, _ => by simp [addrs]
  | c :: rest, p, h => by
    have hnm := h.head_not_mem
    obtain ⟨nx, _, _, _, hr, _⟩ := h.tail
    simp only [addrs, List.map_cons, List.nodup_cons]
    exact ⟨hnm, hr.nodup⟩

theorem Linked.sentinel_not_mem {st : LockFreeLinkedList T} {l : List (Cell T)}
    (h : Linked st l) : st.head_ ∉ addrs l := by
  obtain ⟨hn, hld, hch⟩ := h
  intro ha
  obtain ⟨x, nx, hx⟩ := hch.mem_data ha
  rw [hld] at hx
  simp at hx

theorem lastAddr_mem (d : Nat) : ∀ (A : List (Cell T)), lastAddr d A ∈ d :: addrs A
  | [] => by simp [lastAddr]
  | c :: A => by
    have := lastAddr_mem c.addr A
    simp only [lastAddr, addrs, List.map_cons, List.mem_cons] at this ⊢
    exact Or.inr this

theorem addrs_append (A B : List (Cell T)) : addrs (A ++ B) = addrs A ++ addrs B := by
  simp [addrs]

/-- The `next` word of the last node of an unmarked front part of a chain is
the pointer to the first node behind it. -/
theorem IsChain.last_link {mem : List (Option (Node T))} {B : List (Cell T)} :
    ∀ (A : List (Cell T)) (prev : Nat) (pd : Option T) (hn : Nat),
      load mem prev = some ⟨pd, hn⟩ → IsChain mem hn (A ++ B) →
      (∀ c ∈ A, c.marked = false) →
      ∃ pd1, load mem (lastAddr prev A) = some ⟨pd1, firstAddr B⟩ ∧ (A = [] → pd1 = pd)
  | [], prev, pd, hn, hld, hch, _ => by
    have := hch.first
    simp only [List.nil_append] at this
    exact ⟨pd, by simpa [lastAddr, this] using hld, fun _ => rfl⟩
  | c :: A, prev, pd, hn, hld, hch, hlive => by
    obtain ⟨nx, hc, hw, hm, hr, _⟩ := IsChain.tail hch
    rw [hlive c (by simp)] at hm
    rw [unmark_of_unmarked hw hm] at hr
    obtain ⟨pd1, h1, _⟩ := IsChain.last_link A c.addr (some c.elem) nx hc hr
      (fun d hd => hlive d (by simp [hd]))
    exact ⟨pd1, by simpa [lastAddr] using h1, by simp⟩

/-- Writing a new successor into the last node of an unmarked front part of a
chain replaces everything behind that front part. -/
theorem IsChain.splice {mem : List (Option (Node T))} {B : List (Cell T)} (q : Nat) :
    ∀ (A : List (Cell T)) (prev : Nat) (pd pd1 : Option T) (hn old : Nat),
      load mem prev = some ⟨pd, hn⟩ → IsChain mem hn (A ++ B) → prev ∉ addrs A →
      (∀ c ∈ A, c.marked = false) →
      load mem (lastAddr prev A) = some ⟨pd1, old⟩ →
      ∃ hn1, load (store mem (lastAddr prev A) ⟨pd1, q⟩) prev = some ⟨pd, hn1⟩ ∧
        ∀ C, IsChain (store mem (lastAddr prev A) ⟨pd1, q⟩) q C →
          IsChain (store mem (lastAddr prev A) ⟨pd1, q⟩) hn1 (A ++ C)
  | [], prev, pd, pd1, hn, old, hld, _, _, _, hlast => by
    simp only [lastAddr] at hlast ⊢
    rw [hld] at hlast
    simp only [Option.some.injEq, Node.mk.injEq] at hlast
    obtain ⟨rfl, rfl⟩ := hlast
    exact ⟨q, load_store_same hld, fun C hC => by simpa using hC⟩
  | c :: A, prev, pd, pd1, hn, old, hld, hch, hnot, hlive, hlast => by
    have hnm := IsChain.head_not_mem hch
    obtain ⟨nx, hc, hw, hm, hr, hp⟩ := IsChain.tail hch
    rw [hlive c (by simp)] at hm
    rw [unmark_of_unmarked hw hm] at hr
    simp only [lastAddr] at hlast ⊢
    have hnm1 : c.addr ∉ addrs A := by
      intro h; apply hnm
      show c.addr ∈ addrs (A ++ B)
      rw [addrs_append]; exact List.mem_append_left _ h
    obtain ⟨hn2, h1, h2⟩ := IsChain.splice q A c.addr (some c.elem) pd1 nx old hc hr hnm1
      (fun d hd => hlive d (by simp [hd])) hlast
    have hne : prev ≠ lastAddr c.addr A := by
      intro h
      apply hnot
      have := lastAddr_mem c.addr A
      rw [← h] at this
      simpa [addrs] using this
    refine ⟨hn, ?_, fun C hC => ?_⟩
    · rw [load_store_ne hlast hne]; exact hld
    · have h3 := h2 C hC
      obtain ⟨hw2, hm2⟩ := h3.ptr
      refine ⟨hp, hn2, hp ▸ h1, hw2, ?_, ?_⟩
      · rw [hm2, hlive c (by simp)]
      · rw [unmark_of_unmarked hw2 hm2]; exact h3

/-! ### What `Search` walks past and where it stops -/
theorem passed_sublist (cmp : T → T → Bool) (data : T) (l : List (Cell T)) :
    (live (passed cmp data l)).Sublist l :=
  (List.filter_sublist _).trans (List.takeWhile_sublist _)

theorem passed_append_stopAt (cmp : T → T → Bool) (data : T) (l : List (Cell T)) :
    passed cmp data l ++ stopAt cmp data l = l :=
  List.takeWhile_append_dropWhile _ _

theorem kept_sublist (cmp : T → T → Bool) (data : T) (l : List (Cell T)) :
    (live (passed cmp data l) ++ stopAt cmp data l).Sublist l := by
  conv => rhs; rw [← passed_append_stopAt cmp data l]
  exact List.Sublist.append (List.filter_sublist _) (List.Sublist.refl _)

theorem passed_kept (cmp : T → T → Bool) (data : T) :
    ∀ l : List (Cell T), passed cmp data (live (passed cmp data l) ++ stopAt cmp data l) =
      live (passed cmp data l)
  | [] => by simp [passed, stopAt, live]
  | c :: r => by
    have ih := passed_kept cmp data r
    by_cases hs : skips cmp data c = true
    · by_cases hm : c.marked = true
      · simpa [passed, stopAt, live, hs, hm] using ih
      · simp only [passed, stopAt, live] at ih ⊢
        simp [hs, hm, ih]
    · simp [passed, stopAt, live, hs]

theorem stopAt_kept (cmp : T → T → Bool) (data : T) :
    ∀ l : List (Cell T), stopAt cmp data (live (passed cmp data l) ++ stopAt cmp data l) =
      stopAt cmp data l
  | [] => by simp [passed, stopAt, live]
  | c :: r => by
    have ih := stopAt_kept cmp data r
    by_cases hs : skips cmp data c = true
    · by_cases hm : c.marked = true
      · simpa [passed, stopAt, live, hs, hm] using ih
      · simp only [passed, stopAt, live] at ih ⊢
        simp [hs, hm, ih]
    · simp [passed, stopAt, live, hs]

theorem live_live (l : List (Cell T)) : live (live l) = live l := by
  simp [live]

theorem dead_live (l : List (Cell T)) : dead (live l) = [] := by
  simp only [dead, live, List.filter_filter, List.filter_eq_nil_iff]
  intro c _
  cases c.marked <;> simp

theorem live_of_all {l : List (Cell T)} (h : ∀ c ∈ l, c.marked = false) : live l = l := by
  simp only [live, List.filter_eq_self]
  intro c hc; simp [h c hc]

theorem dead_of_all {l : List (Cell T)} (h : ∀ c ∈ l, c.marked = false) : dead l = [] := by
  simp only [dead, List.filter_eq_nil_iff]
  intro c hc; simp [h c hc]

theorem mem_live {l : List (Cell T)} {c : Cell T} (h : c ∈ live l) : c.marked = false := by
  simpa using (List.mem_filter.mp h).2

/-- `Search` on a linked chain, marked nodes allowed. -/
theorem Search_spec (cmp : T → T → Bool) (data : T) (fuel : Nat) {st : LockFreeLinkedList T}
    {l : List (Cell T)} (hl : Linked st l) (hfuel : l.length + 1 ≤ fuel) :
    ∃ st1, Search cmp fuel st data =
        .ok (st1, lastAddr st.head_ (live (passed cmp data l)),
          firstAddr (stopAt cmp data l), foundAt cmp data (stopAt cmp data l)) ∧
      st1.head_ = st.head_ ∧ st1.spurious = st.spurious ∧
      st1.size_ = fetch_sub^[(dead (passed cmp data l)).length] st.size_ ∧
      st1.retired = (addrs (dead (passed cmp data l))).reverse ++ st.retired ∧
      st1.mem.length = st.mem.length ∧
      Linked st1 (live (passed cmp data l) ++ stopAt cmp data l) ∧
      (∀ a, a ≠ st.head_ → a ∉ addrs (live (passed cmp data l)) →
        load st1.mem a = load st.mem a) ∧
      ((∀ c ∈ passed cmp data l, c.marked = false) → st1 = st) := by
  have hnot := hl.sentinel_not_mem
  obtain ⟨hn, hld, hch⟩ := hl
  obtain ⟨st1, hn1, hrun, h1, h2, h3, h4, h5, h6, h7, h8, h9⟩ :=
    SearchLoop_spec cmp data l fuel st st.head_ hn none hld hch hnot hfuel
  refine ⟨st1, ?_, h1, h2, h3, h4, h5, ⟨hn1, h1 ▸ h6, h7⟩, h8, h9⟩
  simp only [Search, hld]
  exact hrun

/-! ## `Emplace` -/

theorem compare_exchange_weak_eq (st : LockFreeLinkedList T) {p e : Nat} {pd : Option T}
    (d : Nat) (h : load st.mem p = some ⟨pd, e⟩) :
    compare_exchange_weak st p e d =
      if st.spurious.head? = some true then
        some ({ st with spurious := st.spurious.tail }, false, e)
      else
        some ({ st with mem := store st.mem p ⟨pd, d⟩, spurious := st.spurious.tail }, true, e) := by
  obtain ⟨m, hd, sz, r, sp⟩ := st
  simp only at h
  simp only [compare_exchange_weak, h, if_true]
  rcases sp with _ | ⟨_ | _, rest⟩ <;> simp

theorem Linked.congr_state (st : LockFreeLinkedList T) {st1 : LockFreeLinkedList T}
    {l : List (Cell T)}
    (hh : st1.head_ = st.head_)
    (hm : ∀ a ∈ st.head_ :: addrs l, load st1.mem a = load st.mem a) (h : Linked st l) :
    Linked st1 l := by
  obtain ⟨hn, hld, hch⟩ := h
  refine ⟨hn, ?_, IsChain.congr_mem (fun a ha => hm a (List.mem_cons_of_mem _ ha)) hch⟩
  rw [hh, hm _ (List.mem_cons_self _ _)]; exact hld

theorem mem_addrs_of_sublist {A B : List (Cell T)} (h : A.Sublist B) {a : Nat}
    (ha : a ∈ addrs A) : a ∈ addrs B :=
  (List.Sublist.map Cell.addr h).subset ha

theorem IsChain.drop_left {mem : List (Option (Node T))} {B : List (Cell T)} :
    ∀ {A : List (Cell T)} {p : Nat}, IsChain mem p (A ++ B) → IsChain mem (firstAddr B) B
  | [], p, h => by
    have := IsChain.first h
    simp only [List.nil_append] at this h
    rw [← this]; exact h
  | c :: A, p, h => by
    obtain ⟨nx, _, _, _, hr, _⟩ := IsChain.tail h
    exact IsChain.drop_left hr

theorem lastAddr_not_mem {mem : List (Option (Node T))} {A B : List (Cell T)} {d p : Nat}
    (h : IsChain mem p (A ++ B)) (hd : d ∉ addrs (A ++ B)) : lastAddr d A ∉ addrs B := by
  intro hb
  have hnd := h.nodup
  rw [addrs_append] at hnd hd
  rcases List.mem_cons.mp (lastAddr_mem d A) with h1 | h1
  · rw [h1] at hb; exact hd (List.mem_append_right _ hb)
  · exact (List.nodup_append.mp hnd).2.2 h1 hb

/-- The loop of `Emplace` for a node `nn` that is allocated and not linked:
whatever the schedule of spurious failures, it ends with the node deleted and
`false` when `Search` finds the element, and with the node linked in front of
the node `Search` stops at and `true` otherwise. -/
theorem EmplaceLoop_spec (cmp : T → T → Bool) (v : T) :
    ∀ (fuel : Nat) (st : LockFreeLinkedList T) (l : List (Cell T)) (nn w : Nat),
      Linked st l → load st.mem nn = some ⟨some v, w⟩ → nn ∉ addrs l → nn ≠ st.head_ →
      l.length + st.spurious.length + 2 ≤ fuel →
      ∃ st1, EmplaceLoop cmp fuel st nn = .ok (st1, !foundAt cmp v (stopAt cmp v l)) ∧
        st1.head_ = st.head_ ∧
        st1.retired = (addrs (dead (passed cmp v l))).reverse ++ st.retired ∧
        st1.mem.length = st.mem.length ∧
        (foundAt cmp v (stopAt cmp v l) = true →
          Linked st1 (live (passed cmp v l) ++ stopAt cmp v l) ∧
          st1.size_ = fetch_sub^[(dead (passed cmp v l)).length] st.size_ ∧
          st1.spurious = st.spurious ∧
          ((∀ c ∈ passed cmp v l, c.marked = false) → st1 = { st with mem := free st.mem nn })) ∧
        (foundAt cmp v (stopAt cmp v l) = false →
          Linked st1 (live (passed cmp v l) ++ ⟨nn, v, false⟩ :: stopAt cmp v l) ∧
          st1.size_ = fetch_add (fetch_sub^[(dead (passed cmp v l)).length] st.size_) ∧
          st1.spurious = (st.spurious.dropWhile id).tail)
  | 0, _, _, _, _, _, _, _, _, hfuel => by omega
  | fuel + 1, st, l, nn, w, hl, hnn, hnot, hhead, hfuel => by
    obtain ⟨st1, hrun, h1, h2, h3, h4, h5, h6, h7, h8⟩ :=
      Search_spec cmp v fuel hl (by omega)
    have hnotK : nn ∉ addrs (live (passed cmp v l) ++ stopAt cmp v l) :=
      fun h => hnot (mem_addrs_of_sublist (kept_sublist cmp v l) h)
    have hnotP : nn ∉ addrs (live (passed cmp v l)) :=
      fun h => hnot (mem_addrs_of_sublist (passed_sublist cmp v l) h)
    have hnn1 : load st1.mem nn = some ⟨some v, w⟩ := by rw [h7 nn hhead hnotP]; exact hnn
    cases hf : foundAt cmp v (stopAt cmp v l) with
    | true =>
      refine ⟨{ st1 with mem := free st1.mem nn }, ?_, h1, h4, ?_, ?_, ?_⟩
      · simp [EmplaceLoop, hnn, hrun, hf]
      · simpa [free] using h5
      · intro _
        refine ⟨?_, h3, h2, ?_⟩
        · refine Linked.congr_state st1 rfl (fun a ha => ?_) h6
          refine load_free_ne hnn1 ?_
          rintro rfl
          rcases List.mem_cons.mp ha with h | h
          · exact hhead (h.trans h1)
          · exact hnotK h
        · intro hall
          rw [h8 hall]
      · intro h; cases h
    | false =>
      let st2 : LockFreeLinkedList T :=
        { st1 with mem := store st1.mem nn ⟨some v, firstAddr (stopAt cmp v l)⟩ }
      have hl2 : Linked st2 (live (passed cmp v l) ++ stopAt cmp v l) := by
        refine Linked.congr_state st1 rfl (fun a ha => ?_) h6
        refine load_store_ne hnn1 ?_
        rintro rfl
        rcases List.mem_cons.mp ha with h | h
        · exact hhead (h.trans h1)
        · exact hnotK h
      have hnn2 : load st2.mem nn = some ⟨some v, firstAddr (stopAt cmp v l)⟩ :=
        load_store_same hnn1
      have hheadK := hl2.sentinel_not_mem
      obtain ⟨hn, hhd, hch⟩ := hl2
      obtain ⟨pd1, hlast, _⟩ := IsChain.last_link (live (passed cmp v l)) st2.head_ none hn hhd hch
        (fun c hc => mem_live hc)
      have hhd2 : st2.head_ = st.head_ := h1
      have hlast0 := hlast
      rw [hhd2] at hlast
      have hne : nn ≠ lastAddr st.head_ (live (passed cmp v l)) := by
        intro h
        rcases List.mem_cons.mp (lastAddr_mem st.head_ (live (passed cmp v l))) with h3 | h3
        · exact hhead (h.trans h3)
        · exact hnotP (h ▸ h3)
      have hcas := compare_exchange_weak_eq st2 nn hlast
      have hK : (live (passed cmp v l) ++ stopAt cmp v l).length ≤ l.length :=
        (kept_sublist cmp v l).length_le
      have hsp2 : st2.spurious = st.spurious := h2
      by_cases hsp : st2.spurious.head? = some true
      · -- the exchange fails spuriously: the loop runs once more, on the same list
        rw [if_pos hsp] at hcas
        simp only [st2] at hcas
        have hstep : EmplaceLoop cmp (fuel + 1) st nn =
            EmplaceLoop cmp fuel { st2 with spurious := st2.spurious.tail } nn := by
          simp [EmplaceLoop, hnn, hrun, hf, hnn1, hcas, st2]
        have hlen : st.spurious.length = st.spurious.tail.length + 1 := by
          rw [hsp2] at hsp
          cases hs : st.spurious with
          | nil => simp [hs] at hsp
          | cons b r => simp
        obtain ⟨st4, hrun4, g1, g2, g3, g4, g5⟩ :=
          EmplaceLoop_spec cmp v fuel { st2 with spurious := st2.spurious.tail }
            (live (passed cmp v l) ++ stopAt cmp v l) nn (firstAddr (stopAt cmp v l))
            ⟨hn, hhd, hch⟩ hnn2 hnotK (by show nn ≠ st1.head_; rw [h1]; exact hhead)
            (by show _ + st2.spurious.tail.length + 2 ≤ fuel; rw [hsp2]; omega)
        simp only [passed_kept, stopAt_kept, live_live, dead_live] at hrun4 g2 g4 g5
        refine ⟨st4, ?_, g1.trans h1, ?_, ?_, ?_, ?_⟩
        · rw [hf] at hrun4; exact hstep.trans hrun4
        · rw [g2]; simpa [addrs] using h4
        · rw [g3]; simpa [st2, store] using h5
        · intro h; cases h
        · intro _
          obtain ⟨k1, k2, k3⟩ := g5 hf
          refine ⟨k1, ?_, ?_⟩
          · rw [k2]; simp only [List.length_nil, Function.iterate_zero, id]
            show fetch_add st1.size_ = _
            rw [h3]
          · rw [k3]
            show (List.dropWhile id st2.spurious.tail).tail = _
            rw [hsp2] at hsp ⊢
            cases hs : st.spurious with
            | nil => simp [hs] at hsp
            | cons b r =>
              rw [hs] at hsp
              simp only [List.head?_cons, Option.some.injEq] at hsp
              subst hsp
              simp
      · rw [if_neg hsp] at hcas
        simp only [st2] at hcas
        have hstep : EmplaceLoop cmp (fuel + 1) st nn =
            .ok ({ st2 with mem := store st2.mem (lastAddr st.head_ (live (passed cmp v l)))
                              ⟨pd1, nn⟩,
                            spurious := st2.spurious.tail,
                            size_ := fetch_add st2.size_ }, true) := by
          simp [EmplaceLoop, hnn, hrun, hf, hnn1, hcas, st2]
        have hPhead : st2.head_ ∉ addrs (live (passed cmp v l)) := by
          intro h; apply hheadK; rw [addrs_append]; exact List.mem_append_left _ h
        obtain ⟨hn1, hld1, hsplice⟩ := IsChain.splice nn (live (passed cmp v l)) st2.head_ none pd1
          hn (firstAddr (stopAt cmp v l)) hhd hch hPhead (fun c hc => mem_live hc) hlast0
        rw [hhd2] at hld1 hsplice
        have hS : IsChain st2.mem (firstAddr (stopAt cmp v l)) (stopAt cmp v l) := hch.drop_left
        have hprevS : lastAddr st.head_ (live (passed cmp v l)) ∉ addrs (stopAt cmp v l) := by
          rw [← hhd2]; exact lastAddr_not_mem hch hheadK
        have hS3 : IsChain (store st2.mem (lastAddr st.head_ (live (passed cmp v l))) ⟨pd1, nn⟩)
            (firstAddr (stopAt cmp v l)) (stopAt cmp v l) :=
          IsChain.congr_mem (fun a ha => load_store_ne hlast (fun h => hprevS (h ▸ ha))) hS
        have hnn3 : load (store st2.mem (lastAddr st.head_ (live (passed cmp v l))) ⟨pd1, nn⟩) nn =
            some ⟨some v, firstAddr (stopAt cmp v l)⟩ := by
          rw [load_store_ne hlast hne]; exact hnn2
        have hC : IsChain (store st2.mem (lastAddr st.head_ (live (passed cmp v l))) ⟨pd1, nn⟩) nn
            (⟨nn, v, false⟩ :: stopAt cmp v l) :=
          ⟨rfl, _, hnn3, hS3.ptr.1, hS3.ptr.2, by
            rw [unmark_of_unmarked hS3.ptr.1 hS3.ptr.2]; exact hS3⟩
        refine ⟨_, hstep, h1, h4, ?_, ?_, ?_⟩
        · simpa [st2, store] using h5
        · intro h; cases h
        · intro _
          refine ⟨⟨hn1, ?_, hsplice _ hC⟩, ?_, ?_⟩
          · show load _ st1.head_ = _
            rw [h1]; exact hld1
          · show fetch_add st1.size_ = _
            rw [h3]
          · show st2.spurious.tail = _
            rw [hsp2] at hsp ⊢
            cases hs : st.spurious with
            | nil => rfl
            | cons b r =>
              rw [hs] at hsp
              simp only [List.head?_cons, Option.some.injEq] at hsp
              cases b
              · simp
              · exact absurd rfl hsp

/-! ## `Delete` -/

theorem mark_of_unmarked {n : Nat} (hw : n < WORD) (hm : is_marked_reference n = false) :
    get_marked_reference n < WORD ∧ is_marked_reference (get_marked_reference n) = true ∧
      get_unmarked_reference (get_marked_reference n) = n := by
  rw [get_unmarked_reference_eq, is_marked_reference_eq, get_marked_reference_eq]
  rw [is_marked_reference_eq] at hm
  simp only [decide_eq_false_iff_not] at hm
  unfold WORD at *
  refine ⟨by omega, by simp; omega, by omega⟩

theorem stopAt_head {cmp : T → T → Bool} {data : T} {c : Cell T} {S : List (Cell T)} :
    ∀ {l : List (Cell T)}, stopAt cmp data l = c :: S →
      c.marked = false ∧ cmp c.elem data = false
  | [], h => by simp [stopAt] at h
  | d :: r, h => by
    by_cases hs : skips cmp data d = true
    · have : stopAt cmp data r = c :: S := by simpa [stopAt, hs] using h
      exact stopAt_head this
    · have : d = c := by
        simp only [stopAt, List.dropWhile_cons, hs] at h
        simp only [Bool.false_eq_true, if_false, List.cons.injEq] at h
        exact h.1
      subst this
      simpa [skips] using hs

/-- Writing a `next` word with the same successor into a node of a chain only
changes the mark of that node. -/
theorem IsChain.update_cell {mem : List (Option (Node T))} {c : Cell T} {B : List (Cell T)}
    {nx nx1 : Nat} (hw : nx1 < WORD)
    (hu : get_unmarked_reference nx1 = get_unmarked_reference nx) :
    ∀ {A : List (Cell T)} {p : Nat}, IsChain mem p (A ++ c :: B) →
      load mem c.addr = some ⟨some c.elem, nx⟩ →
      IsChain (store mem c.addr ⟨some c.elem, nx1⟩) p
        (A ++ ⟨c.addr, c.elem, is_marked_reference nx1⟩ :: B)
  | [], p, h, hc => by
    have hnm := IsChain.head_not_mem h
    obtain ⟨nx0, hc0, _, _, hr, hp⟩ := IsChain.tail h
    rw [hc] at hc0
    simp only [Option.some.injEq, Node.mk.injEq, true_and] at hc0
    subst hc0
    refine ⟨hp, nx1, ?_, hw, rfl, ?_⟩
    · rw [hp]; exact load_store_same hc
    · rw [hu]
      exact IsChain.congr_mem (fun a ha => load_store_ne hc (fun h => hnm (h ▸ ha))) hr
  | a :: A, p, h, hc => by
    have hnm := IsChain.head_not_mem h
    obtain ⟨nx0, ha0, hw0, hm0, hr, hp⟩ := IsChain.tail h
    have hne : a.addr ≠ c.addr := by
      intro he
      apply hnm
      show a.addr ∈ addrs (A ++ c :: B)
      rw [addrs_append, he]
      exact List.mem_append_right _ (by simp [addrs])
    refine ⟨hp, nx0, ?_, hw0, hm0, IsChain.update_cell hw hu hr hc⟩
    rw [hp, load_store_ne hc hne]; exact ha0

/-- The two loops of `Delete`: whatever the schedule of spurious failures,
they end with `return false` when `Search` does not find the element, and
otherwise with the found node marked and still linked. -/
theorem DeleteLoop_spec (cmp : T → T → Bool) (v : T) :
    ∀ (fuel : Nat) (st : LockFreeLinkedList T) (l : List (Cell T)),
      Linked st l → l.length + st.spurious.length + 2 ≤ fuel →
      (foundAt cmp v (stopAt cmp v l) = false →
        ∃ st1, DeleteLoop cmp v fuel st = .ok (st1, none) ∧
          st1.head_ = st.head_ ∧ st1.spurious = st.spurious ∧
          st1.size_ = fetch_sub^[(dead (passed cmp v l)).length] st.size_ ∧
          st1.retired = (addrs (dead (passed cmp v l))).reverse ++ st.retired ∧
          st1.mem.length = st.mem.length ∧
          Linked st1 (live (passed cmp v l) ++ stopAt cmp v l) ∧
          ((∀ c ∈ passed cmp v l, c.marked = false) → st1 = st)) ∧
      (∀ c S, stopAt cmp v l = c :: S → Equals cmp c.elem v = true →
        ∃ st1 nx, DeleteLoop cmp v fuel st =
            .ok (st1, some (lastAddr st.head_ (live (passed cmp v l)), c.addr, nx)) ∧
          st1.head_ = st.head_ ∧ st1.spurious = (st.spurious.dropWhile id).tail ∧
          st1.size_ = fetch_sub^[(dead (passed cmp v l)).length] st.size_ ∧
          st1.retired = (addrs (dead (passed cmp v l))).reverse ++ st.retired ∧
          st1.mem.length = st.mem.length ∧
          Linked st1 (live (passed cmp v l) ++ ⟨c.addr, c.elem, true⟩ :: S) ∧
          nx < WORD ∧ is_marked_reference nx = false ∧ IsChain st1.mem nx S)
  | 0, _, _, _, hfuel => by omega
  | fuel + 1, st, l, hl, hfuel => by
    obtain ⟨st1, hrun, h1, h2, h3, h4, h5, h6, h7, h8⟩ :=
      Search_spec cmp v fuel hl (by omega)
    constructor
    · intro hf
      exact ⟨st1, by simp [DeleteLoop, hrun, hf], h1, h2, h3, h4, h5, h6, h8⟩
    · intro c S hS heq
      have hf : foundAt cmp v (stopAt cmp v l) = true := by rw [hS]; exact heq
      obtain ⟨hmk, _⟩ := stopAt_head hS
      have hheadK := h6.sentinel_not_mem
      obtain ⟨hn, hhd, hch⟩ := h6
      have hcS : IsChain st1.mem (firstAddr (stopAt cmp v l)) (stopAt cmp v l) := hch.drop_left
      rw [hS] at hcS hch hheadK
      have hnm := IsChain.head_not_mem hcS
      obtain ⟨nx, hcur, hw, hm, hr, _⟩ := IsChain.tail hcS
      rw [hmk] at hm
      rw [unmark_of_unmarked hw hm] at hr
      have hcas := compare_exchange_weak_eq st1 (get_marked_reference nx) hcur
      have hK : (live (passed cmp v l) ++ stopAt cmp v l).length ≤ l.length :=
        (kept_sublist cmp v l).length_le
      by_cases hsp : st1.spurious.head? = some true
      · -- the marking exchange fails spuriously: both loops run once more
        rw [if_pos hsp] at hcas
        have hstep : DeleteLoop cmp v (fuel + 1) st =
            DeleteLoop cmp v fuel { st1 with spurious := st1.spurious.tail } := by
          simp [DeleteLoop, hrun, hS, foundAt, heq, firstAddr, hcur, hm, hcas]
        have hlen : st.spurious.length = st.spurious.tail.length + 1 := by
          rw [h2] at hsp
          cases hs : st.spurious with
          | nil => simp [hs] at hsp
          | cons b r => simp
        have ih := (DeleteLoop_spec cmp v fuel { st1 with spurious := st1.spurious.tail }
          (live (passed cmp v l) ++ stopAt cmp v l) ⟨hn, hhd, hS ▸ hch⟩
          (by show _ + st1.spurious.tail.length + 2 ≤ fuel; rw [h2]; omega)).2 c S
          (by rw [stopAt_kept]; exact hS) heq
        simp only [passed_kept, stopAt_kept, live_live, dead_live] at ih
        obtain ⟨st4, nx4, hrun4, g1, g2, g3, g4, g5, g6, g7, g8, g9⟩ := ih
        refine ⟨st4, nx4, ?_, g1.trans h1, ?_, ?_, ?_, ?_, g6, g7, g8, g9⟩
        · rw [hstep, hrun4]
          show Except.ok (st4, some (lastAddr st1.head_ _, _)) = _
          rw [h1]
        · rw [g2]
          show (List.dropWhile id st1.spurious.tail).tail = _
          rw [h2] at hsp ⊢
          cases hs : st.spurious with
          | nil => simp [hs] at hsp
          | cons b r =>
            rw [hs] at hsp
            simp only [List.head?_cons, Option.some.injEq] at hsp
            subst hsp
            simp
        · rw [g3]; simp only [List.length_nil, Function.iterate_zero, id]; exact h3
        · rw [g4]; simpa [addrs] using h4
        · rw [g5]; exact h5
      · rw [if_neg hsp] at hcas
        have hstep : DeleteLoop cmp v (fuel + 1) st =
            .ok ({ st1 with mem := store st1.mem c.addr ⟨some c.elem, get_marked_reference nx⟩,
                            spurious := st1.spurious.tail },
              some (lastAddr st.head_ (live (passed cmp v l)), c.addr, nx)) := by
          simp [DeleteLoop, hrun, hS, foundAt, heq, firstAddr, hcur, hm, hcas]
        obtain ⟨hw1, hm1, hu1⟩ := mark_of_unmarked hw hm
        have hch2 := IsChain.update_cell hw1
          (by rw [hu1, unmark_of_unmarked hw hm]) hch hcur
        rw [hm1] at hch2
        refine ⟨_, nx, hstep, h1, ?_, h3, h4, ?_, ⟨hn, ?_, hch2⟩, hw, hm, ?_⟩
        · show st1.spurious.tail = _
          rw [h2] at hsp ⊢
          cases hs : st.spurious with
          | nil => rfl
          | cons b r =>
            rw [hs] at hsp
            simp only [List.head?_cons, Option.some.injEq] at hsp
            cases b
            · simp
            · exact absurd rfl hsp
        · simpa [store] using h5
        · show load (store st1.mem c.addr _) st1.head_ = _
          rw [load_store_ne hcur ?_]
          · exact hhd
          · intro h
            apply hheadK
            rw [addrs_append, h]
            exact List.mem_append_right _ (by simp [addrs])
        · exact IsChain.congr_mem (fun a ha => load_store_ne hcur (fun h => hnm (h ▸ ha))) hr

theorem load_free_same {mem : List (Option (Node T))} (p : Nat) : load (free mem p) p = none := by
  unfold load free
  split
  · by_cases h : p / 2 - 1 < mem.length
    · simp [List.getElem?_set, h]
    · rw [List.getElem?_eq_none (by simpa using h)]
      rfl
  · rfl

/-- `Delete` on a linked chain, marked nodes allowed: in the found case the
marked node is unlinked by `Delete` itself and retired. -/
theorem Delete_spec (cmp : T → T → Bool) (v : T) {st : LockFreeLinkedList T}
    {l : List (Cell T)} {fuel : Nat} (hl : Linked st l)
    (hfuel : l.length + st.spurious.length + 2 ≤ fuel) :
    (foundAt cmp v (stopAt cmp v l) = false →
      ∃ st1, Delete cmp fuel st v = .ok (st1, false) ∧
        st1.head_ = st.head_ ∧ st1.spurious = st.spurious ∧
        st1.size_ = fetch_sub^[(dead (passed cmp v l)).length] st.size_ ∧
        st1.retired = (addrs (dead (passed cmp v l))).reverse ++ st.retired ∧
        st1.mem.length = st.mem.length ∧
        Linked st1 (live (passed cmp v l) ++ stopAt cmp v l) ∧
        ((∀ c ∈ passed cmp v l, c.marked = false) → st1 = st)) ∧
    (∀ c S, stopAt cmp v l = c :: S → Equals cmp c.elem v = true →
      ∃ st1, Delete cmp fuel st v = .ok (st1, true) ∧
        st1.head_ = st.head_ ∧ st1.spurious = (st.spurious.dropWhile id).tail ∧
        st1.size_ = fetch_sub (fetch_sub^[(dead (passed cmp v l)).length] st.size_) ∧
        st1.retired = c.addr :: ((addrs (dead (passed cmp v l))).reverse ++ st.retired) ∧
        st1.mem.length = st.mem.length ∧
        Linked st1 (live (passed cmp v l) ++ S)) := by
  obtain ⟨hA, hB⟩ := DeleteLoop_spec cmp v fuel st l hl hfuel
  constructor
  · intro hf
    obtain ⟨st1, hrun, h⟩ := hA hf
    exact ⟨st1, by simp [Delete, hrun], h⟩
  · intro c S hS heq
    obtain ⟨st2, nx, hrun, h1, h2, h3, h4, h5, h6, hw, hm, hr⟩ := hB c S hS heq
    have hheadK := h6.sentinel_not_mem
    obtain ⟨hn, hhd, hch⟩ := h6
    obtain ⟨pd1, hlast, _⟩ := IsChain.last_link (live (passed cmp v l)) st2.head_ none hn hhd hch
      (fun c hc => mem_live hc)
    have hPhead : st2.head_ ∉ addrs (live (passed cmp v l)) := by
      intro h; apply hheadK; rw [addrs_append]; exact List.mem_append_left _ h
    obtain ⟨hn1, hld1, hsplice⟩ := IsChain.splice nx (live (passed cmp v l)) st2.head_ none pd1
      hn _ hhd hch hPhead (fun c hc => mem_live hc) hlast
    have hprevS := lastAddr_not_mem hch hheadK
    have hS3 : IsChain (store st2.mem (lastAddr st2.head_ (live (passed cmp v l))) ⟨pd1, nx⟩)
        nx S :=
      IsChain.congr_mem (fun a ha => load_store_ne hlast (fun h => hprevS (h ▸ (by
        simp only [addrs, List.map_cons, List.mem_cons] at ha ⊢
        exact Or.inr ha)))) hr
    rw [h1] at hlast
    have hstep : Delete cmp fuel st v =
        .ok ({ st2 with mem := store st2.mem (lastAddr st.head_ (live (passed cmp v l))) ⟨pd1, nx⟩,
                        size_ := fetch_sub st2.size_, retired := c.addr :: st2.retired }, true) := by
      simp [Delete, hrun, compare_exchange_strong, hlast, firstAddr, ReclaimLater,
        ReclaimNoHazardPointer]
    rw [h1] at hld1 hsplice hS3
    refine ⟨_, hstep, h1, h2, ?_, ?_, ?_, ⟨hn1, ?_, hsplice _ hS3⟩⟩
    · show fetch_sub st2.size_ = _
      rw [h3]
    · show c.addr :: st2.retired = _
      rw [h4]
    · simpa [store] using h5
    · show load _ st2.head_ = _
      rw [h1]; exact hld1

/-! ## Orders and sorted chains -/

/-- Every strict total order is a strict weak order. -/
theorem StrictTotalOrder.weak {cmp : T → T → Bool} (h : StrictTotalOrder cmp) :
    StrictWeakOrder cmp := by
  refine ⟨h.irrefl, h.trans, fun a b c hac => ?_⟩
  by_contra hn
  simp only [not_or, Bool.not_eq_true] at hn
  obtain ⟨hab, hbc⟩ := hn
  -- b ≤ a and c ≤ b
  by_cases hba : cmp b a = true
  · by_cases hcb : cmp c b = true
    · have := h.trans _ _ _ (h.trans _ _ _ hcb hba) hac
      rw [h.irrefl] at this; cases this
    · have := h.total b c hbc (by simpa using hcb)
      subst this
      have := h.trans _ _ _ hba hac
      rw [h.irrefl] at this; cases this
  · have := h.total a b hab (by simpa using hba)
    subst this
    rw [hac] at hbc; cases hbc

theorem StrictWeakOrder.asymm {cmp : T → T → Bool} (h : StrictWeakOrder cmp) {a b : T}
    (hab : cmp a b = true) : cmp b a = false := by
  by_contra hn
  have := h.trans _ _ _ hab (by simpa using hn)
  rw [h.irrefl] at this; cases this

theorem Equals_iff {cmp : T → T → Bool} {a b : T} :
    Equals cmp a b = true ↔ cmp a b = false ∧ cmp b a = false := by
  simp [Equals]

theorem Equals_eq_false_of_lt {cmp : T → T → Bool} {a b : T} (h : cmp a b = true) :
    Equals cmp a b = false := by
  simp [Equals, h]

theorem Equals_eq_false_of_gt {cmp : T → T → Bool} {a b : T} (h : cmp b a = true) :
    Equals cmp a b = false := by
  simp [Equals, h]

theorem mem_passed {cmp : T → T → Bool} {data : T} {l : List (Cell T)} {c : Cell T}
    (h : c ∈ passed cmp data l) : c.marked = true ∨ cmp c.elem data = true := by
  have := List.mem_takeWhile_imp h
  simpa [skips] using this

theorem mem_live_passed {cmp : T → T → Bool} {data : T} {l : List (Cell T)} {c : Cell T}
    (h : c ∈ live (passed cmp data l)) : cmp c.elem data = true := by
  have hm := mem_live h
  rcases mem_passed (List.mem_of_mem_filter h) with h1 | h1
  · rw [hm] at h1; cases h1
  · exact h1

theorem Sorted.sublist {cmp : T → T → Bool} {l l1 : List (Cell T)} (h : Sorted cmp l)
    (hs : l1.Sublist l) : Sorted cmp l1 :=
  List.Pairwise.sublist hs h

theorem Sorted.noDuplicates {cmp : T → T → Bool} {l : List (Cell T)}
    (h : Sorted cmp l) : NoDuplicates cmp l :=
  List.Pairwise.imp (fun hab => ⟨Equals_eq_false_of_lt hab, Equals_eq_false_of_gt hab⟩) h

/-- Behind the node `Search` stops at, in a sorted chain, everything is
greater than that node. -/
theorem Sorted.stopAt_tail {cmp : T → T → Bool} {data : T} {l : List (Cell T)} {c : Cell T}
    {S : List (Cell T)} (h : Sorted cmp l) (hS : stopAt cmp data l = c :: S) :
    ∀ d ∈ S, cmp c.elem d.elem = true := by
  have h1 : Sorted cmp (stopAt cmp data l) := h.sublist (List.dropWhile_sublist _)
  rw [hS] at h1
  exact (List.pairwise_cons.mp h1).1

/-- In a sorted chain the node `Search` stops at holds the key exactly when some
unmarked node does. -/
theorem found_iff {cmp : T → T → Bool} (ho : StrictWeakOrder cmp) (data : T)
    {l : List (Cell T)} (h : Sorted cmp l) :
    foundAt cmp data (stopAt cmp data l) = true ↔
      ∃ c ∈ l, c.marked = false ∧ Equals cmp c.elem data = true := by
  constructor
  · intro hf
    cases hS : stopAt cmp data l with
    | nil => rw [hS] at hf; cases hf
    | cons c S =>
      rw [hS] at hf
      refine ⟨c, ?_, (stopAt_head hS).1, hf⟩
      have : c ∈ stopAt cmp data l := by rw [hS]; exact List.mem_cons_self _ _
      exact (List.dropWhile_sublist _).subset this
  · rintro ⟨c, hc, hm, he⟩
    obtain ⟨he1, he2⟩ := Equals_iff.mp he
    have hcS : c ∈ stopAt cmp data l := by
      rw [← passed_append_stopAt cmp data l] at hc
      rcases List.mem_append.mp hc with h1 | h1
      · rcases mem_passed h1 with h2 | h2
        · rw [hm] at h2; cases h2
        · rw [he1] at h2; cases h2
      · exact h1
    cases hS : stopAt cmp data l with
    | nil => rw [hS] at hcS; cases hcS
    | cons d S =>
      rw [hS] at hcS
      show Equals cmp d.elem data = true
      rcases List.mem_cons.mp hcS with h1 | h1
      · rw [← h1]; exact he
      · have hdc := h.stopAt_tail hS c h1
        rcases ho.split _ data _ hdc with h2 | h2
        · rw [(stopAt_head hS).2] at h2; cases h2
        · rw [he2] at h2; cases h2

/-- In a sorted chain in which the search did not find the key, everything
from the stopping node on is greater than the key. -/
theorem Sorted.stopAt_gt {cmp : T → T → Bool} (ho : StrictWeakOrder cmp) {data : T}
    {l : List (Cell T)} (h : Sorted cmp l) (hf : foundAt cmp data (stopAt cmp data l) = false) :
    ∀ d ∈ stopAt cmp data l, cmp data d.elem = true := by
  cases hS : stopAt cmp data l with
  | nil => intro d hd; cases hd
  | cons c S =>
    rw [hS] at hf
    have hc : cmp data c.elem = true := by
      have h1 := (stopAt_head hS).2
      simp only [foundAt, Equals, h1, Bool.not_false, Bool.true_and, Bool.not_eq_false'] at hf
      simpa using hf
    intro d hd
    rcases List.mem_cons.mp hd with h1 | h1
    · rw [h1]; exact hc
    · exact ho.trans _ _ _ hc (h.stopAt_tail hS d h1)

/-- Linking the key in front of the node `Search` stops at keeps the chain sorted. -/
theorem Sorted.insert {cmp : T → T → Bool} (ho : StrictWeakOrder cmp) {data : T}
    {l : List (Cell T)} (h : Sorted cmp l) (hf : foundAt cmp data (stopAt cmp data l) = false)
    (a : Nat) :
    Sorted cmp (live (passed cmp data l) ++ ⟨a, data, false⟩ :: stopAt cmp data l) := by
  have hK : Sorted cmp (live (passed cmp data l) ++ stopAt cmp data l) :=
    h.sublist (kept_sublist cmp data l)
  unfold Sorted at hK ⊢
  rw [List.pairwise_append] at hK ⊢
  refine ⟨hK.1, ?_, ?_⟩
  · rw [List.pairwise_cons]
    exact ⟨fun d hd => h.stopAt_gt ho hf d hd, hK.2.1⟩
  · intro x hx y hy
    rcases List.mem_cons.mp hy with h1 | h1
    · rw [h1]; exact mem_live_passed hx
    · exact hK.2.2 x hx y h1

theorem passed_of_allLive (cmp : T → T → Bool) (data : T) {l : List (Cell T)} (h : AllLive l) :
    AllLive (passed cmp data l) ∧ live (passed cmp data l) = passed cmp data l ∧
      dead (passed cmp data l) = [] := by
  have h1 : AllLive (passed cmp data l) :=
    fun c hc => h c ((List.takeWhile_sublist _).subset hc)
  exact ⟨h1, live_of_all h1, dead_of_all h1⟩

/-! ## The operations on a linked chain -/

/-- The nodes of a chain sit at different even addresses below `2 ^ 64`. -/
theorem IsChain.length_bound {mem : List (Option (Node T))} {l : List (Cell T)} {p : Nat}
    (h : IsChain mem p l) : l.length ≤ 2 ^ 63 := by
  have hnd := h.nodup
  have hval : ∀ a ∈ addrs l, a % 2 = 0 ∧ a < 2 ^ 64 := fun a ha => by
    obtain ⟨x, nx, hx⟩ := h.mem_data ha
    have := load_valid hx
    unfold WORD at this
    exact ⟨this.1, this.2.2⟩
  have hnd2 : ((addrs l).map (fun a => a / 2)).Nodup :=
    List.Nodup.map_on (fun a ha b hb hab => by
      have h1 := hval a ha
      have h2 := hval b hb
      omega) hnd
  have hsub : ((addrs l).map (fun a => a / 2)).toFinset ⊆ Finset.range (2 ^ 63) := by
    intro x hx
    simp only [List.mem_toFinset, List.mem_map] at hx
    obtain ⟨a, ha, rfl⟩ := hx
    have h1 := hval a ha
    simp only [Finset.mem_range]
    omega
  have hc := Finset.card_le_card hsub
  rw [List.toFinset_card_of_nodup hnd2, Finset.card_range] at hc
  simpa [addrs] using hc

theorem Linked.chain_length_le {st : LockFreeLinkedList T} {l : List (Cell T)} (h : Linked st l) :
    l.length ≤ 2 ^ 63 := by
  obtain ⟨_, _, hch⟩ := h
  exact hch.length_bound

/-- `Find` on a linked chain, marked nodes allowed. -/
theorem Find_spec (cmp : T → T → Bool) (data : T) (fuel : Nat) {st : LockFreeLinkedList T}
    {l : List (Cell T)} (hl : Linked st l) (hfuel : l.length + 1 ≤ fuel) :
    ∃ st1, Find cmp fuel st data = .ok (st1, foundAt cmp data (stopAt cmp data l)) ∧
      Search cmp fuel st data =
        .ok (st1, lastAddr st.head_ (live (passed cmp data l)),
          firstAddr (stopAt cmp data l), foundAt cmp data (stopAt cmp data l)) ∧
      st1.head_ = st.head_ ∧ st1.spurious = st.spurious ∧
      st1.size_ = fetch_sub^[(dead (passed cmp data l)).length] st.size_ ∧
      st1.retired = (addrs (dead (passed cmp data l))).reverse ++ st.retired ∧
      st1.mem.length = st.mem.length ∧
      Linked st1 (live (passed cmp data l) ++ stopAt cmp data l) ∧
      ((∀ c ∈ passed cmp data l, c.marked = false) → st1 = st) := by
  obtain ⟨st1, hrun, h1, h2, h3, h4, h5, h6, _, h8⟩ := Search_spec cmp data fuel hl hfuel
  exact ⟨st1, by simp [Find, hrun], hrun, h1, h2, h3, h4, h5, h6, h8⟩

/-- `Emplace` on a linked chain, marked nodes allowed, when the allocation succeeds. -/
theorem Emplace_spec (cmp : T → T → Bool) (v : T) {st : LockFreeLinkedList T}
    {l : List (Cell T)} {fuel : Nat} (hl : Linked st l)
    (hroom : 2 * (st.mem.length + 1) < WORD)
    (hfuel : l.length + st.spurious.length + 2 ≤ fuel) :
    ∃ st1, Emplace cmp fuel st v = .ok (st1, !foundAt cmp v (stopAt cmp v l)) ∧
      st1.head_ = st.head_ ∧
      st1.retired = (addrs (dead (passed cmp v l))).reverse ++ st.retired ∧
      st1.mem.length = st.mem.length + 1 ∧
      (foundAt cmp v (stopAt cmp v l) = true →
        Linked st1 (live (passed cmp v l) ++ stopAt cmp v l) ∧
        st1.size_ = fetch_sub^[(dead (passed cmp v l)).length] st.size_ ∧
        st1.spurious = st.spurious ∧
        ((∀ c ∈ passed cmp v l, c.marked = false) → ∀ a, load st1.mem a = load st.mem a)) ∧
      (foundAt cmp v (stopAt cmp v l) = false →
        Linked st1 (live (passed cmp v l) ++
          ⟨2 * (st.mem.length + 1), v, false⟩ :: stopAt cmp v l) ∧
        st1.size_ = fetch_add (fetch_sub^[(dead (passed cmp v l)).length] st.size_) ∧
        st1.spurious = (st.spurious.dropWhile id).tail) := by
  have halloc : alloc st.mem ⟨some v, 0⟩ =
      some (st.mem ++ [some ⟨some v, 0⟩], 2 * (st.mem.length + 1)) := by
    simp [alloc, hroom]
  obtain ⟨hnew, hfresh, hlen⟩ := load_alloc_same halloc
  have hne : ∀ a, (∃ n, load st.mem a = some n) → a ≠ 2 * (st.mem.length + 1) := by
    rintro a ⟨n, hn⟩ rfl
    rw [hfresh] at hn; cases hn
  have hhead : 2 * (st.mem.length + 1) ≠ st.head_ := by
    obtain ⟨hn, hld, _⟩ := hl
    exact fun h => hne _ ⟨_, hld⟩ h.symm
  have hnot : 2 * (st.mem.length + 1) ∉ addrs l := by
    obtain ⟨hn, _, hch⟩ := hl
    intro h
    obtain ⟨x, nx, hx⟩ := hch.mem_data h
    exact hne _ ⟨_, hx⟩ rfl
  have hl1 : Linked { st with mem := st.mem ++ [some ⟨some v, 0⟩] } l := by
    refine Linked.congr_state st rfl (fun a ha => load_alloc_ne halloc ?_) hl
    rintro rfl
    rcases List.mem_cons.mp ha with h | h
    · exact hhead h
    · exact hnot h
  obtain ⟨st1, hrun, h1, h2, h3, h4, h5⟩ :=
    EmplaceLoop_spec cmp v fuel { st with mem := st.mem ++ [some ⟨some v, 0⟩] } l
      (2 * (st.mem.length + 1)) 0 hl1 hnew hnot hhead hfuel
  refine ⟨st1, by simp [Emplace, halloc, hrun], h1, h2, by rw [h3]; exact hlen, ?_, h5⟩
  intro hf
  obtain ⟨k1, k2, k3, k4⟩ := h4 hf
  refine ⟨k1, k2, k3, fun hall a => ?_⟩
  rw [k4 hall]
  by_cases ha : a = 2 * (st.mem.length + 1)
  · rw [ha, hfresh]; exact load_free_same _
  · show load (free _ _) a = _
    rw [load_free_ne hnew ha, load_alloc_ne halloc ha]

/-! ## Single calls on a sorted chain -/

/-- The order of the natural numbers is a strict total order. -/
theorem natLess_total : StrictTotalOrder natLess :=
  ⟨fun a => by simp [natLess], fun a b c h1 h2 => by simp [natLess] at *; omega,
    fun a b h1 h2 => by simp [natLess] at *; omega⟩

theorem sample_linked : Linked sample sampleCells := by
  refine ⟨6, rfl, rfl, 4, rfl, by decide, rfl, rfl, 8, rfl, by decide, rfl, rfl, 0, rfl,
    by decide, rfl, rfl⟩

theorem sampleMarked_linked : Linked sampleMarked sampleMarkedCells := by
  refine ⟨6, rfl, rfl, 4, rfl, by decide, rfl, rfl, 9, rfl, by decide, rfl, rfl, 0, rfl,
    by decide, rfl, rfl⟩

theorem sample_sorted : Sorted natLess sampleCells := by
  simp [Sorted, sampleCells, natLess]

theorem sample_allLive : AllLive sampleCells := by
  simp [AllLive, sampleCells]

theorem kept_of_allLive (cmp : T → T → Bool) (data : T) {l : List (Cell T)} (h : AllLive l) :
    live (passed cmp data l) ++ stopAt cmp data l = l := by
  rw [(passed_of_allLive cmp data h).2.1]; exact passed_append_stopAt cmp data l

theorem not_found_iff {cmp : T → T → Bool} (ho : StrictWeakOrder cmp) (data : T)
    {l : List (Cell T)} (h : Sorted cmp l) (hlive : AllLive l) :
    foundAt cmp data (stopAt cmp data l) = false ↔ ∀ c ∈ l, Equals cmp c.elem data = false := by
  rw [← Bool.not_eq_true, found_iff ho data h]
  constructor
  · intro hn c hc
    by_contra he
    exact hn ⟨c, hc, hlive c hc, by simpa using he⟩
  · rintro hall ⟨c, hc, _, he⟩
    rw [hall c hc] at he; cases he

/-- C1. For every strict total order `cmp`, every state whose chain is the
strictly sorted list `l` without marked nodes, and every value `v`: `Insert`
and `Emplace` (given room for one more node and enough fuel) return the same
result, which is `true` exactly when no element of the list compares equal to
`v`, and in both cases `Find v` returns `true` in the state they leave. -/
theorem Insert_true_iff_new {cmp : T → T → Bool} (hord : StrictTotalOrder cmp)
    (st : LockFreeLinkedList T) (l : List (Cell T)) (v : T) (fuel : Nat)
    (hl : Linked st l) (hsorted : Sorted cmp l) (hlive : AllLive l)
    (hroom : 2 * (st.mem.length + 1) < WORD)
    (hfuel : l.length + st.spurious.length + 2 ≤ fuel) :
    ∃ st1 b, Insert cmp fuel st v = .ok (st1, b) ∧ Emplace cmp fuel st v = .ok (st1, b) ∧
      (b = true ↔ ∀ c ∈ l, Equals cmp c.elem v = false) ∧
      ∃ st2, Find cmp fuel st1 v = .ok (st2, true) := by
  have ho := hord.weak
  obtain ⟨st1, hrun, _, _, _, h4, h5⟩ := Emplace_spec cmp v hl hroom hfuel
  have hK := kept_of_allLive cmp v hlive
  have hlen : (live (passed cmp v l) ++ stopAt cmp v l).length = l.length := by rw [hK]
  refine ⟨st1, _, hrun, hrun, ?_, ?_⟩
  · rw [← not_found_iff ho v hsorted hlive]
    cases foundAt cmp v (stopAt cmp v l) <;> simp
  · cases hf : foundAt cmp v (stopAt cmp v l) with
    | true =>
      obtain ⟨k1, _⟩ := h4 hf
      obtain ⟨st2, hfind, _⟩ := Find_spec cmp v fuel k1 (by omega)
      refine ⟨st2, ?_⟩
      rw [hfind, stopAt_kept, hf]
    | false =>
      obtain ⟨k1, _⟩ := h5 hf
      have hs := hsorted.insert ho hf (2 * (st.mem.length + 1))
      obtain ⟨st2, hfind, _⟩ := Find_spec cmp v fuel k1 (by
        simp only [List.length_append, List.length_cons] at hlen ⊢; omega)
      refine ⟨st2, ?_⟩
      rw [hfind]
      congr 2
      rw [found_iff ho v hs]
      exact ⟨_, List.mem_append_right _ (List.mem_cons_self _ _), rfl,
        by simp [Equals, ho.irrefl]⟩

theorem Insert_true_iff_new_witness :
    ∃ st1 b, Insert natLess 7 sample 4 = .ok (st1, b) ∧ Emplace natLess 7 sample 4 = .ok (st1, b) ∧
      (b = true ↔ ∀ c ∈ sampleCells, Equals natLess c.elem 4 = false) ∧
      ∃ st2, Find natLess 7 st1 4 = .ok (st2, true) :=
  Insert_true_iff_new natLess_total sample sampleCells 4 7 sample_linked sample_sorted
    sample_allLive (by decide) (by decide)

theorem sampleMarked_sorted : Sorted natLess sampleMarkedCells := by
  simp [Sorted, sampleMarkedCells, natLess]

theorem foundAt_cons {cmp : T → T → Bool} {data : T} {S : List (Cell T)}
    (h : foundAt cmp data S = true) : ∃ c S1, S = c :: S1 ∧ Equals cmp c.elem data = true := by
  cases S with
  | nil => cases h
  | cons c S1 => exact ⟨c, S1, rfl, h⟩

/-- After the node `Search` stopped at, which holds the key, is taken out of a
sorted chain, no live node holds the key any more. -/
theorem not_found_after_delete {cmp : T → T → Bool} (ho : StrictWeakOrder cmp) {data : T}
    {l : List (Cell T)} {c : Cell T} {S : List (Cell T)} (h : Sorted cmp l)
    (hS : stopAt cmp data l = c :: S) (he : Equals cmp c.elem data = true) :
    Sorted cmp (live (passed cmp data l) ++ S) ∧
      foundAt cmp data (stopAt cmp data (live (passed cmp data l) ++ S)) = false := by
  have hsub : (live (passed cmp data l) ++ S).Sublist l := by
    refine List.Sublist.trans ?_ (kept_sublist cmp data l)
    rw [hS]
    exact List.Sublist.append (List.Sublist.refl _) (List.sublist_cons_self _ _)
  have hs := h.sublist hsub
  refine ⟨hs, ?_⟩
  rw [← Bool.not_eq_true, found_iff ho data hs]
  rintro ⟨d, hd, _, hde⟩
  obtain ⟨hd1, hd2⟩ := Equals_iff.mp hde
  obtain ⟨hc1, hc2⟩ := Equals_iff.mp he
  rcases List.mem_append.mp hd with h1 | h1
  · rw [mem_live_passed h1] at hd1; cases hd1
  · rcases ho.split _ data _ (h.stopAt_tail hS d h1) with h2 | h2
    · rw [hc1] at h2; cases h2
    · rw [hd2] at h2; cases h2

/-- C2. For every strict total order `cmp`, every state whose chain is the
strictly sorted list `l` without marked nodes, and every value `v`: `Delete v`
(given enough fuel) returns, its result is `true` exactly when some element of
the list compares equal to `v`, and in both cases `Find v` returns `false` in
the state it leaves. -/
theorem Delete_true_iff_present {cmp : T → T → Bool} (hord : StrictTotalOrder cmp)
    (st : LockFreeLinkedList T) (l : List (Cell T)) (v : T) (fuel : Nat)
    (hl : Linked st l) (hsorted : Sorted cmp l) (hlive : AllLive l)
    (hfuel : l.length + st.spurious.length + 2 ≤ fuel) :
    ∃ st1 b, Delete cmp fuel st v = .ok (st1, b) ∧
      (b = true ↔ ∃ c ∈ l, Equals cmp c.elem v = true) ∧
      ∃ st2, Find cmp fuel st1 v = .ok (st2, false) := by
  have ho := hord.weak
  obtain ⟨hA, hB⟩ := Delete_spec cmp v hl hfuel
  have hlen : (live (passed cmp v l) ++ stopAt cmp v l).length ≤ l.length :=
    (kept_sublist cmp v l).length_le
  cases hf : foundAt cmp v (stopAt cmp v l) with
  | false =>
    obtain ⟨st1, hrun, _, _, _, _, _, k1, _⟩ := hA hf
    obtain ⟨st2, hfind, _⟩ := Find_spec cmp v fuel k1 (by omega)
    refine ⟨st1, false, hrun, ?_, st2, ?_⟩
    · have := (not_found_iff ho v hsorted hlive).mp hf
      constructor
      · intro h; cases h
      · rintro ⟨c, hc, he⟩
        rw [this c hc] at he; cases he
    · rw [hfind, stopAt_kept, hf]
  | true =>
    obtain ⟨c, S, hS, he⟩ := foundAt_cons hf
    obtain ⟨st1, hrun, _, _, _, _, _, k1⟩ := hB c S hS he
    obtain ⟨_, hnf⟩ := not_found_after_delete ho hsorted hS he
    have hlen1 : (live (passed cmp v l) ++ S).length ≤ l.length := by
      rw [hS] at hlen
      simp only [List.length_append, List.length_cons] at hlen ⊢
      omega
    obtain ⟨st2, hfind, _⟩ := Find_spec cmp v fuel k1 (by omega)
    refine ⟨st1, true, hrun, ?_, st2, ?_⟩
    · refine ⟨fun _ => ⟨c, ?_, he⟩, fun _ => rfl⟩
      have : c ∈ stopAt cmp v l := by rw [hS]; exact List.mem_cons_self _ _
      exact (List.dropWhile_sublist _).subset this
    · rw [hfind, hnf]

theorem Delete_true_iff_present_witness :
    ∃ st1 b, Delete natLess 7 sample 5 = .ok (st1, b) ∧
      (b = true ↔ ∃ c ∈ sampleCells, Equals natLess c.elem 5 = true) ∧
      ∃ st2, Find natLess 7 st1 5 = .ok (st2, false) :=
  Delete_true_iff_present natLess_total sample sampleCells 5 7 sample_linked sample_sorted
    sample_allLive (by decide)

/-- C3. For every strict total order `cmp`, every state whose chain is the
strictly sorted list `l`, marked nodes allowed, and every value `v`: `Find v`
(given enough fuel) returns what its `Search` returns, and that is `true`
exactly when some unmarked node of the chain holds an element that compares
equal to `v`; a marked node with an equal element does not count. -/
theorem Find_true_iff_live_equal {cmp : T → T → Bool} (hord : StrictTotalOrder cmp)
    (st : LockFreeLinkedList T) (l : List (Cell T)) (v : T) (fuel : Nat)
    (hl : Linked st l) (hsorted : Sorted cmp l) (hfuel : l.length + 1 ≤ fuel) :
    ∃ st1 prev cur b, Search cmp fuel st v = .ok (st1, prev, cur, b) ∧
      Find cmp fuel st v = .ok (st1, b) ∧
      (b = true ↔ ∃ c ∈ l, c.marked = false ∧ Equals cmp c.elem v = true) := by
  obtain ⟨st1, hfind, hsearch, _⟩ := Find_spec cmp v fuel hl hfuel
  exact ⟨st1, _, _, _, hsearch, hfind, found_iff hord.weak v hsorted⟩

theorem Find_true_iff_live_equal_witness :
    ∃ st1 prev cur b, Search natLess 4 sampleMarked 5 = .ok (st1, prev, cur, b) ∧
      Find natLess 4 sampleMarked 5 = .ok (st1, b) ∧
      (b = true ↔ ∃ c ∈ sampleMarkedCells, c.marked = false ∧ Equals natLess c.elem 5 = true) :=
  Find_true_iff_live_equal natLess_total sampleMarked sampleMarkedCells 5 4 sampleMarked_linked
    sampleMarked_sorted (by decide)

/-! ## Calls one after another -/

theorem fetch_add_eq {s : Nat} (h : s ≤ 2 ^ 63) : fetch_add s = s + 1 := by
  unfold fetch_add WORD; omega

theorem fetch_sub_eq {s : Nat} (h0 : 1 ≤ s) (h : s ≤ 2 ^ 63) : fetch_sub s = s - 1 := by
  unfold fetch_sub WORD; omega

theorem length_tail_dropWhile_le (sp : List Bool) : (sp.dropWhile id).tail.length ≤ sp.length := by
  have := (List.dropWhile_sublist (p := id) (l := sp)).length_le
  simp only [List.length_tail]
  omega

/-- What an insertion does to a chain, marked nodes allowed. -/
theorem Emplace_call_spec {cmp : T → T → Bool} (ho : StrictWeakOrder cmp) (v : T)
    {st : LockFreeLinkedList T} {l : List (Cell T)} {fuel : Nat} (hl : Linked st l)
    (hs : Sorted cmp l) (hroom : 2 * (st.mem.length + 1) < WORD)
    (hfuel : l.length + st.spurious.length + 2 ≤ fuel) :
    ∃ st1 b l1, Emplace cmp fuel st v = .ok (st1, b) ∧ Linked st1 l1 ∧ Sorted cmp l1 ∧
      st1.head_ = st.head_ ∧ st1.mem.length ≤ st.mem.length + 1 ∧
      st1.spurious.length ≤ st.spurious.length ∧ l1.length ≤ l.length + 1 ∧
      (AllLive l → AllLive l1 ∧ l1.length = l.length + (if b then 1 else 0) ∧
        (st.size_ = l.length → st1.size_ = l1.length)) := by
  obtain ⟨st1, hrun, h1, _, h3, h4, h5⟩ := Emplace_spec cmp v hl hroom hfuel
  have hlenK : (live (passed cmp v l) ++ stopAt cmp v l).length ≤ l.length :=
    (kept_sublist cmp v l).length_le
  have hbound := hl.chain_length_le
  cases hf : foundAt cmp v (stopAt cmp v l) with
  | true =>
    obtain ⟨k1, k2, k3, _⟩ := h4 hf
    rw [hf] at hrun
    refine ⟨st1, false, _, hrun, k1, hs.sublist (kept_sublist cmp v l), h1, by omega, by rw [k3],
      by omega, fun hlive => ?_⟩
    have hK := kept_of_allLive cmp v hlive
    rw [hK]
    refine ⟨hlive, by simp, fun hsz => ?_⟩
    rw [k2, (passed_of_allLive cmp v hlive).2.2]
    exact hsz
  | false =>
    obtain ⟨k1, k2, k3⟩ := h5 hf
    have hlen1 : (live (passed cmp v l) ++
        (⟨2 * (st.mem.length + 1), v, false⟩ : Cell T) :: stopAt cmp v l).length =
        (live (passed cmp v l) ++ stopAt cmp v l).length + 1 := by
      simp only [List.length_append, List.length_cons]; omega
    rw [hf] at hrun
    refine ⟨st1, true, _, hrun, k1, hs.insert ho hf _, h1, by omega, ?_, by omega,
      fun hlive => ?_⟩
    · rw [k3]; exact length_tail_dropWhile_le _
    · have hK := kept_of_allLive cmp v hlive
      obtain ⟨p1, p2, p3⟩ := passed_of_allLive cmp v hlive
      refine ⟨?_, ?_, fun hsz => ?_⟩
      · intro c hc
        rcases List.mem_append.mp hc with h | h
        · exact mem_live h
        · rcases List.mem_cons.mp h with h | h
          · rw [h]
          · exact hlive c ((List.dropWhile_sublist _).subset h)
      · rw [hlen1, hK]; simp
      · rw [k2, p3, hlen1, hK]
        simp only [List.length_nil, Function.iterate_zero, id]
        rw [hsz]
        exact fetch_add_eq hbound

/-- What a deletion does to a chain, marked nodes allowed. -/
theorem Delete_call_spec {cmp : T → T → Bool} (v : T)
    {st : LockFreeLinkedList T} {l : List (Cell T)} {fuel : Nat} (hl : Linked st l)
    (hs : Sorted cmp l) (hfuel : l.length + st.spurious.length + 2 ≤ fuel) :
    ∃ st1 b l1, Delete cmp fuel st v = .ok (st1, b) ∧ Linked st1 l1 ∧ Sorted cmp l1 ∧
      st1.head_ = st.head_ ∧ st1.mem.length ≤ st.mem.length + 1 ∧
      st1.spurious.length ≤ st.spurious.length ∧ l1.length ≤ l.length + 1 ∧
      (AllLive l → AllLive l1 ∧ l1.length + (if b then 1 else 0) = l.length ∧
        (st.size_ = l.length → st1.size_ = l1.length)) := by
  obtain ⟨hA, hB⟩ := Delete_spec cmp v hl hfuel
  have hlenK : (live (passed cmp v l) ++ stopAt cmp v l).length ≤ l.length :=
    (kept_sublist cmp v l).length_le
  have hbound := hl.chain_length_le
  cases hf : foundAt cmp v (stopAt cmp v l) with
  | false =>
    obtain ⟨st1, hrun, h1, h2, h3, _, h5, h6, _⟩ := hA hf
    refine ⟨st1, false, _, hrun, h6, hs.sublist (kept_sublist cmp v l), h1, by omega, by rw [h2],
      by omega, fun hlive => ?_⟩
    have hK := kept_of_allLive cmp v hlive
    rw [hK]
    refine ⟨hlive, by simp, fun hsz => ?_⟩
    rw [h3, (passed_of_allLive cmp v hlive).2.2]
    exact hsz
  | true =>
    obtain ⟨c, S, hS, he⟩ := foundAt_cons hf
    obtain ⟨st1, hrun, h1, h2, h3, _, h5, h6⟩ := hB c S hS he
    have hsub : (live (passed cmp v l) ++ S).Sublist l := by
      refine List.Sublist.trans ?_ (kept_sublist cmp v l)
      rw [hS]
      exact List.Sublist.append (List.Sublist.refl _) (List.sublist_cons_self _ _)
    have hlen1 : (live (passed cmp v l) ++ S).length + 1 =
        (live (passed cmp v l) ++ stopAt cmp v l).length := by
      rw [hS]; simp only [List.length_append, List.length_cons]; omega
    refine ⟨st1, true, _, hrun, h6, hs.sublist hsub, h1, by omega, ?_, by omega,
      fun hlive => ?_⟩
    · rw [h2]; exact length_tail_dropWhile_le _
    · have hK := kept_of_allLive cmp v hlive
      obtain ⟨p1, p2, p3⟩ := passed_of_allLive cmp v hlive
      refine ⟨fun d hd => hlive d (hsub.subset hd), ?_, fun hsz => ?_⟩
      · simp only [if_true]; rw [hlen1, hK]
      · rw [h3, p3]
        simp only [List.length_nil, Function.iterate_zero, id]
        rw [hsz, fetch_sub_eq (by rw [← hK, ← hlen1]; omega) hbound]
        rw [hK] at hlen1
        omega

/-- What a membership query does to a chain, marked nodes allowed. -/
theorem Find_call_spec {cmp : T → T → Bool} (v : T)
    {st : LockFreeLinkedList T} {l : List (Cell T)} {fuel : Nat} (hl : Linked st l)
    (hs : Sorted cmp l) (hfuel : l.length + st.spurious.length + 2 ≤ fuel) :
    ∃ st1 b l1, Find cmp fuel st v = .ok (st1, b) ∧ Linked st1 l1 ∧ Sorted cmp l1 ∧
      st1.head_ = st.head_ ∧ st1.mem.length ≤ st.mem.length + 1 ∧
      st1.spurious.length ≤ st.spurious.length ∧ l1.length ≤ l.length + 1 ∧
      (AllLive l → AllLive l1 ∧ l1.length = l.length ∧
        (st.size_ = l.length → st1.size_ = l1.length)) := by
  have hlenK : (live (passed cmp v l) ++ stopAt cmp v l).length ≤ l.length :=
    (kept_sublist cmp v l).length_le
  obtain ⟨st1, hfind, _, h1, h2, h3, _, h5, h6, _⟩ := Find_spec cmp v fuel hl (by omega)
  refine ⟨st1, _, _, hfind, h6, hs.sublist (kept_sublist cmp v l), h1, by omega, by rw [h2],
    by omega, fun hlive => ?_⟩
  have hK := kept_of_allLive cmp v hlive
  rw [hK]
  refine ⟨hlive, rfl, fun hsz => ?_⟩
  rw [h3, (passed_of_allLive cmp v hlive).2.2]
  exact hsz

/-- The constructor leaves the empty chain. -/
theorem init_linked (T : Type) (sp : List Bool) : Linked (init T sp) [] := by
  refine ⟨0, ?_, ?_⟩
  · simp [init, load, WORD]
  · simp [IsChain]

/-- What any one call that carries an element does to a sorted chain. -/
theorem call_spec {cmp : T → T → Bool} (ho : StrictWeakOrder cmp) (op : Op T)
    (hel : op.carriesElement = true)
    {st : LockFreeLinkedList T} {l : List (Cell T)} {fuel : Nat} (hl : Linked st l)
    (hs : Sorted cmp l)
    (hroom : (op.isInsert || op.isEmplace) = true → 2 * (st.mem.length + 1) < WORD)
    (hfuel : l.length + st.spurious.length + 2 ≤ fuel) :
    ∃ st1 b l1, call cmp fuel st op = .ok (st1, b) ∧ Linked st1 l1 ∧ Sorted cmp l1 ∧
      st1.head_ = st.head_ ∧ st1.mem.length ≤ st.mem.length + 1 ∧
      st1.spurious.length ≤ st.spurious.length ∧ l1.length ≤ l.length + 1 ∧
      (AllLive l → AllLive l1 ∧
        l1.length + (if op.isDelete && b then 1 else 0) =
          l.length + (if op.isInsert && b then 1 else 0) +
            (if op.isEmplace && b then 1 else 0) ∧
        (st.size_ = l.length → st1.size_ = l1.length)) := by
  cases op with
  | Insert v =>
    obtain ⟨st1, b, l1, h1, h2, h3, h4, h5, h6, h7, h8⟩ := Emplace_call_spec ho v hl hs (hroom rfl) hfuel
    refine ⟨st1, b, l1, h1, h2, h3, h4, h5, h6, h7, fun hlive => ?_⟩
    obtain ⟨k1, k2, k3⟩ := h8 hlive
    refine ⟨k1, ?_, k3⟩
    simp only [Op.isDelete, Op.isInsert, Op.isEmplace, Bool.false_and, Bool.true_and]
    simpa using k2
  | Emplace v =>
    obtain ⟨st1, b, l1, h1, h2, h3, h4, h5, h6, h7, h8⟩ := Emplace_call_spec ho v hl hs (hroom rfl) hfuel
    refine ⟨st1, b, l1, h1, h2, h3, h4, h5, h6, h7, fun hlive => ?_⟩
    obtain ⟨k1, k2, k3⟩ := h8 hlive
    refine ⟨k1, ?_, k3⟩
    simp only [Op.isDelete, Op.isInsert, Op.isEmplace, Bool.false_and, Bool.true_and]
    simpa using k2
  | EmplaceNoArgs => cases hel
  | Delete v =>
    obtain ⟨st1, b, l1, h1, h2, h3, h4, h5, h6, h7, h8⟩ := Delete_call_spec v hl hs hfuel
    refine ⟨st1, b, l1, h1, h2, h3, h4, h5, h6, h7, fun hlive => ?_⟩
    obtain ⟨k1, k2, k3⟩ := h8 hlive
    refine ⟨k1, ?_, k3⟩
    simp only [Op.isDelete, Op.isInsert, Op.isEmplace, Bool.false_and, Bool.true_and]
    simpa using k2
  | Find v =>
    obtain ⟨st1, b, l1, h1, h2, h3, h4, h5, h6, h7, h8⟩ := Find_call_spec v hl hs hfuel
    refine ⟨st1, b, l1, h1, h2, h3, h4, h5, h6, h7, fun hlive => ?_⟩
    obtain ⟨k1, k2, k3⟩ := h8 hlive
    refine ⟨k1, ?_, k3⟩
    simp only [Op.isDelete, Op.isInsert, Op.isEmplace, Bool.false_and]
    simpa using k2

/-- What calls that carry an element, one after another, do to a sorted chain. -/
theorem run_spec {cmp : T → T → Bool} (ho : StrictWeakOrder cmp) (fuel : Nat) :
    ∀ (ops : List (Op T)) (st : LockFreeLinkedList T) (l : List (Cell T)),
      (∀ op ∈ ops, op.carriesElement = true) →
      Linked st l → Sorted cmp l → 2 * (st.mem.length + ops.length) < WORD →
      l.length + ops.length + st.spurious.length + 1 ≤ fuel →
      ∃ st1 bs l1, run cmp fuel st ops = .ok (st1, bs) ∧ Linked st1 l1 ∧ Sorted cmp l1 ∧
        st1.head_ = st.head_ ∧
        (AllLive l → AllLive l1 ∧
          l1.length + countTrue Op.isDelete ops bs =
            l.length + countTrue Op.isInsert ops bs + countTrue Op.isEmplace ops bs ∧
          (st.size_ = l.length → st1.size_ = l1.length))
  | [], st, l, _, hl, hs, _, _ =>
    ⟨st, [], l, rfl, hl, hs, rfl, fun hlive => ⟨hlive, by simp [countTrue], fun h => h⟩⟩
  | op :: ops, st, l, hel, hl, hs, hroom, hfuel => by
    simp only [List.length_cons] at hroom hfuel
    obtain ⟨st1, b, l1, h1, h2, h3, h4, h5, h6, h7, h8⟩ :=
      call_spec ho op (hel op (List.mem_cons_self _ _)) hl hs (fun _ => by omega)
        (by omega : l.length + st.spurious.length + 2 ≤ fuel)
    obtain ⟨st2, bs, l2, g1, g2, g3, g4, g5⟩ :=
      run_spec ho fuel ops st1 l1 (fun o ho1 => hel o (List.mem_cons_of_mem _ ho1)) h2 h3
        (by omega) (by omega)
    refine ⟨st2, b :: bs, l2, by simp [run, h1, g1], g2, g3, g4.trans h4, fun hlive => ?_⟩
    obtain ⟨k1, k2, k3⟩ := h8 hlive
    obtain ⟨m1, m2, m3⟩ := g5 k1
    refine ⟨m1, ?_, fun hsz => m3 (k3 hsz)⟩
    simp only [countTrue]
    omega

/-- C5 as stated fails. On a newly constructed list the single call
`Emplace(1)` returns `true` and leaves `size() == 1`, while no `Insert` call
and no `Delete` call has returned `true`. -/
theorem size_not_inserts_minus_deletes :
    ∃ st1 bs, run natLess 2 (init Nat []) [Op.Emplace 1] = .ok (st1, bs) ∧ size st1 = 1 ∧
      countTrue Op.isInsert [Op.Emplace 1] bs - countTrue Op.isDelete [Op.Emplace 1] bs = 0 ∧
      size st1 ≠
        countTrue Op.isInsert [Op.Emplace 1] bs - countTrue Op.isDelete [Op.Emplace 1] bs :=
  ⟨_, _, rfl, rfl, rfl, by decide⟩

/-! ## Failed and successful calls, and the position `Search` returns -/

/-- Without marked nodes the walk of `Search` splits the sequence of elements
at the first element that is not less than the key. -/
theorem elems_passed_stopAt (cmp : T → T → Bool) (data : T) :
    ∀ {l : List (Cell T)}, AllLive l →
      elems (passed cmp data l) = (elems l).takeWhile (fun x => cmp x data) ∧
      elems (stopAt cmp data l) = (elems l).dropWhile (fun x => cmp x data)
  | [], _ => by simp [elems, passed, stopAt]
  | c :: r, h => by
    have hc : c.marked = false := h c (List.mem_cons_self _ _)
    obtain ⟨ih1, ih2⟩ := elems_passed_stopAt cmp data (l := r)
      (fun d hd => h d (List.mem_cons_of_mem _ hd))
    simp only [elems, passed, stopAt] at ih1 ih2 ⊢
    by_cases hlt : cmp c.elem data = true
    · simp [skips, hc, hlt, ih1, ih2]
    · simp [skips, hc, hlt]

/-- C7. For every strict total order `cmp` and every state whose chain is the
strictly sorted list `l` without marked nodes: an `Insert v` for which an equal
element exists returns `false` and leaves the chain, every node that can be
loaded, `size()`, the retired nodes and the head as they were; a `Delete v`
for which no equal element exists (the empty list included) returns `false`
and leaves the whole state as it was. -/
theorem failed_call_changes_nothing {cmp : T → T → Bool} (hord : StrictTotalOrder cmp)
    (st : LockFreeLinkedList T) (l : List (Cell T)) (v : T) (fuel : Nat)
    (hl : Linked st l) (hsorted : Sorted cmp l) (hlive : AllLive l)
    (hfuel : l.length + st.spurious.length + 2 ≤ fuel) :
    (2 * (st.mem.length + 1) < WORD → (∃ c ∈ l, Equals cmp c.elem v = true) →
      ∃ st1, Insert cmp fuel st v = .ok (st1, false) ∧ Linked st1 l ∧ size st1 = size st ∧
        st1.head_ = st.head_ ∧ st1.retired = st.retired ∧ st1.spurious = st.spurious ∧
        ∀ a, load st1.mem a = load st.mem a) ∧
    ((∀ c ∈ l, Equals cmp c.elem v = false) → Delete cmp fuel st v = .ok (st, false)) := by
  have ho := hord.weak
  obtain ⟨p1, p2, p3⟩ := passed_of_allLive cmp v hlive
  have hK := kept_of_allLive cmp v hlive
  constructor
  · rintro hroom ⟨c, hc, he⟩
    have hf : foundAt cmp v (stopAt cmp v l) = true :=
      (found_iff ho v hsorted).mpr ⟨c, hc, hlive c hc, he⟩
    obtain ⟨st1, hrun, h1, h2, _, h4, _⟩ := Emplace_spec cmp v hl hroom hfuel
    obtain ⟨k1, k2, k3, k4⟩ := h4 hf
    rw [hf] at hrun
    rw [hK] at k1
    rw [p3] at k2 h2
    exact ⟨st1, hrun, k1, k2, h1, by simpa [addrs] using h2, k3, k4 p1⟩
  · intro hall
    have hf := (not_found_iff ho v hsorted hlive).mpr hall
    obtain ⟨st1, hrun, _, _, _, _, _, _, h8⟩ := (Delete_spec cmp v hl hfuel).1 hf
    rw [h8 p1] at hrun
    exact hrun

theorem failed_call_changes_nothing_witness :
    (∃ st1, Insert natLess 7 sample 5 = .ok (st1, false) ∧ Linked st1 sampleCells ∧
      size st1 = size sample ∧ st1.head_ = sample.head_ ∧ st1.retired = sample.retired ∧
      st1.spurious = sample.spurious ∧ ∀ a, load st1.mem a = load sample.mem a) ∧
    Delete natLess 7 sample 4 = .ok (sample, false) :=
  ⟨(failed_call_changes_nothing natLess_total sample sampleCells 5 7 sample_linked sample_sorted
      sample_allLive (by decide)).1 (by decide) ⟨⟨4, 5, false⟩, by decide, by decide⟩,
    (failed_call_changes_nothing natLess_total sample sampleCells 4 7 sample_linked sample_sorted
      sample_allLive (by decide)).2 (by decide)⟩

/-- C8. For every strict total order `cmp`, every state whose chain is the
strictly sorted list `l` without marked nodes and whose `size()` is its
length, and every value `v` equal to no element: `Insert v` (given room for
the node and enough fuel) returns `true`; the chain is the old one with one
new unmarked node holding `v` put between the nodes less than `v` and the
nodes greater than `v`, every old node kept; the sequence of elements is the
old one with `v` in front of its first element not less than `v`; and `size()`
has grown by one. -/
theorem Insert_places_in_order {cmp : T → T → Bool} (hord : StrictTotalOrder cmp)
    (st : LockFreeLinkedList T) (l : List (Cell T)) (v : T) (fuel : Nat)
    (hl : Linked st l) (hsize : size st = l.length) (hsorted : Sorted cmp l)
    (hlive : AllLive l) (hnew : ∀ c ∈ l, Equals cmp c.elem v = false)
    (hroom : 2 * (st.mem.length + 1) < WORD)
    (hfuel : l.length + st.spurious.length + 2 ≤ fuel) :
    ∃ st1 a P S, Insert cmp fuel st v = .ok (st1, true) ∧ l = P ++ S ∧
      (∀ c ∈ P, cmp c.elem v = true) ∧ (∀ c ∈ S, cmp v c.elem = true) ∧
      Linked st1 (P ++ ⟨a, v, false⟩ :: S) ∧
      elems (P ++ ⟨a, v, false⟩ :: S) =
        (elems l).takeWhile (fun x => cmp x v) ++ v :: (elems l).dropWhile (fun x => cmp x v) ∧
      size st1 = size st + 1 := by
  have ho := hord.weak
  obtain ⟨p1, p2, p3⟩ := passed_of_allLive cmp v hlive
  have hf := (not_found_iff ho v hsorted hlive).mpr hnew
  obtain ⟨st1, hrun, _, _, _, _, h5⟩ := Emplace_spec cmp v hl hroom hfuel
  obtain ⟨k1, k2, _⟩ := h5 hf
  rw [hf] at hrun
  rw [p2] at k1
  refine ⟨st1, _, passed cmp v l, stopAt cmp v l, hrun, (passed_append_stopAt cmp v l).symm,
    ?_, hsorted.stopAt_gt ho hf, k1, ?_, ?_⟩
  · intro c hc
    exact mem_live_passed (by rw [p2]; exact hc)
  · obtain ⟨e1, e2⟩ := elems_passed_stopAt cmp v hlive
    rw [← e1, ← e2]
    simp [elems]
  · show st1.size_ = st.size_ + 1
    rw [k2, p3]
    simp only [List.length_nil, Function.iterate_zero, id]
    have : st.size_ = l.length := hsize
    rw [this]
    exact fetch_add_eq hl.chain_length_le

theorem Insert_places_in_order_witness :
    ∃ st1 a P S, Insert natLess 7 sample 6 = .ok (st1, true) ∧ sampleCells = P ++ S ∧
      (∀ c ∈ P, natLess c.elem 6 = true) ∧ (∀ c ∈ S, natLess 6 c.elem = true) ∧
      Linked st1 (P ++ ⟨a, 6, false⟩ :: S) ∧
      elems (P ++ ⟨a, 6, false⟩ :: S) =
        (elems sampleCells).takeWhile (fun x => natLess x 6) ++
          6 :: (elems sampleCells).dropWhile (fun x => natLess x 6) ∧
      size st1 = size sample + 1 :=
  Insert_places_in_order natLess_total sample sampleCells 6 7 sample_linked rfl sample_sorted
    sample_allLive (by decide) (by decide) (by decide)

/-- C9. For every strict total order `cmp`, every state whose chain is the
strictly sorted list `l` without marked nodes and whose `size()` is its
length, and every value `v` equal to some element: `Delete v` (given enough
fuel) returns `true`; the chain is the old one without the one node holding
the equal element, every other node kept in order; the sequence of elements is
the old one without its first element not less than `v`; no linked node is
marked, the removed node is retired, and `size()` has shrunk by one. -/
theorem Delete_removes_one {cmp : T → T → Bool} (hord : StrictTotalOrder cmp)
    (st : LockFreeLinkedList T) (l : List (Cell T)) (v : T) (fuel : Nat)
    (hl : Linked st l) (hsize : size st = l.length) (hsorted : Sorted cmp l)
    (hlive : AllLive l) (hex : ∃ c ∈ l, Equals cmp c.elem v = true)
    (hfuel : l.length + st.spurious.length + 2 ≤ fuel) :
    ∃ st1 P c S, Delete cmp fuel st v = .ok (st1, true) ∧ l = P ++ c :: S ∧
      Equals cmp c.elem v = true ∧ Linked st1 (P ++ S) ∧ AllLive (P ++ S) ∧
      elems (P ++ S) =
        (elems l).takeWhile (fun x => cmp x v) ++
          ((elems l).dropWhile (fun x => cmp x v)).tail ∧
      st1.retired = c.addr :: st.retired ∧ size st1 + 1 = size st := by
  have ho := hord.weak
  obtain ⟨p1, p2, p3⟩ := passed_of_allLive cmp v hlive
  obtain ⟨d, hd, hde⟩ := hex
  have hf : foundAt cmp v (stopAt cmp v l) = true :=
    (found_iff ho v hsorted).mpr ⟨d, hd, hlive d hd, hde⟩
  obtain ⟨c, S, hS, he⟩ := foundAt_cons hf
  obtain ⟨st1, hrun, _, _, h3, h4, _, h6⟩ := (Delete_spec cmp v hl hfuel).2 c S hS he
  rw [p2] at h6
  rw [p3] at h3 h4
  have hsplit : l = passed cmp v l ++ c :: S := by
    rw [← hS]; exact (passed_append_stopAt cmp v l).symm
  refine ⟨st1, passed cmp v l, c, S, hrun, hsplit, he, h6, ?_, ?_, ?_, ?_⟩
  · intro x hx
    apply hlive x
    rw [hsplit]
    rcases List.mem_append.mp hx with h | h
    · exact List.mem_append_left _ h
    · exact List.mem_append_right _ (List.mem_cons_of_mem _ h)
  · obtain ⟨e1, e2⟩ := elems_passed_stopAt cmp v hlive
    rw [← e1, ← e2, hS]
    simp [elems]
  · simpa [addrs] using h4
  · show st1.size_ + 1 = st.size_
    have hsz : st.size_ = l.length := hsize
    have hpos : 1 ≤ l.length := by
      rw [hsplit]; simp only [List.length_append, List.length_cons]; omega
    rw [h3]
    simp only [List.length_nil, Function.iterate_zero, id]
    rw [hsz, fetch_sub_eq hpos hl.chain_length_le]
    omega

theorem Delete_removes_one_witness :
    ∃ st1 P c S, Delete natLess 7 sample 5 = .ok (st1, true) ∧ sampleCells = P ++ c :: S ∧
      Equals natLess c.elem 5 = true ∧ Linked st1 (P ++ S) ∧ AllLive (P ++ S) ∧
      elems (P ++ S) =
        (elems sampleCells).takeWhile (fun x => natLess x 5) ++
          ((elems sampleCells).dropWhile (fun x => natLess x 5)).tail ∧
      st1.retired = c.addr :: sample.retired ∧ size st1 + 1 = size sample :=
  Delete_removes_one natLess_total sample sampleCells 5 7 sample_linked rfl sample_sorted
    sample_allLive (by decide) (by decide)

/-- C10. For every comparator, every state whose chain is the list `l`, marked
nodes allowed, and every key `v`: `Search` (given enough fuel) returns; the
chain splits into the nodes it walked past, each marked or less than `v`, and
the rest; `cur` is the first node of the rest, which is unmarked and not less
than `v`, or `nullptr` when the rest is empty; the chain on return is the
unmarked nodes walked past followed by the rest; `prev` is the last of those
unmarked nodes, the head when there is none; `prev->next` is the unmarked word
`cur`; and every node between the head and `cur` is less than `v`. -/
theorem Search_returns_position (cmp : T → T → Bool)
    (st : LockFreeLinkedList T) (l : List (Cell T)) (v : T) (fuel : Nat)
    (hl : Linked st l) (hfuel : l.length + 1 ≤ fuel) :
    ∃ st1 prev cur b P S, Search cmp fuel st v = .ok (st1, prev, cur, b) ∧ l = P ++ S ∧
      (∀ c ∈ P, c.marked = true ∨ cmp c.elem v = true) ∧
      (S = [] → cur = 0) ∧
      (∀ c S1, S = c :: S1 → cur = c.addr ∧ c.marked = false ∧ cmp c.elem v = false) ∧
      st1.head_ = st.head_ ∧ Linked st1 (live P ++ S) ∧
      prev = lastAddr st1.head_ (live P) ∧
      (∃ pd, load st1.mem prev = some ⟨pd, cur⟩) ∧ is_marked_reference cur = false ∧
      (∀ c ∈ live P, c.marked = false ∧ cmp c.elem v = true) := by
  obtain ⟨st1, hrun, h1, _, _, _, _, h6, _⟩ := Search_spec cmp v fuel hl hfuel
  obtain ⟨hn, hhd, hch⟩ := h6
  obtain ⟨pd1, hlast, _⟩ := IsChain.last_link (live (passed cmp v l)) st1.head_ none hn hhd hch
    (fun c hc => mem_live hc)
  have hptr := (IsChain.drop_left hch).ptr
  refine ⟨st1, _, _, _, passed cmp v l, stopAt cmp v l, hrun,
    (passed_append_stopAt cmp v l).symm, fun c hc => mem_passed hc, ?_, ?_, h1, ⟨hn, hhd, hch⟩,
    by rw [h1], ⟨pd1, h1 ▸ hlast⟩, hptr.2, fun c hc => ⟨mem_live hc, mem_live_passed hc⟩⟩
  · intro h; rw [h]; rfl
  · intro c S1 h
    rw [h]
    exact ⟨rfl, stopAt_head h⟩

theorem Search_returns_position_witness :
    ∃ st1 prev cur b P S, Search natLess 4 sampleMarked 6 = .ok (st1, prev, cur, b) ∧
      sampleMarkedCells = P ++ S ∧
      (∀ c ∈ P, c.marked = true ∨ natLess c.elem 6 = true) ∧
      (S = [] → cur = 0) ∧
      (∀ c S1, S = c :: S1 → cur = c.addr ∧ c.marked = false ∧ natLess c.elem 6 = false) ∧
      st1.head_ = sampleMarked.head_ ∧ Linked st1 (live P ++ S) ∧
      prev = lastAddr st1.head_ (live P) ∧
      (∃ pd, load st1.mem prev = some ⟨pd, cur⟩) ∧ is_marked_reference cur = false ∧
      (∀ c ∈ live P, c.marked = false ∧ natLess c.elem 6 = true) :=
  Search_returns_position natLess sampleMarked sampleMarkedCells 6 4 sampleMarked_linked
    (by decide)

/-! ## The codec as a whole -/

/-- C11 as stated fails. The word `1`, a marked null reference, is a machine
word: marking leaves it `1` and unmarking gives `0`. -/
theorem unmark_mark_one :
    (1 : Nat) < WORD ∧ get_marked_reference 1 = 1 ∧
      get_unmarked_reference (get_marked_reference 1) = 0 ∧
      get_unmarked_reference (get_marked_reference 1) ≠ 1 := by
  decide

/-- C11, as amended. For every machine word `ref` that does not carry the
mark, `get_unmarked_reference (get_marked_reference ref)` is `ref`; for a word
that carries it, the round trip gives `ref` without the mark. -/
theorem unmark_mark_of_unmarked (ref : Nat) (hword : ref < WORD) :
    (is_marked_reference ref = false →
      get_unmarked_reference (get_marked_reference ref) = ref) ∧
    (is_marked_reference ref = true →
      get_unmarked_reference (get_marked_reference ref) = ref - 1) := by
  rw [get_unmarked_reference_eq, get_marked_reference_eq, is_marked_reference_eq]
  unfold WORD at hword
  constructor
  · intro h
    simp only [decide_eq_false_iff_not] at h
    omega
  · intro h
    simp only [decide_eq_true_eq] at h
    omega

theorem unmark_mark_of_unmarked_witness :
    (is_marked_reference 8 = false → get_unmarked_reference (get_marked_reference 8) = 8) ∧
    (is_marked_reference 8 = true → get_unmarked_reference (get_marked_reference 8) = 8 - 1) :=
  unmark_mark_of_unmarked 8 (by decide)

/-- C12. For every word `ref`, marking twice is marking once and unmarking
twice is unmarking once. -/
theorem mark_unmark_idempotent (ref : Nat) :
    get_marked_reference (get_marked_reference ref) = get_marked_reference ref ∧
    get_unmarked_reference (get_unmarked_reference ref) = get_unmarked_reference ref := by
  constructor
  · rw [get_marked_reference_eq, get_marked_reference_eq]
    omega
  · rw [get_unmarked_reference_eq (get_unmarked_reference ref), get_unmarked_reference_eq ref]
    have := Nat.mod_lt ref (show 0 < 2 ^ 64 by norm_num)
    omega

/-- C17. For every machine word `ref`: the marked word carries the mark, the
unmarked word does not, both agree with `ref` on every bit but the least
significant one, unmarking the marked word is unmarking the word, and a word
without the mark is returned unchanged by `get_unmarked_reference`. -/
theorem codec_touches_flag_bit (ref : Nat) (hword : ref < WORD) :
    is_marked_reference (get_marked_reference ref) = true ∧
    is_marked_reference (get_unmarked_reference ref) = false ∧
    (∀ i, 0 < i → (get_marked_reference ref).testBit i = ref.testBit i) ∧
    (∀ i, 0 < i → (get_unmarked_reference ref).testBit i = ref.testBit i) ∧
    get_unmarked_reference (get_marked_reference ref) = get_unmarked_reference ref ∧
    (is_marked_reference ref = false → get_unmarked_reference ref = ref) := by
  have hm : get_marked_reference ref / 2 = ref / 2 := by
    rw [get_marked_reference_eq]; omega
  have hu : get_unmarked_reference ref / 2 = ref / 2 := by
    rw [get_unmarked_reference_eq]; unfold WORD at hword; omega
  refine ⟨?_, unmark_unmarked ref, ?_, ?_, ?_, fun h => unmark_of_unmarked hword h⟩
  · rw [is_marked_reference_eq, get_marked_reference_eq]
    simp only [decide_eq_true_eq]
    omega
  · intro i hi
    obtain ⟨j, rfl⟩ : ∃ j, i = j + 1 := ⟨i - 1, by omega⟩
    rw [Nat.testBit_succ, Nat.testBit_succ, hm]
  · intro i hi
    obtain ⟨j, rfl⟩ : ∃ j, i = j + 1 := ⟨i - 1, by omega⟩
    rw [Nat.testBit_succ, Nat.testBit_succ, hu]
  · rw [get_unmarked_reference_eq, get_unmarked_reference_eq, get_marked_reference_eq]
    unfold WORD at hword
    omega

theorem codec_touches_flag_bit_witness :
    is_marked_reference (get_marked_reference 9) = true ∧
    is_marked_reference (get_unmarked_reference 9) = false ∧
    (∀ i, 0 < i → (get_marked_reference 9).testBit i = (9 : Nat).testBit i) ∧
    (∀ i, 0 < i → (get_unmarked_reference 9).testBit i = (9 : Nat).testBit i) ∧
    get_unmarked_reference (get_marked_reference 9) = get_unmarked_reference 9 ∧
    (is_marked_reference 9 = false → get_unmarked_reference 9 = 9) :=
  codec_touches_flag_bit 9 (by decide)

/-! ## What `Find` and `Search` change -/

theorem dead_eq_nil_iff {l : List (Cell T)} : dead l = [] ↔ ∀ c ∈ l, c.marked = false := by
  simp only [dead, List.filter_eq_nil_iff]
  constructor
  · intro h c hc
    simpa using h c hc
  · intro h c hc
    simp [h c hc]

/-- C13 as stated fails. In the list 3, 5, 7 whose node holding 5 is marked and
still linked, `Find(7)` unlinks that node: the `next` word of the node holding
3 changes from 4 to 8, the chain loses a node and `size()` goes from 3 to 2. -/
theorem Find_mutates_marked_list :
    Linked sampleMarked sampleMarkedCells ∧ size sampleMarked = 3 ∧
      load sampleMarked.mem 6 = some ⟨some 3, 4⟩ ∧
      ∃ st1, Find natLess 4 sampleMarked 7 = .ok (st1, true) ∧
        Linked st1 [⟨6, 3, false⟩, ⟨8, 7, false⟩] ∧ size st1 = 2 ∧
        load st1.mem 6 = some ⟨some 3, 8⟩ :=
  ⟨sampleMarked_linked, rfl, rfl, _, rfl,
    ⟨6, rfl, rfl, 8, rfl, by decide, rfl, rfl, 0, rfl, by decide, rfl, rfl⟩, rfl, rfl⟩

theorem live_append (A B : List (Cell T)) : live (A ++ B) = live A ++ live B := by
  simp [live]

theorem firstAddr_eq_zero {mem : List (Option (Node T))} {S : List (Cell T)} {p : Nat}
    (h : IsChain mem p S) (h0 : firstAddr S = 0) : S = [] := by
  cases S with
  | nil => rfl
  | cons c S1 =>
    have h1 := h.first
    obtain ⟨_, nx, hld, _⟩ := h
    have := load_valid hld
    simp only [firstAddr] at h0 h1
    omega

/-- In a sorted chain every marked node that holds the key lies in front of
the node `Search` stops at. -/
theorem marked_equal_mem_passed {cmp : T → T → Bool} (ho : StrictWeakOrder cmp) {data : T}
    {l : List (Cell T)} (h : Sorted cmp l) {c : Cell T} (hc : c ∈ l) (hm : c.marked = true)
    (he : Equals cmp c.elem data = true) : c ∈ passed cmp data l := by
  rw [← passed_append_stopAt cmp data l] at hc
  rcases List.mem_append.mp hc with h1 | h1
  · exact h1
  · exfalso
    obtain ⟨he1, he2⟩ := Equals_iff.mp he
    cases hS : stopAt cmp data l with
    | nil => rw [hS] at h1; cases h1
    | cons d S =>
      rw [hS] at h1
      obtain ⟨hd1, hd2⟩ := stopAt_head hS
      rcases List.mem_cons.mp h1 with h2 | h2
      · rw [h2, hd1] at hm; cases hm
      · rcases ho.split _ data _ (h.stopAt_tail hS c h2) with h3 | h3
        · rw [hd2] at h3; cases h3
        · rw [he2] at h3; cases h3

/-- The addresses that leave the chain during `Search` are those of the marked
nodes walked past. -/
theorem addrs_dead_passed_iff (cmp : T → T → Bool) (v : T) {l : List (Cell T)}
    (hnd : (addrs l).Nodup) (a : Nat) :
    a ∈ addrs (dead (passed cmp v l)) ↔
      a ∈ addrs l ∧ a ∉ addrs (live (passed cmp v l) ++ stopAt cmp v l) := by
  have hsplit := (passed_append_stopAt cmp v l).symm
  constructor
  · intro ha
    obtain ⟨c, hc, rfl⟩ := List.mem_map.mp ha
    have hcP : c ∈ passed cmp v l := List.mem_of_mem_filter hc
    have hcm : c.marked = true := by simpa using (List.mem_filter.mp hc).2
    have hcl : c ∈ l := (List.takeWhile_sublist _).subset hcP
    refine ⟨List.mem_map.mpr ⟨c, hcl, rfl⟩, fun hin => ?_⟩
    obtain ⟨d, hd, hde⟩ := List.mem_map.mp hin
    have hdl : d ∈ l := (kept_sublist cmp v l).subset hd
    have hdc : d = c := List.inj_on_of_nodup_map hnd hdl hcl hde
    subst hdc
    rcases List.mem_append.mp hd with h1 | h1
    · rw [mem_live h1] at hcm; cases hcm
    · have hnd2 := hnd
      rw [hsplit, addrs_append] at hnd2
      exact (List.nodup_append.mp hnd2).2.2 (List.mem_map.mpr ⟨d, hcP, rfl⟩)
        (List.mem_map.mpr ⟨d, h1, rfl⟩)
  · rintro ⟨ha, hnot⟩
    obtain ⟨c, hc, rfl⟩ := List.mem_map.mp ha
    rw [hsplit] at hc
    rcases List.mem_append.mp hc with h1 | h1
    · by_cases hcm : c.marked = true
      · exact List.mem_map.mpr ⟨c, List.mem_filter.mpr ⟨h1, hcm⟩, rfl⟩
      · exfalso
        apply hnot
        rw [addrs_append]
        exact List.mem_append_left _
          (List.mem_map.mpr ⟨c, List.mem_filter.mpr ⟨h1, by simpa using hcm⟩, rfl⟩)
    · exfalso
      apply hnot
      rw [addrs_append]
      exact List.mem_append_right _ (List.mem_map.mpr ⟨c, h1, rfl⟩)

/-- C13, as amended. For every state whose chain is the list `l`, marked nodes
allowed, and every value `v`, with `P` the nodes linked in front of the first
unmarked node whose element is not less than `v`: `Find v` (given enough fuel)
returns, and it leaves the state exactly as it was, the chain, every successor
link and `size()` included, if and only if no node of `P` is marked; in
particular it does when no linked node is marked. Every marked node of `P` is
unlinked and retired by the `Search` of `Find`: the chain left is `l` without
the marked nodes of `P`, these are the nodes added to the retired ones, and
`size_` has been decremented once for each of them. -/
theorem Find_no_mutation_iff (cmp : T → T → Bool) (st : LockFreeLinkedList T)
    (l : List (Cell T)) (v : T) (fuel : Nat) (hl : Linked st l)
    (hfuel : l.length + 1 ≤ fuel) :
    ∃ st1 b, Find cmp fuel st v = .ok (st1, b) ∧
      (st1 = st ↔ ∀ c ∈ passed cmp v l, c.marked = false) ∧
      (AllLive l → st1 = st) ∧
      Linked st1 (live (passed cmp v l) ++ stopAt cmp v l) ∧
      st1.retired = (addrs (dead (passed cmp v l))).reverse ++ st.retired ∧
      (∀ c ∈ passed cmp v l, c.marked = true →
        c.addr ∉ addrs (live (passed cmp v l) ++ stopAt cmp v l) ∧ c.addr ∈ st1.retired) ∧
      size st1 = fetch_sub^[(dead (passed cmp v l)).length] (size st) ∧
      ((dead (passed cmp v l)).length ≤ size st → size st < WORD →
        size st1 + (dead (passed cmp v l)).length = size st) := by
  obtain ⟨st1, hfind, _, _, _, h3, h4, _, h6, h8⟩ := Find_spec cmp v fuel hl hfuel
  have hnd : (addrs l).Nodup := by
    obtain ⟨_, _, hch⟩ := hl
    exact hch.nodup
  refine ⟨st1, _, hfind, ⟨fun h => ?_, h8⟩, fun hlive => h8 (passed_of_allLive cmp v hlive).1,
    h6, h4, fun c hc hm => ?_, h3, fun hk hw => ?_⟩
  · rw [h] at h4
    have h5 : (addrs (dead (passed cmp v l))).reverse = [] := by
      have := congrArg List.length h4
      simp only [List.length_append] at this
      exact List.eq_nil_of_length_eq_zero (by omega)
    have h7 : dead (passed cmp v l) = [] := by
      simpa [addrs] using h5
    exact dead_eq_nil_iff.mp h7
  · have hd : c.addr ∈ addrs (dead (passed cmp v l)) :=
      List.mem_map.mpr ⟨c, List.mem_filter.mpr ⟨hc, hm⟩, rfl⟩
    refine ⟨((addrs_dead_passed_iff cmp v hnd c.addr).mp hd).2, ?_⟩
    rw [h4]
    exact List.mem_append_left _ (List.mem_reverse.mpr hd)
  · have hk1 : (dead (passed cmp v l)).length ≤ st.size_ := hk
    have hw1 : st.size_ < WORD := hw
    show st1.size_ + _ = st.size_
    rw [h3, fetch_sub_iterate hk1 hw1]
    omega

theorem Find_no_mutation_iff_witness :
    ∃ st1 b, Find natLess 4 sampleMarked 7 = .ok (st1, b) ∧
      (st1 = sampleMarked ↔ ∀ c ∈ passed natLess 7 sampleMarkedCells, c.marked = false) ∧
      (AllLive sampleMarkedCells → st1 = sampleMarked) ∧
      Linked st1 (live (passed natLess 7 sampleMarkedCells) ++ stopAt natLess 7 sampleMarkedCells) ∧
      st1.retired =
        (addrs (dead (passed natLess 7 sampleMarkedCells))).reverse ++ sampleMarked.retired ∧
      (∀ c ∈ passed natLess 7 sampleMarkedCells, c.marked = true →
        c.addr ∉ addrs (live (passed natLess 7 sampleMarkedCells) ++
          stopAt natLess 7 sampleMarkedCells) ∧ c.addr ∈ st1.retired) ∧
      size st1 = fetch_sub^[(dead (passed natLess 7 sampleMarkedCells)).length]
        (size sampleMarked) ∧
      ((dead (passed natLess 7 sampleMarkedCells)).length ≤ size sampleMarked →
        size sampleMarked < WORD →
        size st1 + (dead (passed natLess 7 sampleMarkedCells)).length = size sampleMarked) :=
  Find_no_mutation_iff natLess sampleMarked sampleMarkedCells 7 4 sampleMarked_linked
    (by decide)

/-- C14. For every strict total order `cmp`, every state whose chain is the
strictly sorted list `l`, marked nodes allowed, and every key `v`: `Search`
(given enough fuel) returns; with `P` the nodes in front of the node it returns
as `cur` and `S` the chain from `cur` on, the chain on return is the unmarked
nodes of `P` followed by `S`, the marked nodes of `P` are the ones retired (all
marked nodes of the list when `cur` is `nullptr`), `size_` has been decremented
once for each of them, `prev` is the head or an unmarked node, the unmarked
nodes are linked in their old order, and no marked node holding `v` is linked
any more. -/
theorem Search_helps_unlink {cmp : T → T → Bool} (hord : StrictTotalOrder cmp)
    (st : LockFreeLinkedList T) (l : List (Cell T)) (v : T) (fuel : Nat)
    (hl : Linked st l) (hsorted : Sorted cmp l) (hfuel : l.length + 1 ≤ fuel) :
    ∃ st1 prev cur b P S, Search cmp fuel st v = .ok (st1, prev, cur, b) ∧
      l = P ++ S ∧ cur = firstAddr S ∧ Linked st1 (live P ++ S) ∧
      st1.retired = (addrs (dead P)).reverse ++ st.retired ∧
      (∀ a, a ∈ addrs (dead P) ↔ a ∈ addrs l ∧ a ∉ addrs (live P ++ S)) ∧
      (cur = 0 → dead P = dead l) ∧
      size st1 = fetch_sub^[(dead P).length] (size st) ∧
      ((dead P).length ≤ size st → size st < WORD →
        size st1 + (dead P).length = size st) ∧
      (prev = st.head_ ∨ ∃ c ∈ l, c.addr = prev ∧ c.marked = false) ∧
      live (live P ++ S) = live l ∧
      (∀ c ∈ l, c.marked = true → Equals cmp c.elem v = true →
        c.addr ∉ addrs (live P ++ S)) := by
  have ho := hord.weak
  obtain ⟨st1, hrun, _, _, h3, h4, _, h6, _, _⟩ := Search_spec cmp v fuel hl hfuel
  have hsplit := (passed_append_stopAt cmp v l).symm
  have hnd : (addrs l).Nodup := by
    obtain ⟨_, _, hch⟩ := hl
    exact hch.nodup
  have hgone := addrs_dead_passed_iff cmp v hnd
  refine ⟨st1, _, _, _, passed cmp v l, stopAt cmp v l, hrun, hsplit, rfl, h6, h4, hgone,
    ?_, h3, ?_, ?_, ?_, ?_⟩
  · intro h0
    obtain ⟨_, _, hch⟩ := h6
    have hS := firstAddr_eq_zero hch.drop_left h0
    have : passed cmp v l = l := by
      have := passed_append_stopAt cmp v l
      rw [hS, List.append_nil] at this
      exact this
    rw [this]
  · intro hk hw
    have hk1 : (dead (passed cmp v l)).length ≤ st.size_ := hk
    have hw1 : st.size_ < WORD := hw
    show st1.size_ + _ = st.size_
    rw [h3, fetch_sub_iterate hk1 hw1]
    omega
  · rcases List.mem_cons.mp (lastAddr_mem st.head_ (live (passed cmp v l))) with h | h
    · exact Or.inl h
    · obtain ⟨c, hc, hce⟩ := List.mem_map.mp h
      exact Or.inr ⟨c, (passed_sublist cmp v l).subset hc, hce, mem_live hc⟩
  · rw [live_append, live_live, ← live_append, passed_append_stopAt]
  · intro c hc hm he
    have hcP := marked_equal_mem_passed ho hsorted hc hm he
    have : c.addr ∈ addrs (dead (passed cmp v l)) :=
      List.mem_map.mpr ⟨c, List.mem_filter.mpr ⟨hcP, hm⟩, rfl⟩
    exact ((hgone c.addr).mp this).2

theorem Search_helps_unlink_witness :
    ∃ st1 prev cur b P S, Search natLess 4 sampleMarked 5 = .ok (st1, prev, cur, b) ∧
      sampleMarkedCells = P ++ S ∧ cur = firstAddr S ∧ Linked st1 (live P ++ S) ∧
      st1.retired = (addrs (dead P)).reverse ++ sampleMarked.retired ∧
      (∀ a, a ∈ addrs (dead P) ↔ a ∈ addrs sampleMarkedCells ∧ a ∉ addrs (live P ++ S)) ∧
      (cur = 0 → dead P = dead sampleMarkedCells) ∧
      size st1 = fetch_sub^[(dead P).length] (size sampleMarked) ∧
      ((dead P).length ≤ size sampleMarked → size sampleMarked < WORD →
        size st1 + (dead P).length = size sampleMarked) ∧
      (prev = sampleMarked.head_ ∨ ∃ c ∈ sampleMarkedCells, c.addr = prev ∧ c.marked = false) ∧
      live (live P ++ S) = live sampleMarkedCells ∧
      (∀ c ∈ sampleMarkedCells, c.marked = true → Equals natLess c.elem 5 = true →
        c.addr ∉ addrs (live P ++ S)) :=
  Search_helps_unlink natLess_total sampleMarked sampleMarkedCells 5 4 sampleMarked_linked
    sampleMarked_sorted (by decide)

/-! ## `Delete` that finds its node already marked -/

/-- The continuation from line 267 is the rest of a pass of `DeleteLoop`. -/
theorem DeleteLoop_eq_from267 (cmp : T → T → Bool) (data : T) (fuel : Nat)
    (st : LockFreeLinkedList T) :
    DeleteLoop cmp data (fuel + 1) st =
      match Search cmp fuel st data with
      | .error e => .error e
      | .ok (st1, prev, cur, found) =>
        if !found then .ok (st1, none) else DeleteLoopFrom267 cmp data fuel st1 prev cur := by
  rcases h : Search cmp fuel st data with e | ⟨st1, prev, cur, found⟩
  · simp [DeleteLoop, h]
  · cases found
    · simp [DeleteLoop, h]
    · simp only [DeleteLoop, h, DeleteLoopFrom267]

/-- `Delete` is its loops followed by lines 274 to 286. -/
theorem Delete_eq_afterLoops (cmp : T → T → Bool) (fuel : Nat) (st : LockFreeLinkedList T)
    (data : T) :
    Delete cmp fuel st data = DeleteAfterLoops cmp fuel data (DeleteLoop cmp data fuel st) := by
  unfold Delete DeleteAfterLoops
  rcases DeleteLoop cmp data fuel st with e | ⟨st1, _ | ⟨prev, cur, next⟩⟩ <;> rfl

/-- C15 as stated fails. `Delete(5)` on the list 3, 5, 7: its `Search` returns
`true` with `prev` the node holding 3 and `cur` the node holding 5; another
thread then marks `cur->next`; continued from line 267 without further
interference, `Delete` returns `false`, with the marked node unlinked. -/
theorem Delete_of_marked_sample :
    Search natLess 7 sample 5 = .ok (sample, 6, 4, true) ∧
      load sample.mem 4 = some ⟨some 5, 8⟩ ∧ load sampleRaced.mem 4 = some ⟨some 5, 9⟩ ∧
      is_marked_reference 9 = true ∧
      (∃ st1, DeleteFrom267 natLess 7 sampleRaced 5 6 4 = .ok (st1, false) ∧
        Linked st1 [⟨6, 3, false⟩, ⟨8, 7, false⟩]) ∧
      ¬ ∃ st1, DeleteFrom267 natLess 7 sampleRaced 5 6 4 = .ok (st1, true) := by
  refine ⟨rfl, rfl, rfl, rfl, ⟨_, rfl,
    ⟨6, rfl, rfl, 8, rfl, by decide, rfl, rfl, 0, rfl, by decide, rfl, rfl⟩⟩, ?_⟩
  rintro ⟨st1, h⟩
  have h2 : ∃ st2, DeleteFrom267 natLess 7 sampleRaced 5 6 4 = .ok (st2, false) := ⟨_, rfl⟩
  obtain ⟨st2, h2⟩ := h2
  rw [h2] at h
  simp at h

/-- C15, as amended. For every strict total order `cmp` and every state with a
strictly sorted chain `l` in which `Delete v` stands at line 267 with a node
`cur` whose successor link is already marked, and in which no unmarked node
holds an element equal to `v`: `Delete`, continued without interference, does
not perform a mark of its own and does not fall through; it repeats its inner
loop, the repeated `Search` unlinks every marked node holding `v` and finds no
equal element, every unmarked node stays linked and unmarked, and `Delete`
returns `false`. -/
theorem Delete_of_marked_returns_false {cmp : T → T → Bool} (hord : StrictTotalOrder cmp)
    (st : LockFreeLinkedList T) (l : List (Cell T)) (v : T) (fuel prev cur : Nat)
    (cn : Node T) (hl : Linked st l) (hsorted : Sorted cmp l)
    (hcur : load st.mem cur = some cn) (hmarked : is_marked_reference cn.next = true)
    (hnone : ∀ c ∈ l, c.marked = false → Equals cmp c.elem v = false)
    (hfuel : l.length + st.spurious.length + 2 ≤ fuel) :
    ∃ st1 l1, DeleteFrom267 cmp fuel st v prev cur = .ok (st1, false) ∧
      DeleteLoopFrom267 cmp v fuel st prev cur = .ok (st1, none) ∧
      Linked st1 l1 ∧ l1.Sublist l ∧ live l1 = live l ∧ st1.spurious = st.spurious ∧
      (∀ c ∈ l, c.marked = true → Equals cmp c.elem v = true → c.addr ∉ addrs l1) := by
  have ho := hord.weak
  have hf : foundAt cmp v (stopAt cmp v l) = false := by
    rw [← Bool.not_eq_true, found_iff ho v hsorted]
    rintro ⟨c, hc, hm, he⟩
    rw [hnone c hc hm] at he; cases he
  obtain ⟨st1, hrun, _, h2, _, _, _, h6, _⟩ := (DeleteLoop_spec cmp v fuel st l hl hfuel).1 hf
  have hloop : DeleteLoopFrom267 cmp v fuel st prev cur = .ok (st1, none) := by
    simp only [DeleteLoopFrom267, hcur, hmarked, if_true]
    exact hrun
  have hnd : (addrs l).Nodup := by
    obtain ⟨_, _, hch⟩ := hl
    exact hch.nodup
  refine ⟨st1, _, ?_, hloop, h6, kept_sublist cmp v l, ?_, h2, ?_⟩
  · simp only [DeleteFrom267, hloop, DeleteAfterLoops]
  · rw [live_append, live_live, ← live_append, passed_append_stopAt]
  · intro c hc hm he
    have hcP := marked_equal_mem_passed ho hsorted hc hm he
    have : c.addr ∈ addrs (dead (passed cmp v l)) :=
      List.mem_map.mpr ⟨c, List.mem_filter.mpr ⟨hcP, hm⟩, rfl⟩
    exact ((addrs_dead_passed_iff cmp v hnd c.addr).mp this).2

theorem Delete_of_marked_returns_false_witness :
    ∃ st1 l1, DeleteFrom267 natLess 7 sampleMarked 5 6 4 = .ok (st1, false) ∧
      DeleteLoopFrom267 natLess 5 7 sampleMarked 6 4 = .ok (st1, none) ∧
      Linked st1 l1 ∧ l1.Sublist sampleMarkedCells ∧ live l1 = live sampleMarkedCells ∧
      st1.spurious = sampleMarked.spurious ∧
      (∀ c ∈ sampleMarkedCells, c.marked = true → Equals natLess c.elem 5 = true →
        c.addr ∉ addrs l1) :=
  Delete_of_marked_returns_false natLess_total sampleMarked sampleMarkedCells 5 7 6 4
    ⟨some 5, 9⟩ sampleMarked_linked sampleMarked_sorted rfl rfl (by decide) (by decide)

/-! ## The head -/

/-- The head of a linked chain is a node without an element whose `next` word
is not marked. -/
theorem Linked.sentinel {st : LockFreeLinkedList T} {l : List (Cell T)} (h : Linked st l) :
    ∃ hn, load st.mem st.head_ = some ⟨none, hn⟩ ∧ is_marked_reference hn = false := by
  obtain ⟨hn, hld, hch⟩ := h
  exact ⟨hn, hld, hch.ptr.2⟩

theorem addrs_dead_passed_subset (cmp : T → T → Bool) (v : T) (l : List (Cell T)) {a : Nat}
    (ha : a ∈ addrs (dead (passed cmp v l))) : a ∈ addrs l :=
  mem_addrs_of_sublist ((List.filter_sublist _).trans (List.takeWhile_sublist _)) ha

/-- Whatever a call that carries an element retires is a node of the chain it
was called on. -/
theorem call_retired {cmp : T → T → Bool} (op : Op T) (hel : op.carriesElement = true)
    {st : LockFreeLinkedList T}
    {l : List (Cell T)} {fuel : Nat} (hl : Linked st l)
    (hroom : (op.isInsert || op.isEmplace) = true → 2 * (st.mem.length + 1) < WORD)
    (hfuel : l.length + st.spurious.length + 2 ≤ fuel)
    {st1 : LockFreeLinkedList T} {b : Bool} (hcall : call cmp fuel st op = .ok (st1, b)) :
    ∀ a ∈ st1.retired, a ∈ st.retired ∨ a ∈ addrs l := by
  have key : ∀ v (st2 : LockFreeLinkedList T),
      st2.retired = (addrs (dead (passed cmp v l))).reverse ++ st.retired →
      ∀ a ∈ st2.retired, a ∈ st.retired ∨ a ∈ addrs l := by
    intro v st2 h a ha
    rw [h] at ha
    rcases List.mem_append.mp ha with h1 | h1
    · exact Or.inr (addrs_dead_passed_subset cmp v l (List.mem_reverse.mp h1))
    · exact Or.inl h1
  cases op with
  | Insert v =>
    obtain ⟨st2, hrun, _, h2, _⟩ := Emplace_spec cmp v hl (hroom rfl) hfuel
    have : call cmp fuel st (Op.Insert v) = Emplace cmp fuel st v := rfl
    rw [this, hrun] at hcall
    simp only [Except.ok.injEq, Prod.mk.injEq] at hcall
    rw [← hcall.1]
    exact key v st2 h2
  | Emplace v =>
    obtain ⟨st2, hrun, _, h2, _⟩ := Emplace_spec cmp v hl (hroom rfl) hfuel
    have : call cmp fuel st (Op.Emplace v) = Emplace cmp fuel st v := rfl
    rw [this, hrun] at hcall
    simp only [Except.ok.injEq, Prod.mk.injEq] at hcall
    rw [← hcall.1]
    exact key v st2 h2
  | EmplaceNoArgs => cases hel
  | Find v =>
    obtain ⟨st2, hrun, _, _, _, _, h2, _⟩ := Find_spec cmp v fuel hl (by omega)
    have : call cmp fuel st (Op.Find v) = Find cmp fuel st v := rfl
    rw [this, hrun] at hcall
    simp only [Except.ok.injEq, Prod.mk.injEq] at hcall
    rw [← hcall.1]
    exact key v st2 h2
  | Delete v =>
    have hc : call cmp fuel st (Op.Delete v) = Delete cmp fuel st v := rfl
    rw [hc] at hcall
    obtain ⟨hA, hB⟩ := Delete_spec cmp v hl hfuel
    cases hf : foundAt cmp v (stopAt cmp v l) with
    | false =>
      obtain ⟨st2, hrun, _, _, _, h2, _⟩ := hA hf
      rw [hrun] at hcall
      simp only [Except.ok.injEq, Prod.mk.injEq] at hcall
      rw [← hcall.1]
      exact key v st2 h2
    | true =>
      obtain ⟨c, S, hS, he⟩ := foundAt_cons hf
      obtain ⟨st2, hrun, _, _, _, h2, _⟩ := hB c S hS he
      rw [hrun] at hcall
      simp only [Except.ok.injEq, Prod.mk.injEq] at hcall
      rw [← hcall.1]
      intro a ha
      rw [h2] at ha
      rcases List.mem_cons.mp ha with h1 | h1
      · right
        rw [h1]
        have : c ∈ stopAt cmp v l := by rw [hS]; exact List.mem_cons_self _ _
        exact List.mem_map.mpr ⟨c, (List.dropWhile_sublist _).subset this, rfl⟩
      · rcases List.mem_append.mp h1 with h3 | h3
        · exact Or.inr (addrs_dead_passed_subset cmp v l (List.mem_reverse.mp h3))
        · exact Or.inl h3

/-- Calls that carry an element, one after another, never retire the head. -/
theorem run_keeps_head {cmp : T → T → Bool} (ho : StrictWeakOrder cmp) (fuel : Nat) :
    ∀ (ops : List (Op T)) (st : LockFreeLinkedList T) (l : List (Cell T)),
      (∀ op ∈ ops, op.carriesElement = true) →
      Linked st l → Sorted cmp l → 2 * (st.mem.length + ops.length) < WORD →
      l.length + ops.length + st.spurious.length + 1 ≤ fuel → st.head_ ∉ st.retired →
      ∃ st1 bs l1, run cmp fuel st ops = .ok (st1, bs) ∧ Linked st1 l1 ∧ Sorted cmp l1 ∧
        st1.head_ = st.head_ ∧ st1.head_ ∉ st1.retired
  | [], st, l, _, hl, hs, _, _, hr => ⟨st, [], l, rfl, hl, hs, rfl, hr⟩
  | op :: ops, st, l, hel, hl, hs, hroom, hfuel, hr => by
    simp only [List.length_cons] at hroom hfuel
    have hel1 := hel op (List.mem_cons_self _ _)
    obtain ⟨st1, b, l1, h1, h2, h3, h4, h5, h6, h7, _⟩ :=
      call_spec ho op hel1 hl hs (fun _ => by omega)
        (by omega : l.length + st.spurious.length + 2 ≤ fuel)
    have hret := call_retired op hel1 hl (fun _ => by omega)
      (by omega : l.length + st.spurious.length + 2 ≤ fuel) h1
    have hr1 : st1.head_ ∉ st1.retired := by
      rw [h4]
      intro h
      rcases hret _ h with h8 | h8
      · exact hr h8
      · exact hl.sentinel_not_mem h8
    obtain ⟨st2, bs, l2, g1, g2, g3, g4, g5⟩ :=
      run_keeps_head ho fuel ops st1 l1 (fun o ho1 => hel o (List.mem_cons_of_mem _ ho1)) h2 h3
        (by omega) (by omega) hr1
    exact ⟨st2, b :: bs, l2, by simp [run, h1, g1], g2, g3, g4.trans h4, g5⟩

/-! ## `getHeadData`, `deleteHead` and `show` -/

theorem passed_stopAt_self {cmp : T → T → Bool} (ho : StrictWeakOrder cmp) (c : Cell T)
    (S : List (Cell T)) (hc : c.marked = false) :
    passed cmp c.elem (c :: S) = [] ∧ stopAt cmp c.elem (c :: S) = c :: S := by
  simp [passed, stopAt, skips, hc, ho.irrefl]

/-- On every list the constructor and the operations can produce, `show`
dereferences the null `data` of the head after writing the size. -/
theorem show_faults {st : LockFreeLinkedList T} {l : List (Cell T)} (hl : Linked st l) :
    show_ st = ([Out.text "size=", Out.num (size st), Out.endl, Out.text "head data is "],
      .error .nullDeref) := by
  obtain ⟨hn, hhd, _⟩ := hl
  have hh0 : st.head_ ≠ 0 := by have := load_valid hhd; omega
  simp [show_, hh0, hhd]

/-- C20 fails on the code. On the list 3, 5, 7, whose `size()` is 3, `show`
writes the size and the words "head data is ", then dereferences `head_->data`,
which is null: it does not return and does not write the first element 3. -/
theorem show_sample_faults :
    Linked sample sampleCells ∧ elems sampleCells = [3, 5, 7] ∧
      show_ sample = ([Out.text "size=", Out.num 3, Out.endl, Out.text "head data is "],
        .error .nullDeref) ∧
      Out.elem 3 ∉ (show_ sample).1 :=
  ⟨sample_linked, rfl, rfl, by decide⟩

/-! ## Runs without interference -/

/-- Without the counters the counted loop of `Search` is the loop of `Search`. -/
theorem SearchLoopCounted_erase (cmp : T → T → Bool) (data : T) :
    ∀ (fuel : Nat) (st : LockFreeLinkedList T) (prev cur : Nat),
      (SearchLoopCounted cmp data fuel st prev cur).map Prod.fst =
        SearchLoop cmp data fuel st prev cur
  | 0, _, _, _ => rfl
  | fuel + 1, st, prev, cur => by
    unfold SearchLoopCounted SearchLoop
    rcases hs : SearchStep cmp data st prev cur with e | s
    · rfl
    · cases s with
      | ret st1 prev1 cur1 found => rfl
      | next st1 prev1 cur1 =>
        simp only
        rw [← SearchLoopCounted_erase cmp data fuel st1 prev1 cur1]
        rcases SearchLoopCounted cmp data fuel st1 prev1 cur1 with e | ⟨r, p, t⟩ <;> rfl
      | try_again =>
        simp only
        rcases load st.mem st.head_ with _ | hn
        · rfl
        · simp only
          rw [← SearchLoopCounted_erase cmp data fuel st st.head_ hn.next]
          rcases SearchLoopCounted cmp data fuel st st.head_ hn.next with e | ⟨r, p, t⟩ <;> rfl

theorem SearchCounted_erase (cmp : T → T → Bool) (fuel : Nat) (st : LockFreeLinkedList T)
    (data : T) : (SearchCounted cmp fuel st data).map Prod.fst = Search cmp fuel st data := by
  unfold SearchCounted Search
  rcases load st.mem st.head_ with _ | hn
  · rfl
  · exact SearchLoopCounted_erase cmp data fuel st st.head_ hn.next

theorem FindCounted_erase (cmp : T → T → Bool) (fuel : Nat) (st : LockFreeLinkedList T)
    (data : T) : (FindCounted cmp fuel st data).map Prod.fst = Find cmp fuel st data := by
  unfold FindCounted Find
  rcases Search cmp fuel st data with e | ⟨st1, prev, cur, found⟩ <;> rfl

theorem EmplaceLoopCounted_erase (cmp : T → T → Bool) :
    ∀ (fuel : Nat) (st : LockFreeLinkedList T) (new_node : Nat),
      (EmplaceLoopCounted cmp fuel st new_node).map Prod.fst = EmplaceLoop cmp fuel st new_node
  | 0, _, _ => rfl
  | fuel + 1, st, new_node => by
    unfold EmplaceLoopCounted EmplaceLoop
    rcases load st.mem new_node with _ | nn
    · rfl
    · simp only
      rcases nn.data with _ | new_data
      · rfl
      · simp only
        rcases Search cmp fuel st new_data with e | ⟨st1, prev, cur, found⟩
        · rfl
        · cases found
          · simp only [Bool.false_eq_true, if_false]
            rcases load st1.mem new_node with _ | nn1
            · rfl
            · simp only
              rcases compare_exchange_weak
                  { st1 with mem := store st1.mem new_node { nn1 with next := cur } }
                  prev cur new_node with _ | ⟨st3, ok, e⟩
              · rfl
              · cases ok
                · simp only
                  rw [← EmplaceLoopCounted_erase cmp fuel st3 new_node]
                  rcases EmplaceLoopCounted cmp fuel st3 new_node with e | ⟨r, n⟩ <;> rfl
                · rfl
          · rfl

theorem EmplaceCounted_erase (cmp : T → T → Bool) (fuel : Nat) (st : LockFreeLinkedList T)
    (data : T) : (EmplaceCounted cmp fuel st data).map Prod.fst = Emplace cmp fuel st data := by
  unfold EmplaceCounted Emplace
  rcases alloc st.mem { data := some data, next := 0 } with _ | ⟨mem1, new_node⟩
  · rfl
  · exact EmplaceLoopCounted_erase cmp fuel _ new_node

theorem DeleteLoopCounted_erase (cmp : T → T → Bool) (data : T) :
    ∀ (fuel : Nat) (st : LockFreeLinkedList T),
      (DeleteLoopCounted cmp data fuel st).map Prod.fst = DeleteLoop cmp data fuel st
  | 0, _ => rfl
  | fuel + 1, st => by
    unfold DeleteLoopCounted DeleteLoop
    rcases Search cmp fuel st data with e | ⟨st1, prev, cur, found⟩
    · rfl
    · cases found
      · rfl
      · simp only [Bool.not_true, Bool.false_eq_true, if_false]
        rcases load st1.mem cur with _ | cn
        · rfl
        · simp only
          by_cases hm : is_marked_reference cn.next = true
          · simp only [hm, if_true]
            rw [← DeleteLoopCounted_erase cmp data fuel st1]
            rcases DeleteLoopCounted cmp data fuel st1 with e | ⟨r, n⟩ <;> rfl
          · simp only [hm, if_false]
            rcases compare_exchange_weak st1 cur cn.next (get_marked_reference cn.next)
              with _ | ⟨st2, ok, e⟩
            · rfl
            · cases ok
              · simp only
                rw [← DeleteLoopCounted_erase cmp data fuel st2]
                rcases DeleteLoopCounted cmp data fuel st2 with e | ⟨r, n⟩ <;> rfl
              · rfl

theorem DeleteCounted_erase (cmp : T → T → Bool) (fuel : Nat) (st : LockFreeLinkedList T)
    (data : T) : (DeleteCounted cmp fuel st data).map Prod.fst = Delete cmp fuel st data := by
  unfold DeleteCounted Delete
  rw [← DeleteLoopCounted_erase cmp data fuel st]
  rcases DeleteLoopCounted cmp data fuel st with e | ⟨⟨st1, _ | ⟨prev, cur, next⟩⟩, n⟩
  · rfl
  · rfl
  · show Except.map Prod.fst _ = _
    simp only [Except.map]
    rcases compare_exchange_strong st1.mem prev cur next with _ | ⟨mem3, ok, e⟩
    · rfl
    · cases ok
      · simp only
        rcases Search cmp fuel st1 data with e | ⟨st4, p, c, f⟩ <;> rfl
      · rfl

/-- The loop of `Search`, entered at a node `prev` whose `next` word is `cur`
with the chain `rest` behind it, makes one pass for each node it walks past
and one more, and never jumps to `try_again`. -/
theorem SearchLoopCounted_spec (cmp : T → T → Bool) (data : T) :
    ∀ (rest : List (Cell T)) (fuel : Nat) (st : LockFreeLinkedList T) (prev cur : Nat)
      (pd : Option T),
      load st.mem prev = some ⟨pd, cur⟩ → IsChain st.mem cur rest → prev ∉ addrs rest →
      rest.length + 1 ≤ fuel →
      ∃ r, SearchLoopCounted cmp data fuel st prev cur =
        .ok (r, (passed cmp data rest).length + 1, 0)
  | [], fuel, st, prev, cur, pd, hprev, hch, _, hfuel => by
    obtain ⟨fuel, rfl⟩ : ∃ f, fuel = f + 1 := ⟨fuel - 1, by omega⟩
    simp only [IsChain] at hch
    subst hch
    exact ⟨(st, prev, 0, false), by simp [SearchLoopCounted, SearchStep_nil hprev, passed]⟩
  | c :: rest, fuel, st, prev, cur, pd, hprev, hch, hnot, hfuel => by
    obtain ⟨fuel, rfl⟩ : ∃ f, fuel = f + 1 := ⟨fuel - 1, by simp at hfuel; omega⟩
    have hnm := hch.head_not_mem
    obtain ⟨nx, hcur, hw, hm, hrest, hp⟩ := hch.tail
    subst hp
    simp only [addrs, List.map_cons, List.mem_cons, not_or] at hnot
    have hfuel1 : rest.length + 1 ≤ fuel := by simp at hfuel; omega
    by_cases hmk : c.marked = true
    · rw [hmk] at hm
      have hskip : skips cmp data c = true := by simp [skips, hmk]
      let st2 : LockFreeLinkedList T :=
        { st with mem := store st.mem prev ⟨pd, get_unmarked_reference nx⟩,
                  retired := c.addr :: st.retired, size_ := fetch_sub st.size_ }
      have hprev2 : load st2.mem prev = some ⟨pd, get_unmarked_reference nx⟩ :=
        load_store_same hprev
      have hch2 : IsChain st2.mem (get_unmarked_reference nx) rest := by
        refine IsChain.congr_mem (fun a ha => ?_) hrest
        exact load_store_ne hprev (fun h => hnot.2 (h ▸ ha))
      obtain ⟨r, hr⟩ := SearchLoopCounted_spec cmp data rest fuel st2 prev
        (get_unmarked_reference nx) pd hprev2 hch2 hnot.2 hfuel1
      refine ⟨r, ?_⟩
      simp only [SearchLoopCounted, SearchStep_marked hprev hcur hm]
      have hr2 : SearchLoopCounted cmp data fuel
          { st with mem := store st.mem prev ⟨pd, get_unmarked_reference nx⟩,
                    retired := c.addr :: st.retired, size_ := fetch_sub st.size_ }
          prev (get_unmarked_reference nx) = _ := hr
      rw [hr2]
      simp [passed, hskip]
    · have hmk : c.marked = false := by simpa using hmk
      rw [hmk] at hm
      by_cases hlt : cmp c.elem data = true
      · have hskip : skips cmp data c = true := by simp [skips, hlt]
        have hnx : get_unmarked_reference nx = nx := unmark_of_unmarked hw hm
        rw [hnx] at hrest
        obtain ⟨r, hr⟩ := SearchLoopCounted_spec cmp data rest fuel st c.addr nx (some c.elem)
          hcur hrest hnm hfuel1
        refine ⟨r, ?_⟩
        simp only [SearchLoopCounted, SearchStep_live hprev hcur hm, hlt, if_true, hr]
        simp [passed, hskip]
      · have hlt : cmp c.elem data = false := by simpa using hlt
        have hskip : skips cmp data c = false := by simp [skips, hlt, hmk]
        exact ⟨(st, prev, c.addr, Equals cmp c.elem data),
          by simp [SearchLoopCounted, SearchStep_live hprev hcur hm, hlt, passed, hskip]⟩

/-- `Search` on a linked chain: its passes and its restarts. -/
theorem SearchCounted_spec (cmp : T → T → Bool) (data : T) (fuel : Nat)
    {st : LockFreeLinkedList T} {l : List (Cell T)} (hl : Linked st l)
    (hfuel : l.length + 1 ≤ fuel) :
    ∃ r, SearchCounted cmp fuel st data = .ok (r, (passed cmp data l).length + 1, 0) ∧
      Search cmp fuel st data = .ok r := by
  have hnot := hl.sentinel_not_mem
  obtain ⟨hn, hld, hch⟩ := hl
  obtain ⟨r, hr⟩ := SearchLoopCounted_spec cmp data l fuel st st.head_ hn none hld hch hnot hfuel
  have hc : SearchCounted cmp fuel st data = .ok (r, (passed cmp data l).length + 1, 0) := by
    simp only [SearchCounted, hld]
    exact hr
  refine ⟨r, hc, ?_⟩
  rw [← SearchCounted_erase, hc]
  rfl

/-- The loop of `Emplace` calls `Search` once when the exchange of line 249
does not fail spuriously. -/
theorem EmplaceLoopCounted_once (cmp : T → T → Bool) (v : T) (fuel : Nat)
    (st : LockFreeLinkedList T) (l : List (Cell T)) (nn w : Nat)
    (hl : Linked st l) (hnn : load st.mem nn = some ⟨some v, w⟩) (hnot : nn ∉ addrs l)
    (hhead : nn ≠ st.head_) (hfuel : l.length + 2 ≤ fuel)
    (hsp : st.spurious.head? ≠ some true) :
    ∃ r, EmplaceLoopCounted cmp fuel st nn = .ok (r, 1) := by
  obtain ⟨fuel, rfl⟩ : ∃ f, fuel = f + 1 := ⟨fuel - 1, by omega⟩
  obtain ⟨st1, hrun, h1, h2, h3, h4, h5, h6, h7, h8⟩ :=
    Search_spec cmp v fuel hl (by omega)
  have hnotK : nn ∉ addrs (live (passed cmp v l) ++ stopAt cmp v l) :=
    fun h => hnot (mem_addrs_of_sublist (kept_sublist cmp v l) h)
  have hnotP : nn ∉ addrs (live (passed cmp v l)) :=
    fun h => hnot (mem_addrs_of_sublist (passed_sublist cmp v l) h)
  have hnn1 : load st1.mem nn = some ⟨some v, w⟩ := by rw [h7 nn hhead hnotP]; exact hnn
  cases hf : foundAt cmp v (stopAt cmp v l) with
  | true =>
    exact ⟨({ st1 with mem := free st1.mem nn }, false),
      by simp [EmplaceLoopCounted, hnn, hrun, hf]⟩
  | false =>
    let st2 : LockFreeLinkedList T :=
      { st1 with mem := store st1.mem nn ⟨some v, firstAddr (stopAt cmp v l)⟩ }
    have hl2 : Linked st2 (live (passed cmp v l) ++ stopAt cmp v l) := by
      refine Linked.congr_state st1 rfl (fun a ha => ?_) h6
      refine load_store_ne hnn1 ?_
      rintro rfl
      rcases List.mem_cons.mp ha with h | h
      · exact hhead (h.trans h1)
      · exact hnotK h
    obtain ⟨hn, hhd, hch⟩ := hl2
    obtain ⟨pd1, hlast, _⟩ := IsChain.last_link (live (passed cmp v l)) st2.head_ none hn hhd hch
      (fun c hc => mem_live hc)
    have hhd2 : st2.head_ = st.head_ := h1
    rw [hhd2] at hlast
    have hcas := compare_exchange_weak_eq st2 nn hlast
    have hsp2 : st2.spurious.head? ≠ some true := by
      show st1.spurious.head? ≠ some true
      rw [h2]; exact hsp
    rw [if_neg hsp2] at hcas
    simp only [st2] at hcas
    exact ⟨({ st2 with mem := store st2.mem (lastAddr st.head_ (live (passed cmp v l)))
                              ⟨pd1, nn⟩,
                        spurious := st2.spurious.tail,
                        size_ := fetch_add st2.size_ }, true),
      by simp [EmplaceLoopCounted, hnn, hrun, hf, hnn1, hcas, st2]⟩

/-- `Emplace` calls `Search` once when the allocation succeeds and the exchange
of line 249 does not fail spuriously. -/
theorem EmplaceCounted_once (cmp : T → T → Bool) (v : T) {st : LockFreeLinkedList T}
    {l : List (Cell T)} {fuel : Nat} (hl : Linked st l)
    (hroom : 2 * (st.mem.length + 1) < WORD) (hfuel : l.length + 2 ≤ fuel)
    (hsp : st.spurious.head? ≠ some true) :
    ∃ r, EmplaceCounted cmp fuel st v = .ok (r, 1) ∧ Emplace cmp fuel st v = .ok r := by
  have halloc : alloc st.mem ⟨some v, 0⟩ =
      some (st.mem ++ [some ⟨some v, 0⟩], 2 * (st.mem.length + 1)) := by
    simp [alloc, hroom]
  obtain ⟨hnew, hfresh, hlen⟩ := load_alloc_same halloc
  have hne : ∀ a, (∃ n, load st.mem a = some n) → a ≠ 2 * (st.mem.length + 1) := by
    rintro a ⟨n, hn⟩ rfl
    rw [hfresh] at hn; cases hn
  have hhead : 2 * (st.mem.length + 1) ≠ st.head_ := by
    obtain ⟨hn, hld, _⟩ := hl
    exact fun h => hne _ ⟨_, hld⟩ h.symm
  have hnot : 2 * (st.mem.length + 1) ∉ addrs l := by
    obtain ⟨hn, _, hch⟩ := hl
    intro h
    obtain ⟨x, nx, hx⟩ := hch.mem_data h
    exact hne _ ⟨_, hx⟩ rfl
  have hl1 : Linked { st with mem := st.mem ++ [some ⟨some v, 0⟩] } l := by
    refine Linked.congr_state st rfl (fun a ha => load_alloc_ne halloc ?_) hl
    rintro rfl
    rcases List.mem_cons.mp ha with h | h
    · exact hhead h
    · exact hnot h
  obtain ⟨r, hr⟩ := EmplaceLoopCounted_once cmp v fuel
    { st with mem := st.mem ++ [some ⟨some v, 0⟩] } l (2 * (st.mem.length + 1)) 0 hl1 hnew hnot
    hhead hfuel hsp
  have hc : EmplaceCounted cmp fuel st v = .ok (r, 1) := by
    simp only [EmplaceCounted, halloc]
    exact hr
  refine ⟨r, hc, ?_⟩
  rw [← EmplaceCounted_erase, hc]
  rfl

/-- `Find` calls `Search` once. -/
theorem FindCounted_once (cmp : T → T → Bool) (v : T) {st : LockFreeLinkedList T}
    {l : List (Cell T)} {fuel : Nat} (hl : Linked st l) (hfuel : l.length + 1 ≤ fuel) :
    ∃ r, FindCounted cmp fuel st v = .ok (r, 1) ∧ Find cmp fuel st v = .ok r := by
  obtain ⟨st1, hrun, _⟩ := Search_spec cmp v fuel hl hfuel
  exact ⟨(st1, foundAt cmp v (stopAt cmp v l)), by simp [FindCounted, hrun], by simp [Find, hrun]⟩

/-- `Delete` calls `Search` once when the marking exchange of line 270 does not
fail spuriously: it returns `false` at line 265 when `Search` does not find the
element, and otherwise its own exchange of line 274 unlinks the node. -/
theorem DeleteCounted_once (cmp : T → T → Bool) (v : T) {st : LockFreeLinkedList T}
    {l : List (Cell T)} {fuel : Nat} (hl : Linked st l) (hfuel : l.length + 2 ≤ fuel)
    (hsp : st.spurious.head? ≠ some true) :
    ∃ st1, DeleteCounted cmp fuel st v =
        .ok ((st1, foundAt cmp v (stopAt cmp v l)), 1,
          if foundAt cmp v (stopAt cmp v l) then .direct_unlink else .not_found) ∧
      Delete cmp fuel st v = .ok (st1, foundAt cmp v (stopAt cmp v l)) := by
  obtain ⟨fuel, rfl⟩ : ∃ f, fuel = f + 1 := ⟨fuel - 1, by omega⟩
  obtain ⟨st1, hrun, h1, h2, h3, h4, h5, h6, h7, h8⟩ :=
    Search_spec cmp v fuel hl (by omega)
  suffices hc : ∃ st1, DeleteCounted cmp (fuel + 1) st v =
      .ok ((st1, foundAt cmp v (stopAt cmp v l)), 1,
        if foundAt cmp v (stopAt cmp v l) then .direct_unlink else .not_found) by
    obtain ⟨st9, hc⟩ := hc
    refine ⟨st9, hc, ?_⟩
    rw [← DeleteCounted_erase, hc]
    rfl
  cases hf : foundAt cmp v (stopAt cmp v l) with
  | false =>
    exact ⟨st1, by simp [DeleteCounted, DeleteLoopCounted, hrun, hf]⟩
  | true =>
    obtain ⟨c, S, hS, heq⟩ := foundAt_cons hf
    obtain ⟨hmk, _⟩ := stopAt_head hS
    have hheadK := h6.sentinel_not_mem
    obtain ⟨hn, hhd, hch⟩ := h6
    have hcS : IsChain st1.mem (firstAddr (stopAt cmp v l)) (stopAt cmp v l) := hch.drop_left
    rw [hS] at hcS hch hheadK
    obtain ⟨nx, hcur, hw, hm, hr, _⟩ := IsChain.tail hcS
    rw [hmk] at hm
    have hcas := compare_exchange_weak_eq st1 (get_marked_reference nx) hcur
    have hsp1 : st1.spurious.head? ≠ some true := by rw [h2]; exact hsp
    rw [if_neg hsp1] at hcas
    have hloop : DeleteLoopCounted cmp v (fuel + 1) st =
        .ok (({ st1 with mem := store st1.mem c.addr ⟨some c.elem, get_marked_reference nx⟩,
                          spurious := st1.spurious.tail },
              some (lastAddr st.head_ (live (passed cmp v l)), c.addr, nx)), 1) := by
      simp [DeleteLoopCounted, hrun, hS, foundAt, heq, firstAddr, hcur, hm, hcas]
    obtain ⟨pd1, hlast, _⟩ := IsChain.last_link (live (passed cmp v l)) st1.head_ none hn hhd hch
      (fun c hc => mem_live hc)
    have hne : lastAddr st1.head_ (live (passed cmp v l)) ≠ c.addr := by
      intro h
      have := lastAddr_not_mem hch hheadK
      apply this
      rw [h]
      simp [addrs]
    have hlast2 : load (store st1.mem c.addr ⟨some c.elem, get_marked_reference nx⟩)
        (lastAddr st.head_ (live (passed cmp v l))) = some ⟨pd1, c.addr⟩ := by
      rw [← h1, load_store_ne hcur hne]
      simpa [firstAddr] using hlast
    simp [DeleteCounted, hloop, compare_exchange_strong, hlast2]

/-- C18. Without interference nothing retries. On a linked chain `l`, finite
and acyclic, marked nodes allowed, and for every key `v`: `Search` returns
after one pass through its loop for each node it walks past and one more, at
most one for each linked node plus one, and never jumps to `try_again`; `Find`
calls `Search` once; when the allocation succeeds and the first weak exchange
does not fail spuriously `Emplace` calls `Search` once; and when the first weak
exchange does not fail spuriously `Delete` calls `Search` once, never returns
behind the fallback `Search` of line 283, and returns behind its own unlinking
exchange whenever it has found the key (at line 265 otherwise). Each counted
run returns what the operation itself returns. -/
theorem nothing_retries_alone (cmp : T → T → Bool) (st : LockFreeLinkedList T)
    (l : List (Cell T)) (v : T) (fuel : Nat) (hl : Linked st l) (hfuel : l.length + 2 ≤ fuel) :
    (∃ r passes, SearchCounted cmp fuel st v = .ok (r, passes, 0) ∧
      Search cmp fuel st v = .ok r ∧
      passes = (passed cmp v l).length + 1 ∧ passes ≤ l.length + 1) ∧
    (∃ r, FindCounted cmp fuel st v = .ok (r, 1) ∧ Find cmp fuel st v = .ok r) ∧
    (2 * (st.mem.length + 1) < WORD → st.spurious.head? ≠ some true →
      ∃ r, EmplaceCounted cmp fuel st v = .ok (r, 1) ∧ Emplace cmp fuel st v = .ok r) ∧
    (st.spurious.head? ≠ some true →
      ∃ r branch, DeleteCounted cmp fuel st v = .ok (r, 1, branch) ∧
        Delete cmp fuel st v = .ok r ∧ branch ≠ .fallback_search ∧
        (r.2 = true → branch = .direct_unlink) ∧ (r.2 = false → branch = .not_found)) := by
  refine ⟨?_, FindCounted_once cmp v hl (by omega), ?_, ?_⟩
  · obtain ⟨r, hc, hs⟩ := SearchCounted_spec cmp v fuel hl (by omega)
    refine ⟨r, _, hc, hs, rfl, ?_⟩
    have : (passed cmp v l).length ≤ l.length :=
      (List.takeWhile_sublist (skips cmp v)).length_le
    omega
  · intro hroom hsp
    exact EmplaceCounted_once cmp v hl hroom hfuel hsp
  · intro hsp
    obtain ⟨st1, hc, hd⟩ := DeleteCounted_once cmp v hl hfuel hsp
    refine ⟨_, _, hc, hd, ?_, ?_, ?_⟩
    · cases foundAt cmp v (stopAt cmp v l) <;> simp
    · intro h
      simp only at h
      simp [h]
    · intro h
      simp only at h
      simp [h]

theorem nothing_retries_alone_witness :
    (∃ r passes, SearchCounted natLess 5 sampleMarked 7 = .ok (r, passes, 0) ∧
      Search natLess 5 sampleMarked 7 = .ok r ∧
      passes = (passed natLess 7 sampleMarkedCells).length + 1 ∧
      passes ≤ sampleMarkedCells.length + 1) ∧
    (∃ r, FindCounted natLess 5 sampleMarked 7 = .ok (r, 1) ∧
      Find natLess 5 sampleMarked 7 = .ok r) ∧
    (∃ r, EmplaceCounted natLess 5 sampleMarked 7 = .ok (r, 1) ∧
      Emplace natLess 5 sampleMarked 7 = .ok r) ∧
    (∃ r branch, DeleteCounted natLess 5 sampleMarked 7 = .ok (r, 1, branch) ∧
      Delete natLess 5 sampleMarked 7 = .ok r ∧ branch ≠ .fallback_search ∧
      (r.2 = true → branch = .direct_unlink) ∧ (r.2 = false → branch = .not_found)) :=
  have h := nothing_retries_alone natLess sampleMarked sampleMarkedCells 7 5 sampleMarked_linked
    (by decide)
  ⟨h.1, h.2.1, h.2.2.1 (by decide) (by decide), h.2.2.2 (by decide)⟩

/-! ## References bound to an element -/

/-- For a reference bound to an element the body of the loop of `Search` is
`SearchStep`. -/
theorem SearchStepRef_some (cmp : T → T → Bool) (data : T) (st : LockFreeLinkedList T)
    (prev cur : Nat) :
    SearchStepRef cmp (some data) st prev cur = SearchStep cmp data st prev cur := by
  unfold SearchStepRef SearchStep
  rcases hp : load st.mem prev with _ | pn
  · rfl
  · by_cases h1 : pn.next ≠ cur
    · simp [h1]
    · by_cases h2 : cur = 0
      · simp [h1, h2]
      · rcases hc : load st.mem cur with _ | cn
        · simp [h1, h2]
        · by_cases hm : is_marked_reference cn.next = true
          · simp [h1, h2, hm]
          · rcases hd : cn.data with _ | cur_data <;> simp [h1, h2, hm, hd]

theorem SearchLoopRef_some (cmp : T → T → Bool) (data : T) :
    ∀ (fuel : Nat) (st : LockFreeLinkedList T) (prev cur : Nat),
      SearchLoopRef cmp (some data) fuel st prev cur = SearchLoop cmp data fuel st prev cur
  | 0, _, _, _ => rfl
  | fuel + 1, st, prev, cur => by
    unfold SearchLoopRef SearchLoop
    rw [SearchStepRef_some]
    rcases SearchStep cmp data st prev cur with e | s
    · rfl
    · cases s with
      | ret st1 prev1 cur1 found => rfl
      | next st1 prev1 cur1 => exact SearchLoopRef_some cmp data fuel st1 prev1 cur1
      | try_again =>
        simp only
        rcases load st.mem st.head_ with _ | hn
        · rfl
        · exact SearchLoopRef_some cmp data fuel st st.head_ hn.next

/-- For a reference bound to an element `SearchRef` is `Search`. -/
theorem SearchRef_some (cmp : T → T → Bool) (fuel : Nat) (st : LockFreeLinkedList T)
    (data : T) : SearchRef cmp fuel st (some data) = Search cmp fuel st data := by
  unfold SearchRef Search
  rcases load st.mem st.head_ with _ | hn
  · rfl
  · exact SearchLoopRef_some cmp data fuel st st.head_ hn.next

theorem DeleteLoopRef_some (cmp : T → T → Bool) (data : T) :
    ∀ (fuel : Nat) (st : LockFreeLinkedList T),
      DeleteLoopRef cmp (some data) fuel st = DeleteLoop cmp data fuel st
  | 0, _ => rfl
  | fuel + 1, st => by
    unfold DeleteLoopRef DeleteLoop
    rw [SearchRef_some]
    rcases Search cmp fuel st data with e | ⟨st1, prev, cur, found⟩
    · rfl
    · simp only
      split
      · rfl
      · rcases load st1.mem cur with _ | cn
        · rfl
        · simp only
          split
          · exact DeleteLoopRef_some cmp data fuel st1
          · rcases compare_exchange_weak st1 cur cn.next (get_marked_reference cn.next)
              with _ | ⟨st2, b, e⟩
            · rfl
            · cases b
              · exact DeleteLoopRef_some cmp data fuel st2
              · rfl

/-- For a reference bound to an element `DeleteRef` is `Delete`. -/
theorem DeleteRef_some (cmp : T → T → Bool) (fuel : Nat) (st : LockFreeLinkedList T)
    (data : T) : DeleteRef cmp fuel st (some data) = Delete cmp fuel st data := by
  unfold DeleteRef Delete
  rw [DeleteLoopRef_some]
  rcases DeleteLoop cmp data fuel st with e | ⟨st1, _ | ⟨prev, cur, next⟩⟩
  · rfl
  · rfl
  · simp only
    rcases compare_exchange_strong st1.mem prev cur next with _ | ⟨mem3, b, e⟩
    · rfl
    · cases b
      · simp only
        rw [SearchRef_some]
      · rfl

/-- Writing the `next` word of a node keeps the `data` pointer of every node. -/
theorem load_store_data {mem : List (Option (Node T))} {p : Nat} {n : Node T} (d : Nat)
    (h : load mem p = some n) (a : Nat) :
    (load (store mem p { n with next := d }) a).map Node.data = (load mem a).map Node.data := by
  by_cases ha : a = p
  · subst ha
    rw [load_store_same h, h]
    rfl
  · rw [load_store_ne h ha]

/-- One pass through the loop of `Search` keeps the `data` pointer of every node. -/
theorem SearchStep_data {cmp : T → T → Bool} {data : T} {st : LockFreeLinkedList T}
    {prev cur : Nat} {st1 : LockFreeLinkedList T} {prev1 cur1 : Nat}
    (h : (∃ found, SearchStep cmp data st prev cur = .ok (.ret st1 prev1 cur1 found)) ∨
      SearchStep cmp data st prev cur = .ok (.next st1 prev1 cur1)) (a : Nat) :
    (load st1.mem a).map Node.data = (load st.mem a).map Node.data := by
  unfold SearchStep at h
  rcases hp : load st.mem prev with _ | pn
  · simp [hp] at h
  · by_cases h1 : pn.next = cur
    swap
    · simp [hp, h1] at h
    · subst h1
      by_cases h2 : pn.next = 0
      · rcases h with ⟨f, h⟩ | h
        · simp only [hp, h2, ne_eq, not_true_eq_false, if_false, if_true, Except.ok.injEq,
            Step.ret.injEq] at h
          rw [← h.1]
        · simp [hp, h2] at h
      · rcases hc : load st.mem pn.next with _ | cn
        · simp [hp, h2, hc] at h
        · by_cases hm : is_marked_reference cn.next = true
          · rcases h with ⟨f, h⟩ | h
            · simp [hp, h2, hc, hm, compare_exchange_strong] at h
            · simp only [hp, h2, hc, hm, ne_eq, not_true_eq_false, if_false, if_true,
                compare_exchange_strong, ReclaimLater, ReclaimNoHazardPointer, Except.ok.injEq,
                Step.next.injEq] at h
              rw [← h.1]
              exact load_store_data _ hp a
          · replace hm : is_marked_reference cn.next = false := by simpa using hm
            rcases hd : cn.data with _ | cur_data
            · simp [hp, h2, hc, hm, hd] at h
            · by_cases hg : GreaterOrEquals cmp cur_data data = true
              · rcases h with ⟨f, h⟩ | h
                · simp only [hp, h2, hc, hm, hd, hg, ne_eq, not_true_eq_false, if_false, if_true,
                    Bool.false_eq_true, Except.ok.injEq, Step.ret.injEq] at h
                  rw [← h.1]
                · simp [hp, h2, hc, hm, hd, hg] at h
              · rcases h with ⟨f, h⟩ | h
                · simp [hp, h2, hc, hm, hd, hg] at h
                · simp only [hp, h2, hc, hm, hd, hg, ne_eq, not_true_eq_false, if_false, if_true,
                    Bool.false_eq_true, Except.ok.injEq, Step.next.injEq] at h
                  rw [← h.1]

/-- The loop of `Search` keeps the `data` pointer of every node. -/
theorem SearchLoop_data (cmp : T → T → Bool) (data : T) :
    ∀ (fuel : Nat) (st : LockFreeLinkedList T) (prev cur : Nat)
      (r : LockFreeLinkedList T × Nat × Nat × Bool),
      SearchLoop cmp data fuel st prev cur = .ok r →
      ∀ a, (load r.1.mem a).map Node.data = (load st.mem a).map Node.data
  | 0, _, _, _, _, h => by simp [SearchLoop] at h
  | fuel + 1, st, prev, cur, r, h => by
    unfold SearchLoop at h
    rcases hs : SearchStep cmp data st prev cur with e | s
    · simp [hs] at h
    · cases s with
      | ret st1 prev1 cur1 found =>
        simp only [hs, Except.ok.injEq] at h
        intro a
        rw [← h]
        exact SearchStep_data (Or.inl ⟨found, hs⟩) a
      | next st1 prev1 cur1 =>
        simp only [hs] at h
        intro a
        rw [SearchLoop_data cmp data fuel st1 prev1 cur1 r h a]
        exact SearchStep_data (Or.inr hs) a
      | try_again =>
        simp only [hs] at h
        rcases hh : load st.mem st.head_ with _ | hn
        · simp [hh] at h
        · simp only [hh] at h
          exact SearchLoop_data cmp data fuel st st.head_ hn.next r h

/-- `Search` keeps the `data` pointer of every node. -/
theorem Search_data {cmp : T → T → Bool} {data : T} {fuel : Nat} {st : LockFreeLinkedList T}
    {r : LockFreeLinkedList T × Nat × Nat × Bool} (h : Search cmp fuel st data = .ok r) (a : Nat) :
    (load r.1.mem a).map Node.data = (load st.mem a).map Node.data := by
  unfold Search at h
  rcases hh : load st.mem st.head_ with _ | hn
  · simp [hh] at h
  · simp only [hh] at h
    exact SearchLoop_data cmp data fuel st st.head_ hn.next r h a

/-- A weak exchange that fails leaves the memory as it was. -/
theorem compare_exchange_weak_false {st st3 : LockFreeLinkedList T} {p e d e1 : Nat}
    (h : compare_exchange_weak st p e d = some (st3, false, e1)) : st3.mem = st.mem := by
  unfold compare_exchange_weak at h
  rcases hp : load st.mem p with _ | n
  · simp [hp] at h
  · simp only [hp] at h
    split at h
    · rcases hsp : st.spurious with _ | ⟨_ | _, rest⟩ <;> simp [hsp] at h
      rw [← h.1]
    · simp only [Option.some.injEq, Prod.mk.injEq] at h
      rw [← h.1]

/-- For a node that holds an element the loop of `Emplace` never binds a null
reference: `EmplaceLoopRef` is `EmplaceLoop`. -/
theorem EmplaceLoopRef_some (cmp : T → T → Bool) (v : T) :
    ∀ (fuel : Nat) (st : LockFreeLinkedList T) (nn w : Nat),
      load st.mem nn = some ⟨some v, w⟩ →
      EmplaceLoopRef cmp fuel st nn = EmplaceLoop cmp fuel st nn
  | 0, _, _, _, _ => rfl
  | fuel + 1, st, nn, w, hnn => by
    unfold EmplaceLoopRef EmplaceLoop
    simp only [hnn, SearchRef_some]
    rcases hs : Search cmp fuel st v with e | ⟨st1, prev, cur, found⟩
    · rfl
    · simp only
      cases found
      · simp only [Bool.false_eq_true, if_false]
        have hd := Search_data hs nn
        rw [hnn] at hd
        rcases hn1 : load st1.mem nn with _ | nn1
        · rfl
        · simp only
          rw [hn1] at hd
          simp only [Option.map_some', Option.some.injEq] at hd
          rcases hc : compare_exchange_weak
              { st1 with mem := store st1.mem nn { nn1 with next := cur } } prev cur nn
            with _ | ⟨st3, b, e⟩
          · rfl
          · cases b
            · simp only
              have hm := compare_exchange_weak_false hc
              refine EmplaceLoopRef_some cmp v fuel st3 nn cur ?_
              rw [hm]
              show load (store st1.mem nn _) nn = _
              rw [load_store_same hn1]
              congr 1
              cases nn1
              simp only at hd
              simp [hd]
            · rfl
      · rfl

/-- For a pack that is not empty `EmplacePack` is `Emplace`. -/
theorem EmplacePack_some (cmp : T → T → Bool) (fuel : Nat) (st : LockFreeLinkedList T)
    (v : T) : EmplacePack cmp fuel st (some v) = Emplace cmp fuel st v := by
  unfold EmplacePack Emplace
  rcases ha : alloc st.mem { data := some v, next := 0 } with _ | ⟨mem1, nn⟩
  · rfl
  · exact EmplaceLoopRef_some cmp v fuel { st with mem := mem1 } nn 0 (load_alloc_same ha).1

/-! ## Null references and nodes without an element -/

theorem SearchStepRef_nil {cmp : T → T → Bool} {data : Option T} {st : LockFreeLinkedList T}
    {prev : Nat} {pd : Option T} (hprev : load st.mem prev = some ⟨pd, 0⟩) :
    SearchStepRef cmp data st prev 0 = .ok (.ret st prev 0 false) := by
  simp [SearchStepRef, hprev]

theorem SearchStepRef_marked {cmp : T → T → Bool} {data : Option T} {st : LockFreeLinkedList T}
    {prev cur nx : Nat} {pd cd : Option T} (hprev : load st.mem prev = some ⟨pd, cur⟩)
    (hcur : load st.mem cur = some ⟨cd, nx⟩) (hm : is_marked_reference nx = true) :
    SearchStepRef cmp data st prev cur =
      .ok (.next { st with mem := store st.mem prev ⟨pd, get_unmarked_reference nx⟩,
                           retired := cur :: st.retired,
                           size_ := fetch_sub st.size_ } prev (get_unmarked_reference nx)) := by
  have hc : cur ≠ 0 := by have := load_valid hcur; omega
  simp [SearchStepRef, hprev, hcur, hm, hc, compare_exchange_strong, ReclaimLater,
    ReclaimNoHazardPointer]

/-- At an unmarked node the comparator reads the element of the node and the
referent of `data`: a null dereference when either pointer is null. -/
theorem SearchStepRef_null {cmp : T → T → Bool} {data : Option T} {st : LockFreeLinkedList T}
    {prev cur nx : Nat} {pd cd : Option T} (hprev : load st.mem prev = some ⟨pd, cur⟩)
    (hcur : load st.mem cur = some ⟨cd, nx⟩) (hm : is_marked_reference nx = false)
    (hnull : cd = none ∨ data = none) :
    SearchStepRef cmp data st prev cur = .error .nullDeref := by
  have hc : cur ≠ 0 := by have := load_valid hcur; omega
  rcases hnull with rfl | rfl
  · simp [SearchStepRef, hprev, hcur, hm, hc]
  · cases cd <;> simp [SearchStepRef, hprev, hcur, hm, hc]

/-- The loop of `Search` for a null reference, entered at a node `prev` whose
`next` word is `cur` with the chain `rest` behind it: when it returns, every
node of the chain was marked and has been unlinked and retired, and `cur` is
`nullptr`. -/
theorem SearchLoopRef_none_ok (cmp : T → T → Bool) :
    ∀ (rest : List (Cell T)) (fuel : Nat) (st : LockFreeLinkedList T) (prev cur : Nat)
      (pd : Option T) (r : LockFreeLinkedList T × Nat × Nat × Bool),
      load st.mem prev = some ⟨pd, cur⟩ → IsChain st.mem cur rest → prev ∉ addrs rest →
      SearchLoopRef cmp none fuel st prev cur = .ok r →
      (∀ c ∈ rest, c.marked = true) ∧
      ∃ st1, r = (st1, prev, 0, false) ∧ load st1.mem prev = some ⟨pd, 0⟩ ∧
        st1.head_ = st.head_ ∧ st1.spurious = st.spurious ∧
        st1.mem.length = st.mem.length ∧
        st1.retired = (addrs rest).reverse ++ st.retired ∧
        st1.size_ = fetch_sub^[rest.length] st.size_ ∧
        ∀ a, a ≠ prev → load st1.mem a = load st.mem a
  | _, 0, _, _, _, _, _, _, _, _, h => by simp [SearchLoopRef] at h
  | [], fuel + 1, st, prev, cur, pd, r, hprev, hch, _, h => by
    simp only [IsChain] at hch
    subst hch
    simp only [SearchLoopRef, SearchStepRef_nil hprev, Except.ok.injEq] at h
    refine ⟨fun c hc => (by cases hc), st, h.symm, hprev, rfl, rfl, rfl, by simp [addrs], rfl,
      fun _ _ => rfl⟩
  | c :: rest, fuel + 1, st, prev, cur, pd, r, hprev, hch, hnot, h => by
    obtain ⟨nx, hcur, hw, hm, hrest, hp⟩ := hch.tail
    subst hp
    simp only [addrs, List.map_cons, List.mem_cons, not_or] at hnot
    by_cases hmk : c.marked = true
    · rw [hmk] at hm
      simp only [SearchLoopRef, SearchStepRef_marked hprev hcur hm] at h
      have hprev2 : load (store st.mem prev ⟨pd, get_unmarked_reference nx⟩) prev =
          some ⟨pd, get_unmarked_reference nx⟩ := load_store_same hprev
      have hch2 : IsChain (store st.mem prev ⟨pd, get_unmarked_reference nx⟩)
          (get_unmarked_reference nx) rest := by
        refine IsChain.congr_mem (fun a ha => ?_) hrest
        exact load_store_ne hprev (fun h => hnot.2 (h ▸ ha))
      obtain ⟨hall, st1, hr, g1, g2, g3, g4, g5, g6, g7⟩ :=
        SearchLoopRef_none_ok cmp rest fuel _ prev (get_unmarked_reference nx) pd r hprev2 hch2
          hnot.2 h
      refine ⟨?_, st1, hr, g1, g2, g3, ?_, ?_, ?_, fun a ha => ?_⟩
      · intro d hd
        rcases List.mem_cons.mp hd with rfl | hd
        · exact hmk
        · exact hall d hd
      · rw [g4]; simp [store]
      · rw [g5]; simp [addrs]
      · rw [g6, List.length_cons, Function.iterate_succ_apply]
      · rw [g7 a ha]
        exact load_store_ne hprev ha
    · have hmk : c.marked = false := by simpa using hmk
      rw [hmk] at hm
      simp [SearchLoopRef, SearchStepRef_null hprev hcur hm (Or.inr rfl)] at h

/-- `Search` for a null reference on a linked chain: when it returns, every
node of the chain was marked, and the chain left is empty. -/
theorem SearchRef_none_ok (cmp : T → T → Bool) {fuel : Nat} {st : LockFreeLinkedList T}
    {l : List (Cell T)} (hl : Linked st l) {r : LockFreeLinkedList T × Nat × Nat × Bool}
    (h : SearchRef cmp fuel st none = .ok r) :
    (∀ c ∈ l, c.marked = true) ∧
    ∃ st1, r = (st1, st.head_, 0, false) ∧ Linked st1 [] ∧
      st1.head_ = st.head_ ∧ st1.spurious = st.spurious ∧
      st1.mem.length = st.mem.length ∧
      st1.retired = (addrs l).reverse ++ st.retired ∧
      st1.size_ = fetch_sub^[l.length] st.size_ ∧
      ∀ a, a ≠ st.head_ → load st1.mem a = load st.mem a := by
  have hnot := hl.sentinel_not_mem
  obtain ⟨hn, hld, hch⟩ := hl
  simp only [SearchRef, hld] at h
  obtain ⟨hall, st1, hr, g1, g2, g3, g4, g5, g6, g7⟩ :=
    SearchLoopRef_none_ok cmp l fuel st st.head_ hn none r hld hch hnot h
  refine ⟨hall, st1, hr, ⟨0, ?_, by simp [IsChain]⟩, g2, g3, g4, g5, g6, g7⟩
  rw [g2]; exact g1

/-- On the empty chain `Search` returns at line 308 without reading `data`. -/
theorem SearchRef_nil (cmp : T → T → Bool) (data : Option T) (fuel : Nat)
    {st : LockFreeLinkedList T} (hl : Linked st []) :
    SearchRef cmp (fuel + 1) st data = .ok (st, st.head_, 0, false) := by
  obtain ⟨hn, hld, hch⟩ := hl
  simp only [IsChain] at hch
  subst hch
  simp [SearchRef, hld, SearchLoopRef, SearchStepRef_nil hld]

/-- When the first node is not marked, `Search` for a null reference does not
return. -/
theorem SearchRef_none_live (cmp : T → T → Bool) (fuel : Nat) {st : LockFreeLinkedList T}
    {c : Cell T} {S : List (Cell T)} (hl : Linked st (c :: S)) (hc : c.marked = false)
    (r : LockFreeLinkedList T × Nat × Nat × Bool) : SearchRef cmp fuel st none ≠ .ok r := by
  intro h
  have := (SearchRef_none_ok cmp hl h).1 c (List.mem_cons_self _ _)
  rw [hc] at this
  cases this

/-- Past a linked node without an element no `Search` returns: its comparator
reads the element of that node. -/
theorem SearchRef_linkedNull (cmp : T → T → Bool) (data : Option T) (fuel : Nat)
    {st : LockFreeLinkedList T} {d : Nat} (hl : LinkedNull st d)
    (r : LockFreeLinkedList T × Nat × Nat × Bool) : SearchRef cmp fuel st data ≠ .ok r := by
  obtain ⟨hhd, hd⟩ := hl
  cases fuel with
  | zero => simp [SearchRef, hhd, SearchLoopRef]
  | succ fuel =>
    simp [SearchRef, hhd, SearchLoopRef, SearchStepRef_null hhd hd (by decide) (Or.inl rfl)]

theorem Search_linkedNull (cmp : T → T → Bool) (data : T) (fuel : Nat)
    {st : LockFreeLinkedList T} {d : Nat} (hl : LinkedNull st d)
    (r : LockFreeLinkedList T × Nat × Nat × Bool) : Search cmp fuel st data ≠ .ok r := by
  rw [← SearchRef_some]
  exact SearchRef_linkedNull cmp (some data) fuel hl r

/-- The loop of `Emplace` for a node without an element on the empty chain:
when it returns, it has linked the node behind the head and returns `true`. -/
theorem EmplaceLoopRef_null_nil (cmp : T → T → Bool) :
    ∀ (fuel : Nat) (st : LockFreeLinkedList T) (nn w : Nat),
      Linked st [] → load st.mem nn = some ⟨none, w⟩ → nn ≠ st.head_ →
      ∀ st1 b, EmplaceLoopRef cmp fuel st nn = .ok (st1, b) →
        b = true ∧ LinkedNull st1 nn ∧ st1.head_ = st.head_ ∧ st1.retired = st.retired ∧
          st1.size_ = fetch_add st.size_ ∧ st1.mem.length = st.mem.length
  | 0, _, _, _, _, _, _, _, _, h => by simp [EmplaceLoopRef] at h
  | 1, st, nn, w, hl, hnn, _, _, _, h => by
    obtain ⟨hn, hld, _⟩ := hl
    simp [EmplaceLoopRef, hnn, SearchRef, hld, SearchLoopRef] at h
  | fuel + 2, st, nn, w, hl, hnn, hhead, st1, b, h => by
    have hs := SearchRef_nil cmp none fuel hl
    obtain ⟨hn, hld, hch⟩ := hl
    simp only [IsChain] at hch
    subst hch
    have hld2 : load (store st.mem nn ⟨none, 0⟩) st.head_ = some ⟨none, 0⟩ := by
      rw [load_store_ne hnn hhead.symm]; exact hld
    have hnn2 : load (store st.mem nn ⟨none, 0⟩) nn = some ⟨none, 0⟩ := load_store_same hnn
    have hcas := compare_exchange_weak_eq
      ({ st with mem := store st.mem nn ⟨none, 0⟩ } : LockFreeLinkedList T) nn hld2
    simp only [EmplaceLoopRef, hnn, hs, Bool.false_eq_true, if_false] at h
    by_cases hsp : st.spurious.head? = some true
    · rw [if_pos hsp] at hcas
      simp only [hcas] at h
      obtain ⟨g1, g2, g3, g4, g5, g6⟩ := EmplaceLoopRef_null_nil cmp (fuel + 1)
        { st with mem := store st.mem nn ⟨none, 0⟩, spurious := st.spurious.tail } nn 0
        ⟨0, hld2, by simp [IsChain]⟩ hnn2 hhead st1 b h
      refine ⟨g1, g2, g3, g4, g5, ?_⟩
      rw [g6]; simp [store]
    · rw [if_neg hsp] at hcas
      simp only [hcas, Except.ok.injEq, Prod.mk.injEq] at h
      obtain ⟨h1, h2⟩ := h
      subst h1
      refine ⟨h2.symm, ⟨?_, ?_⟩, rfl, rfl, rfl, by simp [store]⟩
      · exact load_store_same hld2
      · show load (store (store st.mem nn ⟨none, 0⟩) st.head_ ⟨none, nn⟩) nn = _
        rw [load_store_ne hld2 hhead]; exact hnn2

/-- The loop of `Emplace` for a node without an element on a linked chain:
when it returns, every node of the chain was marked and has been unlinked, and
the new node is the only node linked. -/
theorem EmplaceLoopRef_null (cmp : T → T → Bool) (fuel : Nat) (st : LockFreeLinkedList T)
    (l : List (Cell T)) (nn w : Nat) (hl : Linked st l)
    (hnn : load st.mem nn = some ⟨none, w⟩) (hhead : nn ≠ st.head_)
    (st1 : LockFreeLinkedList T) (b : Bool) (h : EmplaceLoopRef cmp fuel st nn = .ok (st1, b)) :
    b = true ∧ (∀ c ∈ l, c.marked = true) ∧ LinkedNull st1 nn ∧ st1.head_ = st.head_ ∧
      st1.retired = (addrs l).reverse ++ st.retired ∧
      st1.size_ = fetch_add (fetch_sub^[l.length] st.size_) ∧
      st1.mem.length = st.mem.length := by
  cases fuel with
  | zero => simp [EmplaceLoopRef] at h
  | succ fuel =>
    rcases hs : SearchRef cmp fuel st none with e | r
    · simp [EmplaceLoopRef, hnn, hs] at h
    · obtain ⟨hall, st2, hr, hl2, g2, g3, g4, g5, g6, g7⟩ := SearchRef_none_ok cmp hl hs
      subst hr
      cases fuel with
      | zero =>
        obtain ⟨hn, hld, _⟩ := hl
        simp [SearchRef, hld, SearchLoopRef] at hs
      | succ fuel =>
        have hnn2 : load st2.mem nn = some ⟨none, w⟩ := by rw [g7 nn hhead]; exact hnn
        have hs2 := SearchRef_nil cmp none fuel hl2
        have heq : EmplaceLoopRef cmp (fuel + 2) st nn = EmplaceLoopRef cmp (fuel + 2) st2 nn := by
          simp only [EmplaceLoopRef, hnn, hnn2, hs, hs2, g2]
        rw [heq] at h
        obtain ⟨k1, k2, k3, k4, k5, k6⟩ := EmplaceLoopRef_null_nil cmp (fuel + 2) st2 nn w hl2 hnn2
          (by rw [g2]; exact hhead) st1 b h
        exact ⟨k1, hall, k2, k3.trans g2, by rw [k4, g5], by rw [k5, g6], by rw [k6, g4]⟩

/-- `Emplace()` with the empty argument pack on a linked chain: when it
returns, it returns `true`, every node of the chain was marked and has been
unlinked and retired, and the chain left is the one new node, which holds no
element. -/
theorem EmplacePack_none_spec (cmp : T → T → Bool) {fuel : Nat} {st : LockFreeLinkedList T}
    {l : List (Cell T)} (hl : Linked st l) {st1 : LockFreeLinkedList T} {b : Bool}
    (h : EmplacePack cmp fuel st none = .ok (st1, b)) :
    b = true ∧ (∀ c ∈ l, c.marked = true) ∧ LinkedNull st1 (2 * (st.mem.length + 1)) ∧
      st1.head_ = st.head_ ∧ st1.retired = (addrs l).reverse ++ st.retired ∧
      st1.size_ = fetch_add (fetch_sub^[l.length] st.size_) ∧
      st1.mem.length = st.mem.length + 1 := by
  unfold EmplacePack at h
  rcases halloc : alloc st.mem ⟨none, 0⟩ with _ | ⟨mem1, nn⟩
  · simp [halloc] at h
  · simp only [halloc] at h
    have hnn : nn = 2 * (st.mem.length + 1) := by
      unfold alloc at halloc
      split at halloc
      · simp only [Option.some.injEq, Prod.mk.injEq] at halloc
        exact halloc.2.symm
      · cases halloc
    obtain ⟨hnew, hfresh, hlen⟩ := load_alloc_same halloc
    have hne : ∀ a, (∃ n, load st.mem a = some n) → a ≠ nn := by
      rintro a ⟨n, hn⟩ rfl
      rw [hfresh] at hn; cases hn
    have hhead : nn ≠ st.head_ := by
      obtain ⟨hn, hld, _⟩ := hl
      exact fun h => hne _ ⟨_, hld⟩ h.symm
    have hnot : nn ∉ addrs l := by
      obtain ⟨hn, _, hch⟩ := hl
      intro h
      obtain ⟨x, nx, hx⟩ := hch.mem_data h
      exact hne _ ⟨_, hx⟩ rfl
    have hl1 : Linked { st with mem := mem1 } l := by
      refine Linked.congr_state st rfl (fun a ha => load_alloc_ne halloc ?_) hl
      rintro rfl
      rcases List.mem_cons.mp ha with h | h
      · exact hhead h
      · exact hnot h
    obtain ⟨k1, k2, k3, k4, k5, k6, k7⟩ :=
      EmplaceLoopRef_null cmp fuel { st with mem := mem1 } l nn 0 hl1 hnew hhead st1 b h
    rw [← hnn]
    exact ⟨k1, k2, k3, k4, k5, k6, by rw [k7]; exact hlen⟩

/-- On the empty chain `Delete` returns `false` at line 265 and changes nothing,
whatever its reference is bound to. -/
theorem DeleteRef_nil (cmp : T → T → Bool) (data : Option T) (fuel : Nat)
    {st : LockFreeLinkedList T} (hl : Linked st []) :
    DeleteRef cmp (fuel + 2) st data = .ok (st, false) := by
  simp [DeleteRef, DeleteLoopRef, SearchRef_nil cmp data fuel hl]

/-- A new node does not change what is linked. -/
theorem LinkedNull.after_alloc {st : LockFreeLinkedList T} {d : Nat} (hl : LinkedNull st d)
    {n : Node T} {mem1 : List (Option (Node T))} {nn : Nat}
    (halloc : alloc st.mem n = some (mem1, nn)) : LinkedNull { st with mem := mem1 } d := by
  obtain ⟨hhd, hd⟩ := hl
  obtain ⟨_, hfresh, _⟩ := load_alloc_same halloc
  refine ⟨?_, ?_⟩
  · show load mem1 st.head_ = _
    rw [load_alloc_ne halloc (by rintro rfl; rw [hfresh] at hhd; cases hhd)]; exact hhd
  · show load mem1 d = _
    rw [load_alloc_ne halloc (by rintro rfl; rw [hfresh] at hd; cases hd)]; exact hd

/-- Once a node without an element is linked behind the head, no call returns. -/
theorem call_linkedNull (cmp : T → T → Bool) (fuel : Nat) {st : LockFreeLinkedList T} {d : Nat}
    (hl : LinkedNull st d) (op : Op T) (r : LockFreeLinkedList T × Bool) :
    call cmp fuel st op ≠ .ok r := by
  have hE : ∀ v, Emplace cmp fuel st v ≠ .ok r := by
    intro v h
    unfold Emplace at h
    rcases halloc : alloc st.mem ⟨some v, 0⟩ with _ | ⟨mem1, nn⟩
    · simp [halloc] at h
    · simp only [halloc] at h
      have hnew := (load_alloc_same halloc).1
      cases fuel with
      | zero => simp [EmplaceLoop] at h
      | succ fuel =>
        rcases hs : Search cmp fuel { st with mem := mem1 } v with e | r1
        · simp [EmplaceLoop, hnew, hs] at h
        · exact Search_linkedNull cmp v fuel (hl.after_alloc halloc) r1 hs
  cases op with
  | Insert v => exact hE v
  | Emplace v => exact hE v
  | EmplaceNoArgs =>
    intro h
    have h : EmplacePack cmp fuel st none = .ok r := h
    unfold EmplacePack at h
    rcases halloc : alloc st.mem ⟨none, 0⟩ with _ | ⟨mem1, nn⟩
    · simp [halloc] at h
    · simp only [halloc] at h
      have hnew := (load_alloc_same halloc).1
      cases fuel with
      | zero => simp [EmplaceLoopRef] at h
      | succ fuel =>
        rcases hs : SearchRef cmp fuel { st with mem := mem1 } none with e | r1
        · simp [EmplaceLoopRef, hnew, hs] at h
        · exact SearchRef_linkedNull cmp none fuel (hl.after_alloc halloc) r1 hs
  | Delete v =>
    intro h
    have h : Delete cmp fuel st v = .ok r := h
    cases fuel with
    | zero => simp [Delete, DeleteLoop] at h
    | succ fuel =>
      rcases hs : Search cmp fuel st v with e | r1
      · simp [Delete, DeleteLoop, hs] at h
      · exact Search_linkedNull cmp v fuel hl r1 hs
  | Find v =>
    intro h
    have h : Find cmp fuel st v = .ok r := h
    rcases hs : Search cmp fuel st v with e | r1
    · simp [Find, hs] at h
    · exact Search_linkedNull cmp v fuel hl r1 hs

/-- On a newly constructed list `Emplace()` with the empty argument pack
returns `true` and links a node without an element; `size()` is 1, and the
`Search` of the next call dereferences the null `data` of that node. -/
theorem EmplaceNoArgs_on_empty :
    ∃ st1, call natLess 2 (init Nat []) Op.EmplaceNoArgs = .ok (st1, true) ∧
      LinkedNull st1 4 ∧ size st1 = 1 ∧
      call natLess 3 st1 (Op.Find 1) = .error .nullDeref ∧
      call natLess 3 st1 (Op.Insert 1) = .error .nullDeref :=
  ⟨_, rfl, ⟨rfl, rfl⟩, rfl, rfl, rfl⟩

/-- On the list 3, 5, 7 `Emplace()` with the empty argument pack does not
return: at the first node the comparator reads through the null reference. -/
theorem EmplaceNoArgs_on_sample :
    call natLess 7 sample Op.EmplaceNoArgs = .error .nullDeref :=
  rfl

/-! ## Calls one after another, `Emplace()` among them -/

theorem carriesElement_false {op : Op T} (h : op.carriesElement = false) :
    op = Op.EmplaceNoArgs := by
  cases op <;> first | rfl | cases h

theorem LinkedNull.ne_head {st : LockFreeLinkedList T} {d : Nat} (h : LinkedNull st d) :
    d ≠ st.head_ := by
  obtain ⟨hhd, hd⟩ := h
  rintro rfl
  rw [hhd] at hd
  simp only [Option.some.injEq, Node.mk.injEq, true_and] at hd
  have := load_valid hhd
  omega

/-- The head of a chain that is one node without an element is a node without
an element whose `next` word is not marked. -/
theorem LinkedNull.head_sentinel {st : LockFreeLinkedList T} {d : Nat} (h : LinkedNull st d) :
    ∃ hn, load st.mem st.head_ = some ⟨none, hn⟩ ∧ is_marked_reference hn = false :=
  ⟨d, h.1, ptr_unmarked h.2⟩

/-- What calls one after another, `Emplace()` with the empty argument pack
among them, have done when all of them have returned: the chain is sorted, or
it is the one node without an element that a last `Emplace()` has linked into
the empty list. -/
theorem run_any_spec {cmp : T → T → Bool} (ho : StrictWeakOrder cmp) (fuel : Nat) :
    ∀ (ops : List (Op T)) (st : LockFreeLinkedList T) (l : List (Cell T)),
      Linked st l → Sorted cmp l → 2 * (st.mem.length + ops.length) < WORD →
      l.length + ops.length + st.spurious.length + 1 ≤ fuel → st.head_ ∉ st.retired →
      ∀ st1 bs, run cmp fuel st ops = .ok (st1, bs) →
        st1.head_ = st.head_ ∧ st1.head_ ∉ st1.retired ∧
        ((∃ l1, Linked st1 l1 ∧ Sorted cmp l1 ∧
            (AllLive l → AllLive l1 ∧
              l1.length + countTrue Op.isDelete ops bs =
                l.length + countTrue Op.isInsert ops bs + countTrue Op.isEmplace ops bs ∧
              (st.size_ = l.length → st1.size_ = l1.length))) ∨
          (∃ d, LinkedNull st1 d ∧
            (AllLive l →
              1 + countTrue Op.isDelete ops bs =
                l.length + countTrue Op.isInsert ops bs + countTrue Op.isEmplace ops bs ∧
              (st.size_ = l.length → st1.size_ = 1))))
  | [], st, l, hl, hs, _, _, hr, st1, bs, h => by
    simp only [run, Except.ok.injEq, Prod.mk.injEq] at h
    obtain ⟨rfl, rfl⟩ := h
    exact ⟨rfl, hr, Or.inl ⟨l, hl, hs, fun hlive => ⟨hlive, by simp [countTrue], fun h => h⟩⟩⟩
  | op :: ops, st, l, hl, hs, hroom, hfuel, hr, st1, bs, h => by
    simp only [List.length_cons] at hroom hfuel
    cases hce : op.carriesElement with
    | true =>
      obtain ⟨st2, b, l2, h1, h2, h3, h4, h5, h6, h7, h8⟩ :=
        call_spec ho op hce hl hs (fun _ => by omega)
          (by omega : l.length + st.spurious.length + 2 ≤ fuel)
      have hret := call_retired op hce hl (fun _ => by omega)
        (by omega : l.length + st.spurious.length + 2 ≤ fuel) h1
      have hr2 : st2.head_ ∉ st2.retired := by
        rw [h4]
        intro h
        rcases hret _ h with h9 | h9
        · exact hr h9
        · exact hl.sentinel_not_mem h9
      simp only [run, h1] at h
      rcases hrun : run cmp fuel st2 ops with e | ⟨st3, bs3⟩
      · simp [hrun] at h
      · simp only [hrun, Except.ok.injEq, Prod.mk.injEq] at h
        obtain ⟨rfl, rfl⟩ := h
        obtain ⟨g1, g2, g3⟩ :=
          run_any_spec ho fuel ops st2 l2 h2 h3 (by omega) (by omega) hr2 st3 bs3 hrun
        refine ⟨g1.trans h4, g2, ?_⟩
        rcases g3 with ⟨l3, k1, k2, k3⟩ | ⟨d, k1, k3⟩
        · refine Or.inl ⟨l3, k1, k2, fun hlive => ?_⟩
          obtain ⟨m1, m2, m3⟩ := h8 hlive
          obtain ⟨n1, n2, n3⟩ := k3 m1
          refine ⟨n1, ?_, fun hsz => n3 (m3 hsz)⟩
          simp only [countTrue]
          omega
        · refine Or.inr ⟨d, k1, fun hlive => ?_⟩
          obtain ⟨m1, m2, m3⟩ := h8 hlive
          obtain ⟨n2, n3⟩ := k3 m1
          refine ⟨?_, fun hsz => n3 (m3 hsz)⟩
          simp only [countTrue]
          omega
    | false =>
      have hop := carriesElement_false hce
      subst hop
      rcases hcall : call cmp fuel st Op.EmplaceNoArgs with e | ⟨st2, b⟩
      · simp [run, hcall] at h
      · obtain ⟨k1, k2, k3, k4, k5, k6, _⟩ := EmplacePack_none_spec cmp hl hcall
        subst k1
        cases ops with
        | cons op2 ops2 =>
          rcases hc2 : call cmp fuel st2 op2 with e | r
          · simp [run, hcall, hc2] at h
          · exact absurd hc2 (call_linkedNull cmp fuel k3 op2 r)
        | nil =>
          simp only [run, hcall, Except.ok.injEq, Prod.mk.injEq] at h
          obtain ⟨rfl, rfl⟩ := h
          refine ⟨k4, ?_, Or.inr ⟨_, k3, fun hlive => ?_⟩⟩
          · rw [k4, k5]
            intro h
            rcases List.mem_append.mp h with h9 | h9
            · exact hl.sentinel_not_mem (List.mem_reverse.mp h9)
            · exact hr h9
          · have hnil : l = [] := by
              cases l with
              | nil => rfl
              | cons c S =>
                have h1 := k2 c (List.mem_cons_self _ _)
                have h2 := hlive c (List.mem_cons_self _ _)
                rw [h2] at h1
                cases h1
            subst hnil
            refine ⟨by simp [countTrue, Op.isDelete, Op.isInsert, Op.isEmplace], fun hsz => ?_⟩
            rw [k6]
            simp only [List.length_nil, Function.iterate_zero, id] at hsz ⊢
            rw [hsz]
            rfl

/-! ## What every sequence of calls keeps -/

/-- C4. For every strict total order `cmp`, on a state whose chain is strictly
increasing (marked nodes allowed, room for one more node, enough fuel): any one
call of `Insert`, `Emplace` with arguments, `Delete` or `Find` returns and
leaves a chain that is again strictly increasing, so that no two linked nodes
compare equal; `Emplace()` with the empty argument pack, the one call whose
node holds no element, either does not return or leaves that node as the only
linked node, so that again no two linked nodes compare equal. Hence every state
reached from a newly constructed list by a finite sequence of these calls has a
strictly increasing, duplicate-free chain or, after a last `Emplace()`, a chain
of one node; and a sequence of calls that all carry an element reaches such a
state, every call returning. Room is asked for only where a node is allocated. -/
theorem sorted_invariant {cmp : T → T → Bool} (hord : StrictTotalOrder cmp) (fuel : Nat) :
    (∀ (st : LockFreeLinkedList T) (l : List (Cell T)) (op : Op T),
      Linked st l → Sorted cmp l →
      ((op.isInsert || op.isEmplace) = true → 2 * (st.mem.length + 1) < WORD) →
      l.length + st.spurious.length + 2 ≤ fuel →
      (op.carriesElement = true →
        ∃ st1 b l1, call cmp fuel st op = .ok (st1, b) ∧ Linked st1 l1 ∧ Sorted cmp l1 ∧
          NoDuplicates cmp l1) ∧
      (∀ st1 b, call cmp fuel st op = .ok (st1, b) →
        (∃ l1, Linked st1 l1 ∧ Sorted cmp l1 ∧ NoDuplicates cmp l1) ∨
          ∃ d, LinkedNull st1 d)) ∧
    (∀ (sp : List Bool) (ops : List (Op T)),
      2 * (1 + ops.length) < WORD → ops.length + sp.length + 1 ≤ fuel →
      ((∀ op ∈ ops, op.carriesElement = true) →
        ∃ st1 bs l1, run cmp fuel (init T sp) ops = .ok (st1, bs) ∧ Linked st1 l1 ∧
          Sorted cmp l1 ∧ NoDuplicates cmp l1) ∧
      (∀ st1 bs, run cmp fuel (init T sp) ops = .ok (st1, bs) →
        (∃ l1, Linked st1 l1 ∧ Sorted cmp l1 ∧ NoDuplicates cmp l1) ∨
          ∃ d, LinkedNull st1 d)) := by
  constructor
  · intro st l op hl hs hroom hfuel
    have key : op.carriesElement = true →
        ∃ st1 b l1, call cmp fuel st op = .ok (st1, b) ∧ Linked st1 l1 ∧ Sorted cmp l1 ∧
          NoDuplicates cmp l1 := by
      intro hce
      obtain ⟨st1, b, l1, h1, h2, h3, _⟩ := call_spec hord.weak op hce hl hs hroom hfuel
      exact ⟨st1, b, l1, h1, h2, h3, h3.noDuplicates⟩
    refine ⟨key, fun st1 b hcall => ?_⟩
    cases hce : op.carriesElement with
    | true =>
      obtain ⟨st2, b2, l1, h1, h2, h3, h4⟩ := key hce
      rw [hcall] at h1
      simp only [Except.ok.injEq, Prod.mk.injEq] at h1
      rw [h1.1]
      exact Or.inl ⟨l1, h2, h3, h4⟩
    | false =>
      have hop := carriesElement_false hce
      subst hop
      exact Or.inr ⟨_, (EmplacePack_none_spec cmp hl hcall).2.2.1⟩
  · intro sp ops hroom hfuel
    constructor
    · intro hel
      obtain ⟨st1, bs, l1, h1, h2, h3, _⟩ := run_spec hord.weak fuel ops (init T sp) [] hel
        (init_linked T sp) List.Pairwise.nil (by simpa [init] using hroom)
        (by simpa [init] using hfuel)
      exact ⟨st1, bs, l1, h1, h2, h3, h3.noDuplicates⟩
    · intro st1 bs hrun
      obtain ⟨_, _, h3⟩ := run_any_spec hord.weak fuel ops (init T sp) []
        (init_linked T sp) List.Pairwise.nil (by simpa [init] using hroom)
        (by simpa [init] using hfuel) (by simp [init]) st1 bs hrun
      rcases h3 with ⟨l1, k1, k2, _⟩ | ⟨d, k1, _⟩
      · exact Or.inl ⟨l1, k1, k2, k2.noDuplicates⟩
      · exact Or.inr ⟨d, k1⟩

theorem sorted_invariant_witness :
    (∃ st1 b l1, call natLess 7 sampleMarked (Op.Insert 6) = .ok (st1, b) ∧ Linked st1 l1 ∧
      Sorted natLess l1 ∧ NoDuplicates natLess l1) ∧
    (∃ st1 bs l1, run natLess 7 (init Nat [true])
        [Op.Insert 5, Op.Emplace 3, Op.Insert 5, Op.Delete 3, Op.Find 5] = .ok (st1, bs) ∧
      Linked st1 l1 ∧ Sorted natLess l1 ∧ NoDuplicates natLess l1) ∧
    (∃ st1 bs, run natLess 7 (init Nat [true])
        [Op.Insert 5, Op.Delete 5, Op.EmplaceNoArgs] = .ok (st1, bs) ∧
      ((∃ l1, Linked st1 l1 ∧ Sorted natLess l1 ∧ NoDuplicates natLess l1) ∨
        ∃ d, LinkedNull st1 d)) :=
  ⟨((sorted_invariant natLess_total 7).1 sampleMarked sampleMarkedCells (Op.Insert 6)
      sampleMarked_linked sampleMarked_sorted (fun _ => by decide) (by decide)).1 rfl,
    ((sorted_invariant natLess_total 7).2 [true]
      [Op.Insert 5, Op.Emplace 3, Op.Insert 5, Op.Delete 3, Op.Find 5] (by decide)
      (by decide)).1 (by decide),
    _, _, rfl,
    ((sorted_invariant natLess_total 7).2 [true]
      [Op.Insert 5, Op.Delete 5, Op.EmplaceNoArgs] (by decide) (by decide)).2 _ _ rfl⟩

/-- C5, as amended. For every strict total order `cmp` and every finite
sequence of `Insert`, `Emplace`, `Delete` and `Find` calls executed one after
another on a newly constructed list (room for the nodes, enough fuel): when
every call has returned, no linked node is marked, `size()` is the number of
linked nodes, and that is the number of `Insert` and `Emplace` calls that
returned `true` minus the number of `Delete` calls that returned `true`. The
linked nodes are those of a chain of elements or, after a last `Emplace()` with
the empty argument pack, the one node without an element. Every call returns
when every call carries an element. -/
theorem size_counts_live_nodes {cmp : T → T → Bool} (hord : StrictTotalOrder cmp)
    (sp : List Bool) (ops : List (Op T)) (fuel : Nat)
    (hroom : 2 * (1 + ops.length) < WORD) (hfuel : ops.length + sp.length + 1 ≤ fuel) :
    ((∀ op ∈ ops, op.carriesElement = true) →
      ∃ st1 bs l1, run cmp fuel (init T sp) ops = .ok (st1, bs) ∧ Linked st1 l1 ∧ AllLive l1 ∧
        size st1 = l1.length ∧
        size st1 = countTrue Op.isInsert ops bs + countTrue Op.isEmplace ops bs -
          countTrue Op.isDelete ops bs) ∧
    (∀ st1 bs, run cmp fuel (init T sp) ops = .ok (st1, bs) →
      ((∃ l1, Linked st1 l1 ∧ AllLive l1 ∧ size st1 = l1.length) ∨
        (∃ d, LinkedNull st1 d ∧ size st1 = 1)) ∧
      size st1 = countTrue Op.isInsert ops bs + countTrue Op.isEmplace ops bs -
        countTrue Op.isDelete ops bs) := by
  have key : ∀ st1 bs, run cmp fuel (init T sp) ops = .ok (st1, bs) →
      ((∃ l1, Linked st1 l1 ∧ AllLive l1 ∧ size st1 = l1.length) ∨
        (∃ d, LinkedNull st1 d ∧ size st1 = 1)) ∧
      size st1 = countTrue Op.isInsert ops bs + countTrue Op.isEmplace ops bs -
        countTrue Op.isDelete ops bs := by
    intro st1 bs hrun
    obtain ⟨_, _, h3⟩ := run_any_spec hord.weak fuel ops (init T sp) []
      (init_linked T sp) List.Pairwise.nil (by simpa [init] using hroom)
      (by simpa [init] using hfuel) (by simp [init]) st1 bs hrun
    rcases h3 with ⟨l1, k1, _, k3⟩ | ⟨d, k1, k3⟩
    · obtain ⟨m1, m2, m3⟩ := k3 (fun c hc => by cases hc)
      have hsz : st1.size_ = l1.length := m3 rfl
      refine ⟨Or.inl ⟨l1, k1, m1, hsz⟩, ?_⟩
      simp only [size, List.length_nil] at m2 ⊢
      omega
    · obtain ⟨m2, m3⟩ := k3 (fun c hc => by cases hc)
      have hsz : st1.size_ = 1 := m3 rfl
      refine ⟨Or.inr ⟨d, k1, hsz⟩, ?_⟩
      simp only [size, List.length_nil] at m2 ⊢
      omega
  refine ⟨fun hel => ?_, key⟩
  obtain ⟨st1, bs, l1, h1, h2, _, _, h5⟩ := run_spec hord.weak fuel ops (init T sp) [] hel
    (init_linked T sp) List.Pairwise.nil (by simpa [init] using hroom)
    (by simpa [init] using hfuel)
  obtain ⟨k1, k2, k3⟩ := h5 (fun c hc => by cases hc)
  exact ⟨st1, bs, l1, h1, h2, k1, k3 rfl, (key st1 bs h1).2⟩

theorem size_counts_live_nodes_witness :
    (∃ st1 bs l1, run natLess 7 (init Nat [true])
        [Op.Insert 5, Op.Emplace 3, Op.Insert 5, Op.Delete 3, Op.Find 5] = .ok (st1, bs) ∧
      Linked st1 l1 ∧ AllLive l1 ∧ size st1 = l1.length ∧
      size st1 = countTrue Op.isInsert [Op.Insert 5, Op.Emplace 3, Op.Insert 5, Op.Delete 3,
          Op.Find 5] bs + countTrue Op.isEmplace [Op.Insert 5, Op.Emplace 3, Op.Insert 5,
          Op.Delete 3, Op.Find 5] bs -
        countTrue Op.isDelete [Op.Insert 5, Op.Emplace 3, Op.Insert 5, Op.Delete 3, Op.Find 5] bs) ∧
    (∃ st1 bs, run natLess 7 (init Nat [true])
        [Op.Insert 5, Op.Delete 5, Op.EmplaceNoArgs] = .ok (st1, bs) ∧
      ((∃ l1, Linked st1 l1 ∧ AllLive l1 ∧ size st1 = l1.length) ∨
        (∃ d, LinkedNull st1 d ∧ size st1 = 1)) ∧
      size st1 = countTrue Op.isInsert [Op.Insert 5, Op.Delete 5, Op.EmplaceNoArgs] bs +
          countTrue Op.isEmplace [Op.Insert 5, Op.Delete 5, Op.EmplaceNoArgs] bs -
        countTrue Op.isDelete [Op.Insert 5, Op.Delete 5, Op.EmplaceNoArgs] bs) :=
  ⟨(size_counts_live_nodes natLess_total [true]
      [Op.Insert 5, Op.Emplace 3, Op.Insert 5, Op.Delete 3, Op.Find 5] 7 (by decide)
      (by decide)).1 (by decide),
    _, _, rfl,
    (size_counts_live_nodes natLess_total [true]
      [Op.Insert 5, Op.Delete 5, Op.EmplaceNoArgs] 7 (by decide) (by decide)).2 _ _ rfl⟩

/-- C16. For every strict total order `cmp` and every finite sequence of
`Insert`, `Emplace`, `Delete` and `Find` calls on a newly constructed list
(room for the nodes, enough fuel), `Emplace()` with the empty argument pack
included: in the state reached when every call has returned, the head is the
node the constructor made, it holds no element, its `next` word is not marked,
and it is not among the retired nodes. Either the chain is a list of nodes with
elements, the head is none of them, every `Search` for an element returns,
without the null dereference that reading the element of the head would be,
with a `cur` that is not the head, and leaves the head as it was, and so does
every `Search` for a null reference that returns; or the chain is the one node
without an element that a last `Emplace()` has linked, that node is not the
head, and no `Search` returns. Every call returns when every call carries an
element. -/
theorem head_is_sentinel {cmp : T → T → Bool} (hord : StrictTotalOrder cmp)
    (sp : List Bool) (ops : List (Op T)) (fuel : Nat)
    (hroom : 2 * (1 + ops.length) < WORD) (hfuel : ops.length + sp.length + 1 ≤ fuel) :
    ((∀ op ∈ ops, op.carriesElement = true) →
      ∃ st1 bs, run cmp fuel (init T sp) ops = .ok (st1, bs)) ∧
    ∀ st1 bs, run cmp fuel (init T sp) ops = .ok (st1, bs) →
      st1.head_ = (init T sp).head_ ∧
      (∃ hn, load st1.mem st1.head_ = some ⟨none, hn⟩ ∧ is_marked_reference hn = false) ∧
      st1.head_ ∉ st1.retired ∧
      ((∃ l1, Linked st1 l1 ∧ st1.head_ ∉ addrs l1 ∧
          (∀ v fuel2, l1.length + 1 ≤ fuel2 →
            ∃ st2 prev cur b, Search cmp fuel2 st1 v = .ok (st2, prev, cur, b) ∧
              cur ≠ st1.head_ ∧ st2.head_ = st1.head_ ∧ st2.head_ ∉ st2.retired ∧
              ∃ hn, load st2.mem st2.head_ = some ⟨none, hn⟩ ∧
                is_marked_reference hn = false) ∧
          (∀ fuel2 st2 prev cur b, SearchRef cmp fuel2 st1 none = .ok (st2, prev, cur, b) →
            cur ≠ st1.head_ ∧ st2.head_ = st1.head_ ∧ st2.head_ ∉ st2.retired ∧
              ∃ hn, load st2.mem st2.head_ = some ⟨none, hn⟩ ∧
                is_marked_reference hn = false)) ∨
        (∃ d, LinkedNull st1 d ∧ d ≠ st1.head_ ∧
          (∀ v fuel2 r, Search cmp fuel2 st1 v ≠ .ok r) ∧
          (∀ fuel2 r, SearchRef cmp fuel2 st1 none ≠ .ok r))) := by
  constructor
  · intro hel
    obtain ⟨st1, bs, _, h1, _⟩ := run_spec hord.weak fuel ops (init T sp) [] hel
      (init_linked T sp) List.Pairwise.nil (by simpa [init] using hroom)
      (by simpa [init] using hfuel)
    exact ⟨st1, bs, h1⟩
  · intro st1 bs hrun
    obtain ⟨h4, h5, h6⟩ := run_any_spec hord.weak fuel ops (init T sp) []
      (init_linked T sp) List.Pairwise.nil (by simpa [init] using hroom)
      (by simpa [init] using hfuel) (by simp [init]) st1 bs hrun
    rcases h6 with ⟨l1, h2, _, _⟩ | ⟨d, h2, _⟩
    · refine ⟨h4, h2.sentinel, h5, Or.inl ⟨l1, h2, h2.sentinel_not_mem, fun v fuel2 hf2 => ?_,
        fun fuel2 st2 prev cur b hs => ?_⟩⟩
      · obtain ⟨st2, hrun2, g1, _, _, g4, _, g6, _, _⟩ := Search_spec cmp v fuel2 h2 hf2
        refine ⟨st2, _, _, _, hrun2, ?_, g1, ?_, g6.sentinel⟩
        · intro hcur
          obtain ⟨hn, hld, hch⟩ := h2
          have hv := load_valid hld
          cases hS : stopAt cmp v l1 with
          | nil => simp only [hS, firstAddr] at hcur; omega
          | cons c S =>
            simp only [hS, firstAddr] at hcur
            have hcS : c ∈ stopAt cmp v l1 := by rw [hS]; exact List.mem_cons_self _ _
            have hc : c ∈ l1 := (List.dropWhile_sublist _).subset hcS
            have : Linked st1 l1 := ⟨hn, hld, hch⟩
            exact this.sentinel_not_mem (List.mem_map.mpr ⟨c, hc, hcur⟩)
        · rw [g1, g4]
          intro h
          rcases List.mem_append.mp h with h3 | h3
          · exact h2.sentinel_not_mem
              (addrs_dead_passed_subset cmp v l1 (List.mem_reverse.mp h3))
          · exact h5 h3
      · obtain ⟨_, st3, hr, hl3, g2, _, _, g5, _, _⟩ := SearchRef_none_ok cmp h2 hs
        simp only [Prod.mk.injEq] at hr
        obtain ⟨rfl, _, rfl, _⟩ := hr
        refine ⟨?_, g2, ?_, ?_⟩
        · obtain ⟨hn, hld, _⟩ := h2
          have hv := load_valid hld
          omega
        · rw [g2, g5]
          intro h
          rcases List.mem_append.mp h with h3 | h3
          · exact h2.sentinel_not_mem (List.mem_reverse.mp h3)
          · exact h5 h3
        · exact hl3.sentinel
    · exact ⟨h4, h2.head_sentinel, h5, Or.inr ⟨d, h2, h2.ne_head,
        fun v fuel2 r => Search_linkedNull cmp v fuel2 h2 r,
        fun fuel2 r => SearchRef_linkedNull cmp none fuel2 h2 r⟩⟩

theorem head_is_sentinel_witness :
    (∃ st1 bs, run natLess 7 (init Nat [true])
        [Op.Insert 5, Op.Emplace 3, Op.Insert 5, Op.Delete 3, Op.Find 5] = .ok (st1, bs) ∧
      st1.head_ = (init Nat [true]).head_ ∧
      (∃ hn, load st1.mem st1.head_ = some ⟨none, hn⟩ ∧ is_marked_reference hn = false) ∧
      st1.head_ ∉ st1.retired ∧
      ((∃ l1, Linked st1 l1 ∧ st1.head_ ∉ addrs l1 ∧
          (∀ v fuel2, l1.length + 1 ≤ fuel2 →
            ∃ st2 prev cur b, Search natLess fuel2 st1 v = .ok (st2, prev, cur, b) ∧
              cur ≠ st1.head_ ∧ st2.head_ = st1.head_ ∧ st2.head_ ∉ st2.retired ∧
              ∃ hn, load st2.mem st2.head_ = some ⟨none, hn⟩ ∧
                is_marked_reference hn = false) ∧
          (∀ fuel2 st2 prev cur b, SearchRef natLess fuel2 st1 none = .ok (st2, prev, cur, b) →
            cur ≠ st1.head_ ∧ st2.head_ = st1.head_ ∧ st2.head_ ∉ st2.retired ∧
              ∃ hn, load st2.mem st2.head_ = some ⟨none, hn⟩ ∧
                is_marked_reference hn = false)) ∨
        (∃ d, LinkedNull st1 d ∧ d ≠ st1.head_ ∧
          (∀ v fuel2 r, Search natLess fuel2 st1 v ≠ .ok r) ∧
          (∀ fuel2 r, SearchRef natLess fuel2 st1 none ≠ .ok r)))) ∧
    (∃ st1 bs, run natLess 7 (init Nat [true])
        [Op.Insert 5, Op.Delete 5, Op.EmplaceNoArgs] = .ok (st1, bs) ∧
      st1.head_ = (init Nat [true]).head_ ∧
      (∃ hn, load st1.mem st1.head_ = some ⟨none, hn⟩ ∧ is_marked_reference hn = false) ∧
      st1.head_ ∉ st1.retired) :=
  ⟨⟨_, _, rfl, (head_is_sentinel natLess_total [true]
      [Op.Insert 5, Op.Emplace 3, Op.Insert 5, Op.Delete 3, Op.Find 5] 7 (by decide)
      (by decide)).2 _ _ rfl⟩,
    _, _, rfl,
    ((head_is_sentinel natLess_total [true]
      [Op.Insert 5, Op.Delete 5, Op.EmplaceNoArgs] 7 (by decide) (by decide)).2 _ _ rfl).1,
    ((head_is_sentinel natLess_total [true]
      [Op.Insert 5, Op.Delete 5, Op.EmplaceNoArgs] 7 (by decide) (by decide)).2 _ _ rfl).2.1,
    ((head_is_sentinel natLess_total [true]
      [Op.Insert 5, Op.Delete 5, Op.EmplaceNoArgs] 7 (by decide) (by decide)).2 _ _ rfl).2.2.1⟩

/-! ## `deleteHead` -/

/-- C19. For every strict total order `cmp` and every state whose chain is the
strictly sorted list `l` without marked nodes and whose `size()` is its
length: when the list is not empty, `getHeadData` returns the element of the
first node, which is less than every other element, and `deleteHead` (given
enough fuel) returns `true`, unlinks and retires exactly that node, keeps the
others in order and decreases `size()` by one. The list has to be non-empty for
that: on the empty list `getHeadData` returns `nullptr`, `deleteHead` binds its
reference to `*nullptr` all the same, and `Delete` returns `false` at line 265
before anything reads the reference, so that `deleteHead` returns `false` and
changes nothing. -/
theorem deleteHead_removes_least {cmp : T → T → Bool} (hord : StrictTotalOrder cmp)
    (st : LockFreeLinkedList T) (l : List (Cell T)) (fuel : Nat)
    (hl : Linked st l) (hsize : size st = l.length) (hsorted : Sorted cmp l)
    (hlive : AllLive l) (hfuel : l.length + st.spurious.length + 2 ≤ fuel) :
    (∀ c S, l = c :: S →
      getHeadData st = .ok (some c.elem) ∧ (∀ d ∈ S, cmp c.elem d.elem = true) ∧
      ∃ st1, deleteHead cmp fuel st = .ok (st1, true) ∧ Linked st1 S ∧ AllLive S ∧
        st1.retired = c.addr :: st.retired ∧ size st1 + 1 = size st) ∧
    (l = [] → getHeadData st = .ok none ∧ deleteHead cmp fuel st = .ok (st, false)) := by
  have ho := hord.weak
  have hbound := hl.chain_length_le
  have hl0 := hl
  obtain ⟨hn, hhd, hch⟩ := hl
  have hh0 : st.head_ ≠ 0 := by have := load_valid hhd; omega
  constructor
  · rintro c S rfl
    have hcm : c.marked = false := hlive c (List.mem_cons_self _ _)
    obtain ⟨nx, hc, _, _, _, hp⟩ := IsChain.tail hch
    have hn0 : hn ≠ 0 := by have := load_valid hc; omega
    have hc0 : c.addr ≠ 0 := hp ▸ hn0
    have hget : getHeadData st = .ok (some c.elem) := by
      simp [getHeadData, hh0, hhd, hp, hc, hc0]
    obtain ⟨hP, hS⟩ := passed_stopAt_self ho c S hcm
    have he : Equals cmp c.elem c.elem = true := by simp [Equals, ho.irrefl]
    obtain ⟨st1, hrun, _, _, h3, h4, _, h6⟩ :=
      (Delete_spec cmp c.elem (⟨hn, hhd, hch⟩ : Linked st (c :: S)) hfuel).2 c S hS he
    rw [hP] at h3 h4 h6
    refine ⟨hget, (List.pairwise_cons.mp hsorted).1, st1, ?_, by simpa [live] using h6,
      fun d hd => hlive d (List.mem_cons_of_mem _ hd), by simpa [dead, addrs] using h4, ?_⟩
    · simp only [deleteHead, hget, DeleteRef_some]
      exact hrun
    · show st1.size_ + 1 = st.size_
      have hsz : st.size_ = (c :: S).length := hsize
      rw [h3]
      simp only [dead, List.filter_nil, List.length_nil, Function.iterate_zero, id]
      rw [hsz, fetch_sub_eq (by simp) hbound]
      simp
  · rintro rfl
    have hch0 := hch
    simp only [IsChain] at hch0
    subst hch0
    have hget : getHeadData st = .ok none := by
      simp [getHeadData, hh0, hhd]
    obtain ⟨f, rfl⟩ : ∃ f, fuel = f + 2 := ⟨fuel - 2, by simp at hfuel; omega⟩
    refine ⟨hget, ?_⟩
    simp only [deleteHead, hget]
    exact DeleteRef_nil cmp none f hl0

theorem deleteHead_removes_least_witness :
    (getHeadData sample = .ok (some 3) ∧
      (∀ d ∈ [(⟨4, 5, false⟩ : Cell Nat), ⟨8, 7, false⟩], natLess 3 d.elem = true) ∧
      ∃ st1, deleteHead natLess 7 sample = .ok (st1, true) ∧
        Linked st1 [⟨4, 5, false⟩, ⟨8, 7, false⟩] ∧ AllLive [(⟨4, 5, false⟩ : Cell Nat), ⟨8, 7, false⟩] ∧
        st1.retired = 6 :: sample.retired ∧ size st1 + 1 = size sample) ∧
    (getHeadData (init Nat []) = .ok none ∧
      deleteHead natLess 2 (init Nat []) = .ok (init Nat [], false)) :=
  ⟨(deleteHead_removes_least natLess_total sample sampleCells 7 sample_linked rfl sample_sorted
      sample_allLive (by decide)).1 ⟨6, 3, false⟩ [⟨4, 5, false⟩, ⟨8, 7, false⟩] rfl,
    (deleteHead_removes_least natLess_total (init Nat []) [] 2 (init_linked Nat []) rfl
      List.Pairwise.nil (fun _ h => by cases h) (by decide)).2 rfl⟩

end LockFree
